import Mathlib

/-!
# Memory-pool allocator (`mem_pool.c`): shallow embedding and verification

The pool manager of `mem_pool.c` is embedded as pure state-passing functions.

Modelling conventions:

* A pointer into the node heap (`node_pt`, `alloc_pt`) is an address, counted in node slots:
  slot `i` of a heap that lies at the address `b` has the address `b + i`.  `NULL` is `none`.
  The pointers kept in `next`, `prev`, `gap_ix[].node` and by the callers are such addresses;
  the program never re-bases them.
* The host is a parameter (`host_t`): it decides what memory from `malloc` and in the tail
  added by `realloc` reads as before the program writes it, and where the node heap lies after
  `realloc`.  Host allocation succeeds.
* Reading or writing through a node pointer that does not point into the node heap the pool
  holds at that moment is undefined in C; the functions that do so return `none`.  A pointer is
  judged by its address alone.
* `alloc_record.mem` is kept as the byte offset from `pool.mem`.
* `size_t` is 64 bits wide and `unsigned` 32 bits wide.  Subtractions wrap as in C;
  sums stay below the word size for every pool the host can hold and are not reduced.
* `(float) len / cap > 0.75` is `3 * cap < 4 * len`, its exact meaning for the counts that occur.
* A pointer to a pool manager is the number the host gave it.  The functions that work on the
  pool store return `none` when the program reads or writes through `NULL` or outside the
  store, where C leaves the behaviour undefined.
* An access to the gap index past its end, which C leaves undefined, reads as zero and writes
  nothing; the theorems on the gap index are about states that keep every access inside.
-/

namespace MemPool

/-! ## Constants -/

def MEM_EXPAND_FACTOR : Nat := 2

def MEM_POOL_STORE_INIT_CAPACITY : Nat := 20

def MEM_POOL_STORE_EXPAND_FACTOR : Nat := 2

def MEM_NODE_HEAP_INIT_CAPACITY : Nat := 40

def MEM_NODE_HEAP_EXPAND_FACTOR : Nat := 2

def MEM_GAP_IX_INIT_CAPACITY : Nat := 40

def MEM_GAP_IX_EXPAND_FACTOR : Nat := 2

/-- The test `(float) len / cap > FILL_FACTOR` with `FILL_FACTOR = 0.75`. -/
def fill_exceeded (len cap : Nat) : Bool := decide (3 * cap < 4 * len)

/-! ## Types -/

/-- Modelled from the spec: the policy enumeration of the header `mem_pool.h`, which is not
among the sources (`FirstFit | BestFit`); the enumerators are named as the code names them. -/
inductive alloc_policy where
  | FIRST_FIT
  | BEST_FIT
  deriving DecidableEq

/-- Modelled from the spec: the status enumeration of the header `mem_pool.h` (`Ok`, `Fail`,
`CalledAgain`, `NotFreed`), named as the code names its values. -/
inductive alloc_status where
  | ALLOC_OK
  | ALLOC_FAIL
  | ALLOC_CALLED_AGAIN
  | ALLOC_NOT_FREED
  deriving DecidableEq

/-- Modelled from the spec: the allocation record of the header `mem_pool.h`, with the two
fields the code uses; `mem` is kept as an offset from `pool.mem`. -/
structure alloc_t where
  mem : Nat
  size : Nat
  deriving DecidableEq

/-- The node record `node_t` (lines 38-43); `next` and `prev` are addresses of node slots. -/
structure node_t where
  alloc_record : alloc_t
  used : Nat
  allocated : Nat
  next : Option Nat
  prev : Option Nat
  deriving DecidableEq

/-- The gap-index entry `gap_t` (lines 45-48); `node` is the address of a node slot. -/
structure gap_t where
  size : Nat
  node : Option Nat
  deriving DecidableEq

/-- Modelled from the spec: the pool record of the header `mem_pool.h`, with the fields the
code uses; `mem` is `some 0`, the base of the region, while the pool is open.  The counters
`num_allocs` and `num_gaps` are `unsigned`, the sizes are `size_t`. -/
structure pool_t where
  mem : Option Nat
  policy : alloc_policy
  total_size : Nat
  alloc_size : Nat
  num_allocs : Nat
  num_gaps : Nat
  deriving DecidableEq

/-- The pool manager `pool_mgr_t` (lines 50-57).  The pointer `node_heap` is split into the
address `heap_at` of the block and the slots `node_heap` that the block holds. -/
structure pool_mgr_t where
  pool : pool_t
  node_heap : List node_t
  heap_at : Nat
  total_nodes : Nat
  used_nodes : Nat
  gap_ix : List gap_t
  gap_ix_capacity : Nat
  deriving DecidableEq

/-! ## Memory helpers -/

/-- A node slot of memory that reads as zero. -/
def zero_node : node_t := ⟨⟨0, 0⟩, 0, 0, none, none⟩

/-- A gap-index entry of memory that reads as zero (also the value written when an entry is
cleared). -/
def zero_gap : gap_t := ⟨0, none⟩

/-- The read `node_heap[i]`. -/
def nodeAt (h : List node_t) (i : Nat) : node_t := h.getD i zero_node

/-- The read `gap_ix[i]`. -/
def gapAt (g : List gap_t) (i : Nat) : gap_t := g.getD i zero_gap

/-- Subtraction on `unsigned` (32 bits), wrapping below zero. -/
def sub32 (a b : Nat) : Nat := if b ≤ a then a - b else a + 2 ^ 32 - b

/-- Subtraction on `size_t` (64 bits), wrapping below zero. -/
def sub64 (a b : Nat) : Nat := if b ≤ a then a - b else a + 2 ^ 64 - b

/-- The value of an `int` after conversion to `unsigned`, as in `int < unsigned`: a negative
value wraps, a count is kept. -/
def toUnsigned (i : Int) : Nat := if 0 ≤ i then i.toNat else (i + 2 ^ 32).toNat

/-- The loop `for (i = start; i < start + fuel; ++i) if (P i) break;`: the first index
at which `P` holds, if any. -/
def scan (P : Nat → Bool) : Nat → Nat → Option Nat
  | 0, _ => none
  | fuel + 1, i => if P i then some i else scan P fuel (i + 1)

/-- The comparison `a > b` of two node pointers; `NULL` is the lowest address. -/
def ptr_gt : Option Nat → Option Nat → Bool
  | some a, some b => decide (b < a)
  | some _, none => true
  | none, _ => false

/-! ## The host -/

/-- What the program cannot know about the host allocator.  `node_junk a` is what the node slot at
the address `a` reads as when the host hands it out and the program has not written it yet:
neither `malloc` nor the tail added by `realloc` is cleared.  `gap_junk i` and `store_junk i`
are the same for entry `i` of a gap index and of the pool store.  `heap_to b n` is the
address of the node heap after `realloc` of the block at `b` to `n` slots: `b` when the host
grows the block in place, another address when it moves the block. -/
structure host_t where
  heap_to : Nat → Nat → Nat
  node_junk : Nat → node_t
  gap_junk : Nat → gap_t
  store_junk : Nat → Option Nat

/-- A host whose memory reads as zero and that grows every block in place. -/
def host_zero : host_t :=
  { heap_to := fun b _ => b
    node_junk := fun _ => zero_node
    gap_junk := fun _ => zero_gap
    store_junk := fun _ => none }

/-- A node slot of memory that is filled with the byte `0xCD`. -/
def filled_node : node_t :=
  ⟨⟨14829735431805717965, 14829735431805717965⟩, 3452816845, 3452816845,
    some 14829735431805717965, some 14829735431805717965⟩

/-- A host that grows every block in place and hands out memory filled with the byte `0xCD`,
as a debugging allocator does. -/
def host_filled : host_t :=
  { heap_to := fun b _ => b
    node_junk := fun _ => filled_node
    gap_junk := fun _ => ⟨14829735431805717965, some 14829735431805717965⟩
    store_junk := fun _ => some 14829735431805717965 }

/-- A host whose memory reads as zero and whose `realloc` moves the node heap 1000 slots up. -/
def host_moving : host_t := { host_zero with heap_to := fun b _ => b + 1000 }

/-- The hosts on which the defects of the node heap do not show: memory reads as zero and
every block is grown in place. -/
def benign (h : host_t) : Prop :=
  (∀ b n, h.heap_to b n = b) ∧ (∀ a, h.node_junk a = zero_node) ∧ (∀ i, h.gap_junk i = zero_gap)

/-- The host `malloc` of `n` records: record `i` reads as `junk i`. -/
def fresh {α : Type} (n : Nat) (junk : Nat → α) : List α := (List.range n).map junk

/-- The host `realloc` to `n` records: the old records are kept, record `i` of the new tail
reads as `junk i`.  Where the block lies afterwards is `host_t.heap_to`. -/
def realloc {α : Type} (xs : List α) (n : Nat) (junk : Nat → α) : List α :=
  xs.take n ++ (List.range (n - xs.length)).map (fun i => junk (xs.length + i))

/-- The slot of the node heap that the node pointer `a` points to, the heap being the block
`h` at the address `base`.  `none`: the pointer does not point into the block, and to read or
write through it is to use memory the program does not hold (a freed block, for one), which
C leaves undefined. -/
def slot_at (base : Nat) (h : List node_t) (a : Nat) : Option Nat :=
  if base ≤ a ∧ a < base + h.length then some (a - base) else none

/-! ## Static functions -/

/-- The function `_mem_resize_node_heap`.  The block may move; the pointers kept in the
nodes, in the gap index and by the callers are not touched. -/
def _mem_resize_node_heap (h : host_t) (p : pool_mgr_t) : pool_mgr_t × alloc_status :=
  if fill_exceeded p.used_nodes p.total_nodes then
    let t := p.total_nodes * MEM_NODE_HEAP_EXPAND_FACTOR
    let b := h.heap_to p.heap_at t
    ({ p with
        total_nodes := t
        heap_at := b
        node_heap := realloc p.node_heap t (fun i => h.node_junk (b + i)) },
      alloc_status.ALLOC_OK)
  else
    (p, alloc_status.ALLOC_OK)

/-- The function `_mem_resize_gap_ix`. -/
def _mem_resize_gap_ix (h : host_t) (p : pool_mgr_t) : pool_mgr_t × alloc_status :=
  if fill_exceeded p.pool.num_gaps p.gap_ix_capacity then
    let c := p.gap_ix_capacity * MEM_GAP_IX_EXPAND_FACTOR
    ({ p with gap_ix_capacity := c, gap_ix := realloc p.gap_ix c h.gap_junk },
      alloc_status.ALLOC_OK)
  else
    (p, alloc_status.ALLOC_OK)

/-- The loop of `_mem_sort_gap_ix`, entered with `i`: the entry at `i` is swapped with the
one before it while it is smaller, or of the same size and not at a higher node pointer. -/
def sort_loop (g : List gap_t) : Nat → List gap_t
  | 0 => g
  | i + 1 =>
    let cur := gapAt g (i + 1)
    let prv := gapAt g i
    if cur.size ≤ prv.size then
      if cur.size = prv.size ∧ ptr_gt cur.node prv.node = true then g
      else sort_loop ((g.set i cur).set (i + 1) prv) i
    else g

/-- The function `_mem_sort_gap_ix`. -/
def _mem_sort_gap_ix (p : pool_mgr_t) : pool_mgr_t × alloc_status :=
  ({ p with gap_ix := sort_loop p.gap_ix (p.pool.num_gaps - 1) }, alloc_status.ALLOC_OK)

/-- The function `_mem_add_to_gap_ix`. -/
def _mem_add_to_gap_ix (h : host_t) (p : pool_mgr_t) (size : Nat) (node : Option Nat) :
    pool_mgr_t × alloc_status :=
  let p1 := (_mem_resize_gap_ix h p).1
  let p2 : pool_mgr_t :=
    { p1 with
      gap_ix := p1.gap_ix.set p1.pool.num_gaps ⟨size, node⟩
      pool := { p1.pool with num_gaps := p1.pool.num_gaps + 1 } }
  _mem_sort_gap_ix p2

/-- The loop `while (position < num_gaps) { gap_ix[position] = gap_ix[position+1]; ++position; }`
of `_mem_remove_from_gap_ix`, run for `count` rounds. -/
def shift_loop (g : List gap_t) : Nat → Nat → List gap_t
  | _, 0 => g
  | position, count + 1 =>
    shift_loop (g.set position (gapAt g (position + 1))) (position + 1) count

/-- The function `_mem_remove_from_gap_ix`.  `position` starts at `-10`; when the node is
not found the test `position == -1` does not fire and the `int`/`unsigned` comparison
`position < num_gaps` is false at once. -/
def _mem_remove_from_gap_ix (p : pool_mgr_t) (_size : Nat) (node : Option Nat) :
    pool_mgr_t × alloc_status :=
  let position : Int :=
    match scan (fun i => decide ((gapAt p.gap_ix i).node = node)) p.pool.num_gaps 0 with
    | some i => (i : Int)
    | none => -10
  if position = -1 then (p, alloc_status.ALLOC_FAIL)
  else
    let pos := toUnsigned position
    let g1 := shift_loop p.gap_ix pos (p.pool.num_gaps - pos)
    let n := sub32 p.pool.num_gaps 1
    ({ p with
        gap_ix := g1.set n zero_gap
        pool := { p.pool with num_gaps := n } },
      alloc_status.ALLOC_OK)

/-! ## User-facing functions -/

/-- The pool manager that `mem_pool_open` builds and returns when the registry is
initialised (lines 147-200); the registry bookkeeping around it does not touch the manager.
Addresses of node slots are counted from the block that `malloc` returns at line 161, so the
node heap starts at address 0; only slot 0 of it is written.  The manager itself is not
cleared either: when `_mem_add_to_gap_ix` is called (line 195) `num_gaps` is 0, so the fill
test is false whatever `gap_ix_capacity` reads as; the three counters are set afterwards. -/
def mem_pool_open (h : host_t) (size : Nat) (policy : alloc_policy) : pool_mgr_t :=
  let heap := (fresh MEM_NODE_HEAP_INIT_CAPACITY h.node_junk).set 0
    { alloc_record := ⟨0, size⟩, used := 1, allocated := 0, next := none, prev := none }
  let m0 : pool_mgr_t :=
    { pool := { mem := some 0, policy := policy, total_size := size, alloc_size := 0,
                num_allocs := 0, num_gaps := 0 }
      node_heap := heap
      heap_at := 0
      total_nodes := 0
      used_nodes := 0
      gap_ix := fresh MEM_GAP_IX_INIT_CAPACITY h.gap_junk
      gap_ix_capacity := 0 }
  let m1 := (_mem_add_to_gap_ix h m0 size (some 0)).1
  { m1 with
    total_nodes := MEM_NODE_HEAP_INIT_CAPACITY
    used_nodes := 1
    gap_ix_capacity := MEM_GAP_IX_INIT_CAPACITY }

/-- The node `myNode` that `mem_new_alloc` selects (lines 271-298), as a pointer, or `NULL`:
under `FIRST_FIT` the address of the first slot of the node heap that is used, not allocated
and large enough, under `BEST_FIT` the node pointer kept in the first entry of the gap index
that is large enough.  The final `else return NULL` of the code is for a policy value that
is neither enumerator, which the type `alloc_policy` does not have. -/
def select_node (p : pool_mgr_t) (size : Nat) : Option Nat :=
  match p.pool.policy with
  | alloc_policy.FIRST_FIT =>
    (scan (fun i =>
      decide ((nodeAt p.node_heap i).used = 1) &&
      decide ((nodeAt p.node_heap i).allocated = 0) &&
      decide (size ≤ (nodeAt p.node_heap i).alloc_record.size)) p.total_nodes 0).map
        (fun i => p.heap_at + i)
  | alloc_policy.BEST_FIT =>
    match scan (fun i => decide (size ≤ (gapAt p.gap_ix i).size)) p.pool.num_gaps 0 with
    | some i => (gapAt p.gap_ix i).node
    | none => none

/-- The node-heap writes of `mem_new_alloc` for the remaining gap (lines 332-347): the slot
`unusedNode` becomes a gap node of size `remainingGap` right after the slot `myNode`.
`none`: `myNode->next` does not point into the node heap (line 342). -/
def split_link (base : Nat) (h : List node_t) (myNode unusedNode remainingGap : Nat) :
    Option (List node_t) :=
  let my := nodeAt h myNode
  let un : node_t :=
    { nodeAt h unusedNode with
      used := 1
      allocated := 0
      alloc_record := ⟨my.alloc_record.mem + my.alloc_record.size, remainingGap⟩ }
  let h1 := h.set unusedNode un
  let h2 : Option (List node_t) :=
    match (nodeAt h1 myNode).next with
    | some nxp =>
      match slot_at base h1 nxp with
      | some nx => some (h1.set nx { nodeAt h1 nx with prev := some (base + unusedNode) })
      | none => none
    | none => some h1
  h2.map (fun h2 =>
    let h3 := h2.set unusedNode { nodeAt h2 unusedNode with next := (nodeAt h2 myNode).next }
    let h4 := h3.set myNode { nodeAt h3 myNode with next := some (base + unusedNode) }
    h4.set unusedNode { nodeAt h4 unusedNode with prev := some (base + myNode) })

/-- The block of `mem_new_alloc` that creates the node of the remaining gap (lines 319-353):
an unused slot is found, linked right after `myNode` and entered in the gap index. -/
def new_alloc_split (h : host_t) (p4 : pool_mgr_t) (myNode remainingGap : Nat) :
    Option (pool_mgr_t × Option Nat) :=
  match scan (fun i => decide ((nodeAt p4.node_heap i).used = 0)) p4.total_nodes 0 with
  | none => some (p4, none)
  | some unusedNode =>
    match split_link p4.heap_at p4.node_heap myNode unusedNode remainingGap with
    | none => none
    | some hp =>
      let p5 : pool_mgr_t := { p4 with node_heap := hp, used_nodes := p4.used_nodes + 1 }
      let (p6, st6) := _mem_add_to_gap_ix h p5 remainingGap (some (p4.heap_at + unusedNode))
      if st6 ≠ alloc_status.ALLOC_OK then some (p6, none)
      else some (p6, some (p4.heap_at + myNode))

/-- The part of `mem_new_alloc` after the node heap was grown (lines 271-356): a node is
selected, taken out of the gap index and turned into an allocation of `size`.  `none`: the
pointer `myNode` does not point into the node heap (line 309), or `split_link` is
undefined. -/
def new_alloc_place (h : host_t) (p1 : pool_mgr_t) (size : Nat) :
    Option (pool_mgr_t × Option Nat) :=
  match select_node p1 size with
  | none => some (p1, none)
  | some myPtr =>
    match slot_at p1.heap_at p1.node_heap myPtr with
    | none => none
    | some myNode =>
      let p2 : pool_mgr_t :=
        { p1 with pool := { p1.pool with num_allocs := p1.pool.num_allocs + 1
                                         alloc_size := p1.pool.alloc_size + size } }
      let remainingGap := sub64 (nodeAt p2.node_heap myNode).alloc_record.size size
      let p3 := (_mem_remove_from_gap_ix p2 size (some myPtr)).1
      let n0 := nodeAt p3.node_heap myNode
      let n1 : node_t :=
        { n0 with allocated := 1, alloc_record := { n0.alloc_record with size := size } }
      let p4 : pool_mgr_t := { p3 with node_heap := p3.node_heap.set myNode n1 }
      if 0 < remainingGap then new_alloc_split h p4 myNode remainingGap
      else some (p4, some myPtr)

/-- The function `mem_new_alloc`: the new state and the returned handle (`none` is `NULL`);
the result is `none` when the call reads or writes through a pointer that does not point
into the node heap. -/
def mem_new_alloc (h : host_t) (p : pool_mgr_t) (size : Nat) :
    Option (pool_mgr_t × Option Nat) :=
  if p.pool.num_gaps = 0 then some (p, none)
  else
    let (p1, st) := _mem_resize_node_heap h p
    if st ≠ alloc_status.ALLOC_OK then some (p1, none)
    else if p1.total_nodes < p1.used_nodes then some (p1, none)
    else new_alloc_place h p1 size

/-- The node-heap writes of `mem_del_alloc` that merge the free successor in the slot
`nextNode` into the slot `node` (lines 396-424).  `none`: `nextNode->next` does not point
into the node heap (line 418). -/
def merge_next_link (base : Nat) (h : List node_t) (node nextNode : Nat) :
    Option (List node_t) :=
  let nd := nodeAt h node
  let nd1 : node_t :=
    { nd with alloc_record :=
      { nd.alloc_record with
        size := nd.alloc_record.size + (nodeAt h nextNode).alloc_record.size } }
  let h1 := h.set node nd1
  let h2 := h1.set nextNode { nodeAt h1 nextNode with used := 0 }
  let h3 : Option (List node_t) :=
    match (nodeAt h2 nextNode).next with
    | some nnp =>
      match slot_at base h2 nnp with
      | some nn =>
        let h3a := h2.set nn { nodeAt h2 nn with prev := (nodeAt h2 nextNode).prev }
        some (h3a.set node { nodeAt h3a node with next := (nodeAt h3a nextNode).next })
      | none => none
    | none => some (h2.set node { nodeAt h2 node with next := none })
  h3.map (fun h3 =>
    let h4 := h3.set nextNode { nodeAt h3 nextNode with next := none }
    h4.set nextNode { nodeAt h4 nextNode with prev := none })

/-- The block of `mem_del_alloc` that merges a free successor into `node` (lines 388-425).
The status `ALLOC_FAIL` is the early `return ALLOC_FAIL`; `none`: `node->next` or
`nextNode->next` does not point into the node heap. -/
def del_merge_next (p1 : pool_mgr_t) (node : Nat) : Option (pool_mgr_t × alloc_status) :=
  match (nodeAt p1.node_heap node).next with
  | none => some (p1, alloc_status.ALLOC_OK)
  | some nxp =>
    match slot_at p1.heap_at p1.node_heap nxp with
    | none => none
    | some nextNode =>
      if (nodeAt p1.node_heap nextNode).allocated = 0 then
        let (q1, st) := _mem_remove_from_gap_ix p1
          (nodeAt p1.node_heap nextNode).alloc_record.size (some nxp)
        if st ≠ alloc_status.ALLOC_OK then some (q1, alloc_status.ALLOC_FAIL)
        else
          match merge_next_link q1.heap_at q1.node_heap node nextNode with
          | none => none
          | some hq =>
            some ({ q1 with node_heap := hq, used_nodes := sub32 q1.used_nodes 1 },
              alloc_status.ALLOC_OK)
      else some (p1, alloc_status.ALLOC_OK)

/-- The node-heap writes of `mem_del_alloc` that merge the slot `node` into its free
predecessor in the slot `prevNode` (lines 438-466).  `none`: `node->next` does not point
into the node heap (line 458). -/
def merge_prev_link (base : Nat) (h : List node_t) (node prevNode : Nat) :
    Option (List node_t) :=
  let pv := nodeAt h prevNode
  let pv1 : node_t :=
    { pv with alloc_record :=
      { pv.alloc_record with
        size := pv.alloc_record.size + (nodeAt h node).alloc_record.size } }
  let h1 := h.set prevNode pv1
  let h2 := h1.set node { nodeAt h1 node with used := 0 }
  let h3 : Option (List node_t) :=
    match (nodeAt h2 node).next with
    | some nxp =>
      let h3a := h2.set prevNode { nodeAt h2 prevNode with next := some nxp }
      match slot_at base h3a nxp with
      | some nx => some (h3a.set nx { nodeAt h3a nx with prev := some (base + prevNode) })
      | none => none
    | none => some (h2.set prevNode { nodeAt h2 prevNode with next := none })
  h3.map (fun h3 =>
    let h4 := h3.set node { nodeAt h3 node with next := none }
    h4.set node { nodeAt h4 node with prev := none })

/-- The block of `mem_del_alloc` that merges `node` into a free predecessor (lines 427-469):
the new state, the slot of the node that now stands for the gap, and `ALLOC_FAIL` for the
early `return ALLOC_FAIL`; `none`: `node->prev` or `node->next` does not point into the node
heap. -/
def del_merge_prev (p2 : pool_mgr_t) (node : Nat) :
    Option (pool_mgr_t × Nat × alloc_status) :=
  match (nodeAt p2.node_heap node).prev with
  | none => some (p2, node, alloc_status.ALLOC_OK)
  | some pvp =>
    match slot_at p2.heap_at p2.node_heap pvp with
    | none => none
    | some prevNode =>
      if (nodeAt p2.node_heap prevNode).allocated = 0 then
        let (q2, st) := _mem_remove_from_gap_ix p2
          (nodeAt p2.node_heap prevNode).alloc_record.size (some pvp)
        if st ≠ alloc_status.ALLOC_OK then some (q2, node, alloc_status.ALLOC_FAIL)
        else
          match merge_prev_link q2.heap_at q2.node_heap node prevNode with
          | none => none
          | some hq =>
            some ({ q2 with node_heap := hq, used_nodes := sub32 q2.used_nodes 1 },
              prevNode, alloc_status.ALLOC_OK)
      else some (p2, node, alloc_status.ALLOC_OK)

/-- The start of `mem_del_alloc` once the node is found (lines 381-386): the node in the
slot `node` is marked free and the statistics are updated. -/
def del_mark_free (p : pool_mgr_t) (node : Nat) : pool_mgr_t :=
  let nd0 := nodeAt p.node_heap node
  let h0 := p.node_heap.set node { nd0 with allocated := 0 }
  { p with
    node_heap := h0
    pool := { p.pool with
              num_allocs := sub32 p.pool.num_allocs 1
              alloc_size := sub64 p.pool.alloc_size (nodeAt h0 node).alloc_record.size } }

/-- The function `mem_del_alloc`: the new state and the returned status.  The handle
`alloc` is the node pointer the caller passes; it is only compared with the addresses of the
slots (line 370).  The result is `none` when the call reads or writes through a pointer that
does not point into the node heap. -/
def mem_del_alloc (h : host_t) (p : pool_mgr_t) (alloc : Nat) :
    Option (pool_mgr_t × alloc_status) :=
  match scan (fun i => decide ((nodeAt p.node_heap i).used = 1) &&
      decide (p.heap_at + i = alloc)) p.total_nodes 0 with
  | none => some (p, alloc_status.ALLOC_FAIL)
  | some node =>
    let p1 := del_mark_free p node
    match del_merge_next p1 node with
    | none => none
    | some (p2, st2) =>
      if st2 ≠ alloc_status.ALLOC_OK then some (p2, alloc_status.ALLOC_FAIL)
      else
        match del_merge_prev p2 node with
        | none => none
        | some (p3, node1, st3) =>
          if st3 ≠ alloc_status.ALLOC_OK then some (p3, alloc_status.ALLOC_FAIL)
          else
            some (_mem_add_to_gap_ix h p3 (nodeAt p3.node_heap node1).alloc_record.size
              (some (p3.heap_at + node1)))

/-! ## Inspection -/

/-- Modelled from the spec: the segment record of the header `mem_pool.h`, a pair
`(size, allocated)`; `allocated` holds the flag of the node, `1` for an allocation and `0`
for a gap. -/
structure pool_segment_t where
  size : Nat
  allocated : Nat
  deriving DecidableEq

/-- The segment record that `mem_inspect_pool` writes for the node in slot `i`
(lines 501-502). -/
def segment_of (h : List node_t) (i : Nat) : pool_segment_t :=
  ⟨(nodeAt h i).alloc_record.size, (nodeAt h i).allocated⟩

/-- The loop of `mem_inspect_pool` (lines 500-504) with `fuel` rounds to go and `firstNode`
at `cur`: every round reads the node and steps to its `next`.  The result is `none` when a
round reads through `NULL` or through a pointer that does not point into the node heap. -/
def inspect_loop (base : Nat) (h : List node_t) :
    Nat → Option Nat → Option (List pool_segment_t)
  | 0, _ => some []
  | _ + 1, none => none
  | fuel + 1, some a =>
    match slot_at base h a with
    | none => none
    | some i =>
      (inspect_loop base h fuel (nodeAt h i).next).map (fun rest => segment_of h i :: rest)

/-- The function `mem_inspect_pool`: the array written to `*segments`, whose length is the
count written to `*num_segments`; `none` when the walk is undefined. -/
def mem_inspect_pool (p : pool_mgr_t) : Option (List pool_segment_t) :=
  inspect_loop p.heap_at p.node_heap p.used_nodes (some p.heap_at)

/-! ## The pool store -/

/-- The static variables `pool_store`, `pool_store_size` and `pool_store_capacity`
(lines 66-68).  A pointer to a pool manager is a number, `NULL` is `none`, for the store and
for its entries alike. -/
structure store_t where
  pool_store : Option (List (Option Nat))
  pool_store_size : Nat
  pool_store_capacity : Nat
  deriving DecidableEq

/-- The static variables as the program starts (lines 66-68). -/
def store_start : store_t := ⟨none, 0, 0⟩

/-- The function `mem_init`. -/
def mem_init (h : host_t) (s : store_t) : store_t × alloc_status :=
  match s.pool_store with
  | none =>
    ({ pool_store := some (fresh MEM_POOL_STORE_INIT_CAPACITY h.store_junk)
       pool_store_capacity := MEM_POOL_STORE_INIT_CAPACITY
       pool_store_size := 0 }, alloc_status.ALLOC_OK)
  | some _ => (s, alloc_status.ALLOC_CALLED_AGAIN)

/-- The function `mem_free`. -/
def mem_free (s : store_t) : store_t × alloc_status :=
  match s.pool_store with
  | some _ => ({ s with pool_store := none }, alloc_status.ALLOC_OK)
  | none => (s, alloc_status.ALLOC_CALLED_AGAIN)

/-- The function `_mem_resize_pool_store`.  The test of line 525 is the assignment
`pool_store = NULL`: it stores `NULL` and its value is false, so the `else` branch returns
`ALLOC_OK`. -/
def _mem_resize_pool_store (h : host_t) (s : store_t) : store_t × alloc_status :=
  if fill_exceeded s.pool_store_size s.pool_store_capacity then
    let c := s.pool_store_capacity * MEM_EXPAND_FACTOR
    let s1 : store_t :=
      { s with
        pool_store_capacity := c
        pool_store := s.pool_store.map (fun st => realloc st c h.store_junk) }
    let s2 : store_t := { s1 with pool_store := none }
    match s2.pool_store with
    | some _ => (s2, alloc_status.ALLOC_FAIL)
    | none => (s2, alloc_status.ALLOC_OK)
  else
    (s, alloc_status.ALLOC_OK)

/-- The function `mem_pool_open` as a whole, on the pool store; `mgr` is the address the host
gives the new manager (line 147).  The result is `none` when the program writes through
`NULL` or outside the store (line 203); otherwise it is the store afterwards and the pointer
returned, with the manager it points to. -/
def mem_pool_open_store (h : host_t) (s : store_t) (mgr : Nat) (size : Nat)
    (policy : alloc_policy) : Option (store_t × Option (Nat × pool_mgr_t)) :=
  match s.pool_store with
  | none => some (s, none)
  | some _ =>
    let s1 := (_mem_resize_pool_store h s).1
    let m := mem_pool_open h size policy
    match s1.pool_store with
    | none => none
    | some st =>
      if s1.pool_store_size < st.length then
        some ({ s1 with
                pool_store := some (st.set s1.pool_store_size (some mgr))
                pool_store_size := s1.pool_store_size + 1 }, some (mgr, m))
      else none

/-- The loop of `mem_pool_close` (lines 236-240): every entry of the store below
`pool_store_size` that points to the manager is set to `NULL`. -/
def close_loop (st : List (Option Nat)) (mgr : Nat) (size : Nat) : List (Option Nat) :=
  (List.range size).foldl (fun t i => if t.getD i none = some mgr then t.set i none else t) st

/-- The function `mem_pool_close` for the manager `p` at the address `mgr`.  The result is
`none` when the loop reads through a `NULL` store. -/
def mem_pool_close (s : store_t) (mgr : Nat) (p : pool_mgr_t) :
    Option (store_t × alloc_status) :=
  if p.pool.mem = none then some (s, alloc_status.ALLOC_CALLED_AGAIN)
  else if p.pool.num_gaps ≠ 1 then some (s, alloc_status.ALLOC_NOT_FREED)
  else if p.pool.num_allocs ≠ 0 then some (s, alloc_status.ALLOC_NOT_FREED)
  else
    match s.pool_store with
    | none => if s.pool_store_size = 0 then some (s, alloc_status.ALLOC_OK) else none
    | some st =>
      some ({ s with pool_store := some (close_loop st mgr s.pool_store_size) },
        alloc_status.ALLOC_OK)

/-- The store after `n` further calls of `mem_pool_open(size, policy)`, the host giving the
managers the addresses `base`, `base + 1`, ...; `none` when one of the calls fails as
described at `mem_pool_open_store`. -/
def open_many (h : host_t) (size : Nat) (policy : alloc_policy) :
    Nat → Nat → store_t → Option store_t
  | 0, _, s => some s
  | n + 1, base, s =>
    match mem_pool_open_store h s base size policy with
    | some (s1, _) => open_many h size policy n (base + 1) s1
    | none => none

/-- The pool store after `mem_init` and sixteen calls of `mem_pool_open` that were given the
addresses `0` to `15`: sixteen of its twenty entries are taken. -/
def store_sixteen : store_t :=
  { pool_store := some ((List.range 16).map some ++ List.replicate 4 none)
    pool_store_size := 16
    pool_store_capacity := 20 }

/-- The pool store after `mem_init` on a host whose memory reads as zero. -/
def store_init : store_t := (mem_init host_zero store_start).1

/-! ## The segment list and the reachable states -/

/-- The walk `node = node->next` from the pointer `cur`, for at most `fuel` nodes: the slots
met.  `none`: the walk meets a pointer that does not point into the node heap. -/
def walk (base : Nat) (h : List node_t) : Nat → Option Nat → Option (List Nat)
  | 0, _ => some []
  | _ + 1, none => some []
  | fuel + 1, some a =>
    match slot_at base h a with
    | none => none
    | some i => (walk base h fuel (nodeAt h i).next).map (fun rest => i :: rest)

/-- The segment list: the slots met by following `next` from the head, which is slot 0 as in
`mem_inspect_pool` (line 499); `none` when the walk is undefined. -/
def seg_list (p : pool_mgr_t) : Option (List Nat) :=
  walk p.heap_at p.node_heap p.total_nodes (some p.heap_at)

/-- The first `num_gaps` entries of the gap index. -/
def live_gaps (p : pool_mgr_t) : List gap_t := p.gap_ix.take p.pool.num_gaps

/-- The size of the segment in slot `i`. -/
def seg_size (p : pool_mgr_t) (i : Nat) : Nat := (nodeAt p.node_heap i).alloc_record.size

/-- The pool offset of the segment in slot `i`. -/
def seg_offset (p : pool_mgr_t) (i : Nat) : Nat := (nodeAt p.node_heap i).alloc_record.mem

/-- The segment in slot `i` is free (`allocated == 0`). -/
def seg_free (p : pool_mgr_t) (i : Nat) : Bool := decide ((nodeAt p.node_heap i).allocated = 0)

/-- The handle `a` is a live allocation: the address of a slot of the node heap that is in
use and allocated. -/
def live (p : pool_mgr_t) (a : Nat) : Prop :=
  ∃ i, i < p.total_nodes ∧ p.heap_at + i = a ∧
    (nodeAt p.node_heap i).used = 1 ∧ (nodeAt p.node_heap i).allocated = 1

/-- The pool states reached from `mem_pool_open` by calls of `mem_new_alloc` and
`mem_del_alloc` with any argument on any host, as long as the calls are defined. -/
inductive Reachable : pool_mgr_t → Prop where
  | opened (h : host_t) (size : Nat) (policy : alloc_policy) :
      Reachable (mem_pool_open h size policy)
  | new_alloc (h : host_t) (p : pool_mgr_t) (k : Nat) (q : pool_mgr_t) (r : Option Nat) :
      Reachable p → mem_new_alloc h p k = some (q, r) → Reachable q
  | del_alloc (h : host_t) (p : pool_mgr_t) (a : Nat) (q : pool_mgr_t) (st : alloc_status) :
      Reachable p → mem_del_alloc h p a = some (q, st) → Reachable q

/-- The pool states reached from `mem_pool_open(size, policy)` on hosts in `H` by
`mem_new_alloc` with request sizes in `K` and by `mem_del_alloc` on live handles. -/
inductive ReachableOn (H : host_t → Prop) (K : Nat → Prop) (size : Nat)
    (policy : alloc_policy) : pool_mgr_t → Prop where
  | opened (h : host_t) : H h → ReachableOn H K size policy (mem_pool_open h size policy)
  | new_alloc (h : host_t) (p : pool_mgr_t) (k : Nat) (q : pool_mgr_t) (r : Option Nat) :
      H h → ReachableOn H K size policy p → K k → mem_new_alloc h p k = some (q, r) →
      ReachableOn H K size policy q
  | del_alloc (h : host_t) (p : pool_mgr_t) (a : Nat) (q : pool_mgr_t) (st : alloc_status) :
      H h → ReachableOn H K size policy p → live p a → mem_del_alloc h p a = some (q, st) →
      ReachableOn H K size policy q

/-- The swap test of `_mem_sort_gap_ix` for the entry `cur` and the entry `prv` before it. -/
def swaps (cur prv : gap_t) : Prop :=
  cur.size ≤ prv.size ∧ ¬ (cur.size = prv.size ∧ ptr_gt cur.node prv.node = true)

/-- The order the gap index is kept in: by size, entries of equal size by node pointer. -/
def gap_le (a b : gap_t) : Prop :=
  a.size < b.size ∨ (a.size = b.size ∧ ptr_gt a.node b.node = false)

/-- What the steps of `mem_new_alloc` and `mem_del_alloc` other than the two resize
functions keep of the pool `p` in `q`. -/
structure Kept (p q : pool_mgr_t) : Prop where
  mem : q.pool.mem = p.pool.mem
  policy : q.pool.policy = p.pool.policy
  t_size : q.pool.total_size = p.pool.total_size
  nodes : q.total_nodes = p.total_nodes
  cap : q.gap_ix_capacity = p.gap_ix_capacity
  base : q.heap_at = p.heap_at
  heap_len : q.node_heap.length = p.node_heap.length

/-- The pool `q` comes from `p` by steps that keep the capacities and at most one call of
`_mem_add_to_gap_ix`, which doubles the capacity of the gap index exactly when the entries
it finds, one less than those of `q`, exceed the fill factor. -/
structure Grown (p q : pool_mgr_t) : Prop where
  mem : q.pool.mem = p.pool.mem
  policy : q.pool.policy = p.pool.policy
  t_size : q.pool.total_size = p.pool.total_size
  nodes : q.total_nodes = p.total_nodes
  base : q.heap_at = p.heap_at
  heap_len : q.node_heap.length = p.node_heap.length
  cap : q.gap_ix_capacity = p.gap_ix_capacity ∨
    (q.gap_ix_capacity = p.gap_ix_capacity * 2 ∧
      ∃ n, q.pool.num_gaps = n + 1 ∧ 3 * p.gap_ix_capacity < 4 * n)

/-! ## Scenarios -/

/-- The pool after a call that returns a state with its result; it stays as it is when the
call is undefined. -/
def pool_after {α : Type} (p : pool_mgr_t) (r : Option (pool_mgr_t × α)) : pool_mgr_t :=
  match r with
  | some (q, _) => q
  | none => p

/-- The pool after `mem_new_alloc(pool, k)` on the host `h`. -/
def after_alloc (h : host_t) (p : pool_mgr_t) (k : Nat) : pool_mgr_t :=
  pool_after p (mem_new_alloc h p k)

/-- The pool after `mem_del_alloc(pool, a)` on the host `h`. -/
def after_free (h : host_t) (p : pool_mgr_t) (a : Nat) : pool_mgr_t :=
  pool_after p (mem_del_alloc h p a)

/-- The pool after `n` further calls of `mem_new_alloc(pool, 1)` on the host `h`. -/
def alloc_many (h : host_t) : Nat → pool_mgr_t → pool_mgr_t
  | 0, p => p
  | n + 1, p => alloc_many h n (after_alloc h p 1)

/-- A first-fit pool of 100 bytes after `alloc 10`, `alloc 10`, `alloc 75` and the release of
the second allocation: the gaps are `[10, 20)` in slot 1 and `[95, 100)` in slot 3. -/
def scenario_holes : pool_mgr_t :=
  after_free host_zero
    (after_alloc host_zero
      (after_alloc host_zero
        (after_alloc host_zero (mem_pool_open host_zero 100 alloc_policy.FIRST_FIT) 10) 10)
      75) 1

/-- The pool `scenario_holes` after a further `alloc 5`, which splits the gap in slot 1: the
gaps are `[15, 20)` in slot 4 and `[95, 100)` in slot 3. -/
def scenario_split : pool_mgr_t := after_alloc host_zero scenario_holes 5

/-- A first-fit pool of 100 bytes after `alloc 10` and the release of that allocation. -/
def scenario_freed : pool_mgr_t :=
  after_free host_zero
    (after_alloc host_zero (mem_pool_open host_zero 100 alloc_policy.FIRST_FIT) 10) 0

/-- A first-fit pool of 100 bytes after `alloc 100`. -/
def scenario_whole : pool_mgr_t :=
  after_alloc host_zero (mem_pool_open host_zero 100 alloc_policy.FIRST_FIT) 100

/-- The handles that `n` further calls of `mem_new_alloc(pool, 1)` on the host `h` return,
in the order of the calls: `some (some a)` for the handle `a`, `some none` for `NULL` and
`none` for a call that is undefined. -/
def alloc_handles (h : host_t) : Nat → pool_mgr_t → List (Option (Option Nat))
  | 0, _ => []
  | n + 1, p => (mem_new_alloc h p 1).map (fun r => r.2) :: alloc_handles h n (after_alloc h p 1)

/-- A first-fit pool of 100 bytes on the host `host_filled` after `alloc 10`. -/
def scenario_filled : pool_mgr_t :=
  after_alloc host_filled (mem_pool_open host_filled 100 alloc_policy.FIRST_FIT) 10

/-- A first-fit pool of 100 bytes on the host `host_moving` after 30 allocations of one byte:
31 of the 40 slots of the node heap are used. -/
def scenario_thirty : pool_mgr_t :=
  alloc_many host_moving 30 (mem_pool_open host_moving 100 alloc_policy.FIRST_FIT)

/-- The pool `scenario_thirty` after one more allocation of one byte; the call grows the node
heap, which the host moves. -/
def scenario_moved : pool_mgr_t := after_alloc host_moving scenario_thirty 1

/-- The pool `scenario_thirty` after the release of the sixth allocation and one more
allocation of one byte; the latter call grows the node heap, which the host moves. -/
def scenario_refill : pool_mgr_t :=
  after_alloc host_moving (after_free host_moving scenario_thirty 5) 1

/-- A best-fit pool of 100 bytes on the host `host_moving` after 30 allocations of one
byte. -/
def scenario_best_thirty : pool_mgr_t :=
  alloc_many host_moving 30 (mem_pool_open host_moving 100 alloc_policy.BEST_FIT)

/-- The node pointer `o` is `NULL` or the address of one of the first `n` slots of a node heap
that lies at address 0. -/
def ptr_ok (n : Nat) (o : Option Nat) : Prop := ∀ a, o = some a → a < n

/-- The node heap `h` has `n` slots, and every `next` and `prev` pointer kept in it is `NULL`
or the address of one of these slots, the heap lying at address 0. -/
def closedN (n : Nat) (h : List node_t) : Prop :=
  h.length = n ∧ ∀ i, ptr_ok n (nodeAt h i).next ∧ ptr_ok n (nodeAt h i).prev

/-! ## The representation invariant

The invariant is stated for a node heap that lies at address 0, where the address of a slot
is its number. -/

/-- The first element of `L`, or `d` when `L` is empty. -/
def headOr : List Nat → Option Nat → Option Nat
  | [], d => d
  | b :: _, _ => some b

/-- The last element of `L`, or `d` when `L` is empty. -/
def lastOr : List Nat → Option Nat → Option Nat
  | [], d => d
  | a :: rest, _ => lastOr rest (some a)

/-- Each node of `L` has the node after it as `next`; the last one has `nx`. -/
def nextOK (h : List node_t) (nx : Option Nat) : List Nat → Prop
  | [] => True
  | a :: rest => (nodeAt h a).next = headOr rest nx ∧ nextOK h nx rest

/-- Each node of `L` has the node before it as `prev`; the first one has `pv`. -/
def prevOK (h : List node_t) : Option Nat → List Nat → Prop
  | _, [] => True
  | pv, a :: rest => (nodeAt h a).prev = pv ∧ prevOK h (some a) rest

/-- The segments of `L` lie one after the other from offset `s` on. -/
def tilesFrom (h : List node_t) : Nat → List Nat → Prop
  | _, [] => True
  | s, a :: rest =>
    (nodeAt h a).alloc_record.mem = s ∧ tilesFrom h (s + (nodeAt h a).alloc_record.size) rest

/-- The sum of the sizes of the segments of `L`. -/
def sizes (h : List node_t) (L : List Nat) : Nat :=
  (L.map (fun i => (nodeAt h i).alloc_record.size)).sum

/-- The slot `i` holds a free segment other than `hole`. -/
def freeAt (h : List node_t) (hole : Option Nat) (i : Nat) : Bool :=
  decide ((nodeAt h i).allocated = 0) && decide (some i ≠ hole)

/-- The slot `i` holds an allocated segment. -/
def allocAt (h : List node_t) (i : Nat) : Bool := decide ((nodeAt h i).allocated = 1)

/-- The gap-index entry of the segment in slot `i`. -/
def gap_entry (h : List node_t) (i : Nat) : gap_t := ⟨(nodeAt h i).alloc_record.size, some i⟩

/-- The representation invariant: `L` is the segment list of `p`.  With `hole = some m` the
segment `m` is free but not yet entered in the gap index (the state inside `mem_del_alloc`). -/
structure WFh (p : pool_mgr_t) (L : List Nat) (hole : Option Nat) : Prop where
  heap_len : p.node_heap.length = p.total_nodes
  gap_len : p.gap_ix.length = p.gap_ix_capacity
  head : L.head? = some 0
  nodup : L.Nodup
  bound : ∀ i ∈ L, i < p.total_nodes
  used_in : ∀ i ∈ L, (nodeAt p.node_heap i).used = 1
  used_out : ∀ i, i ∉ L → (nodeAt p.node_heap i).used = 0
  alloc01 : ∀ i ∈ L, (nodeAt p.node_heap i).allocated ≤ 1
  nexts : nextOK p.node_heap none L
  prevs : prevOK p.node_heap none L
  tiles : tilesFrom p.node_heap 0 L
  total : sizes p.node_heap L = p.pool.total_size
  noadj : List.Chain' (fun x y => ¬ (x = true ∧ y = true)) (L.map (freeAt p.node_heap hole))
  gaps : (live_gaps p).Perm ((L.filter (freeAt p.node_heap hole)).map (gap_entry p.node_heap))
  sorted : (live_gaps p).Pairwise gap_le
  n_allocs : p.pool.num_allocs = L.countP (allocAt p.node_heap)
  a_size : p.pool.alloc_size = sizes p.node_heap (L.filter (allocAt p.node_heap))
  n_used : p.used_nodes = L.length
  cap_nodes : 4 * p.used_nodes ≤ 3 * p.total_nodes + 4
  min_nodes : 40 ≤ p.total_nodes
  cap_gaps : 4 * p.pool.num_gaps ≤ 3 * p.gap_ix_capacity + 4
  min_gaps : 40 ≤ p.gap_ix_capacity

/-- What `mem_new_alloc` does to the pool `p` when it places a request of `k` in the node `S`
of the segment list `A ++ S :: B`, giving the pool `q`. -/
structure AllocEffect (p q : pool_mgr_t) (A B : List Nat) (S k : Nat) : Prop where
  was_free : (nodeAt p.node_heap S).allocated = 0
  fits : k ≤ (nodeAt p.node_heap S).alloc_record.size
  now_alloc : (nodeAt q.node_heap S).allocated = 1
  now_size : (nodeAt q.node_heap S).alloc_record.size = k
  now_mem : (nodeAt q.node_heap S).alloc_record.mem = (nodeAt p.node_heap S).alloc_record.mem
  n_allocs : q.pool.num_allocs = p.pool.num_allocs + 1
  a_size : q.pool.alloc_size = p.pool.alloc_size + k
  t_size : q.pool.total_size = p.pool.total_size
  policy : q.pool.policy = p.pool.policy
  others : ∀ i, i ≠ S → i ∈ A ++ S :: B →
    (nodeAt q.node_heap i).alloc_record = (nodeAt p.node_heap i).alloc_record ∧
    (nodeAt q.node_heap i).allocated = (nodeAt p.node_heap i).allocated
  exact : (nodeAt p.node_heap S).alloc_record.size = k →
    WFh q (A ++ S :: B) none ∧ q.used_nodes = p.used_nodes ∧
    q.pool.num_gaps + 1 = p.pool.num_gaps ∧
    live_gaps q = (live_gaps p).eraseP (fun y => decide (y.node = some S))
  split : k < (nodeAt p.node_heap S).alloc_record.size →
    ∃ R, R ∉ A ++ S :: B ∧ WFh q (A ++ S :: R :: B) none ∧ q.used_nodes = p.used_nodes + 1 ∧
      q.pool.num_gaps = p.pool.num_gaps ∧
      (nodeAt q.node_heap R).allocated = 0 ∧
      (nodeAt q.node_heap R).alloc_record.size = (nodeAt p.node_heap S).alloc_record.size - k ∧
      (nodeAt q.node_heap R).alloc_record.mem = (nodeAt p.node_heap S).alloc_record.mem + k ∧
      ∃ F1 F2, F1 ++ F2 = (live_gaps p).eraseP (fun y => decide (y.node = some S)) ∧
        live_gaps q = F1 ++ ⟨(nodeAt p.node_heap S).alloc_record.size - k, some R⟩ :: F2

/-- The node `myNode` after `mem_new_alloc` turned it into an allocation of `size`
(lines 315-316). -/
def alloc_node (h : List node_t) (myNode size : Nat) : node_t :=
  { nodeAt h myNode with
    allocated := 1
    alloc_record := { (nodeAt h myNode).alloc_record with size := size } }

/-- The pool after `mem_new_alloc` placed `k` in a gap `S` of exactly that size, the gap
index having become `g` with `n` entries. -/
def alloc_exact_state (p : pool_mgr_t) (S k : Nat) (g : List gap_t) (n : Nat) : pool_mgr_t :=
  { p with
    node_heap := p.node_heap.set S (alloc_node p.node_heap S k)
    gap_ix := g
    pool := { p.pool with
              num_allocs := p.pool.num_allocs + 1
              alloc_size := p.pool.alloc_size + k
              num_gaps := n } }

/-- What the successor merge of `mem_del_alloc` does: the pool `p` with segment list
`X ++ A :: nxt ++ Y'` becomes `q` with segment list `X ++ A :: Y'`; `nxt` holds the free
successor of `A`, if there is one. -/
structure MergeNextEffect (p q : pool_mgr_t) (X : List Nat) (A : Nat) (nxt Y' : List Nat) :
    Prop where
  short : nxt.length ≤ 1
  were_free : ∀ i ∈ nxt, (nodeAt p.node_heap i).allocated = 0
  wf : WFh q (X ++ A :: Y') (some A)
  succ_alloc : (Y'.map (freeAt q.node_heap none)).head? ≠ some true
  alloc : (nodeAt q.node_heap A).allocated = (nodeAt p.node_heap A).allocated
  mem : (nodeAt q.node_heap A).alloc_record.mem = (nodeAt p.node_heap A).alloc_record.mem
  size : (nodeAt q.node_heap A).alloc_record.size
    = (nodeAt p.node_heap A).alloc_record.size + sizes p.node_heap nxt
  others : ∀ i ∈ X ++ Y',
    (nodeAt q.node_heap i).alloc_record = (nodeAt p.node_heap i).alloc_record ∧
    (nodeAt q.node_heap i).allocated = (nodeAt p.node_heap i).allocated
  used : q.used_nodes + nxt.length = p.used_nodes
  gaps : q.pool.num_gaps + nxt.length = p.pool.num_gaps
  n_allocs : q.pool.num_allocs = p.pool.num_allocs
  a_size : q.pool.alloc_size = p.pool.alloc_size
  t_size : q.pool.total_size = p.pool.total_size
  policy : q.pool.policy = p.pool.policy

/-- What the predecessor merge of `mem_del_alloc` does: the pool `p` with segment list
`X' ++ prv ++ A :: Y` becomes `q` with segment list `X' ++ M :: Y`; `prv` holds the free
predecessor of `A`, if there is one, and `M` is the node that now stands for the gap. -/
structure MergePrevEffect (p q : pool_mgr_t) (X' prv : List Nat) (A M : Nat) (Y : List Nat) :
    Prop where
  short : prv.length ≤ 1
  were_free : ∀ i ∈ prv, (nodeAt p.node_heap i).allocated = 0
  first : (prv ++ [A]).head? = some M
  wf : WFh q (X' ++ M :: Y) (some M)
  pred_alloc : (X'.map (freeAt q.node_heap none)).getLast? ≠ some true
  alloc : (nodeAt q.node_heap M).allocated = 0
  mem : (nodeAt q.node_heap M).alloc_record.mem = (nodeAt p.node_heap M).alloc_record.mem
  size : (nodeAt q.node_heap M).alloc_record.size
    = sizes p.node_heap prv + (nodeAt p.node_heap A).alloc_record.size
  others : ∀ i ∈ X' ++ Y,
    (nodeAt q.node_heap i).alloc_record = (nodeAt p.node_heap i).alloc_record ∧
    (nodeAt q.node_heap i).allocated = (nodeAt p.node_heap i).allocated
  used : q.used_nodes + prv.length = p.used_nodes
  gaps : q.pool.num_gaps + prv.length = p.pool.num_gaps
  n_allocs : q.pool.num_allocs = p.pool.num_allocs
  a_size : q.pool.alloc_size = p.pool.alloc_size
  t_size : q.pool.total_size = p.pool.total_size
  policy : q.pool.policy = p.pool.policy

/-- What `mem_del_alloc` does to the pool `p` with segment list
`X' ++ prv ++ A :: nxt ++ Y'` when the live handle `A` is freed, giving the pool `q`: `prv` and
`nxt` hold the free neighbours of `A`, and `M` is the node that stands for the merged gap. -/
structure DelEffect (p q : pool_mgr_t) (X' prv : List Nat) (A : Nat) (nxt Y' : List Nat)
    (M : Nat) : Prop where
  short_p : prv.length ≤ 1
  short_n : nxt.length ≤ 1
  were_free : ∀ i ∈ prv ++ nxt, (nodeAt p.node_heap i).allocated = 0
  pred_alloc : (X'.map (freeAt p.node_heap none)).getLast? ≠ some true
  succ_alloc : (Y'.map (freeAt p.node_heap none)).head? ≠ some true
  first : (prv ++ [A]).head? = some M
  wf : WFh q (X' ++ M :: Y') none
  alloc : (nodeAt q.node_heap M).allocated = 0
  mem : (nodeAt q.node_heap M).alloc_record.mem = (nodeAt p.node_heap M).alloc_record.mem
  size : (nodeAt q.node_heap M).alloc_record.size
    = sizes p.node_heap prv + (nodeAt p.node_heap A).alloc_record.size + sizes p.node_heap nxt
  others : ∀ i ∈ X' ++ Y',
    (nodeAt q.node_heap i).alloc_record = (nodeAt p.node_heap i).alloc_record ∧
    (nodeAt q.node_heap i).allocated = (nodeAt p.node_heap i).allocated
  used : q.used_nodes + prv.length + nxt.length = p.used_nodes
  gaps : q.pool.num_gaps + prv.length + nxt.length = p.pool.num_gaps + 1
  n_allocs : q.pool.num_allocs + 1 = p.pool.num_allocs
  a_size : q.pool.alloc_size + (nodeAt p.node_heap A).alloc_record.size = p.pool.alloc_size
  t_size : q.pool.total_size = p.pool.total_size
  policy : q.pool.policy = p.pool.policy

/-- The pool after `mem_del_alloc` entered the merged gap in the index, which has become `g`
with capacity `c`. -/
def del_add_state (p : pool_mgr_t) (g : List gap_t) (c : Nat) : pool_mgr_t :=
  { p with
    gap_ix := g
    gap_ix_capacity := c
    pool := { p.pool with num_gaps := p.pool.num_gaps + 1 } }

/-! ## The program on a host that clears memory and never moves a block

The section `Ideal` gives the functions above once more, for a host whose memory reads as
zero and whose `realloc` grows every block in place, and for states in which the node heap
lies at address 0 and every node pointer points into it.  A node pointer is then the number
of the slot it points to and no call is undefined.  The theorems `open_bridge`,
`new_alloc_bridge`, `del_alloc_bridge` and `benign_agrees` show that on such a host the
functions above compute exactly what is defined here; the definitions of this section are
used in proofs only. -/

namespace Ideal

/-- The host `realloc` to `n` records when memory reads as zero: the old records are kept, the
new tail reads as `z`. -/
def realloc {α : Type} (xs : List α) (n : Nat) (z : α) : List α :=
  xs.take n ++ List.replicate (n - xs.length) z

/-- The function `_mem_resize_node_heap` when the host clears memory and grows the node heap
in place. -/
def _mem_resize_node_heap (p : pool_mgr_t) : pool_mgr_t × alloc_status :=
  if fill_exceeded p.used_nodes p.total_nodes then
    let t := p.total_nodes * MEM_NODE_HEAP_EXPAND_FACTOR
    ({ p with total_nodes := t, node_heap := realloc p.node_heap t zero_node },
      alloc_status.ALLOC_OK)
  else
    (p, alloc_status.ALLOC_OK)

/-- The function `_mem_resize_gap_ix` when the host clears memory. -/
def _mem_resize_gap_ix (p : pool_mgr_t) : pool_mgr_t × alloc_status :=
  if fill_exceeded p.pool.num_gaps p.gap_ix_capacity then
    let c := p.gap_ix_capacity * MEM_GAP_IX_EXPAND_FACTOR
    ({ p with gap_ix_capacity := c, gap_ix := realloc p.gap_ix c zero_gap },
      alloc_status.ALLOC_OK)
  else
    (p, alloc_status.ALLOC_OK)

/-- The function `_mem_add_to_gap_ix` when the host clears memory. -/
def _mem_add_to_gap_ix (p : pool_mgr_t) (size : Nat) (node : Option Nat) :
    pool_mgr_t × alloc_status :=
  let p1 := (_mem_resize_gap_ix p).1
  let p2 : pool_mgr_t :=
    { p1 with
      gap_ix := p1.gap_ix.set p1.pool.num_gaps ⟨size, node⟩
      pool := { p1.pool with num_gaps := p1.pool.num_gaps + 1 } }
  _mem_sort_gap_ix p2

/-- The pool manager that `mem_pool_open` builds (lines 147-200) when the host clears memory:
the slots and entries that the program does not write read as zero, and so do `total_nodes`,
`used_nodes` and `gap_ix_capacity` when `_mem_add_to_gap_ix` is called (line 195). -/
def mem_pool_open (size : Nat) (policy : alloc_policy) : pool_mgr_t :=
  let heap := (List.replicate MEM_NODE_HEAP_INIT_CAPACITY zero_node).set 0
    { alloc_record := ⟨0, size⟩, used := 1, allocated := 0, next := none, prev := none }
  let m0 : pool_mgr_t :=
    { pool := { mem := some 0, policy := policy, total_size := size, alloc_size := 0,
                num_allocs := 0, num_gaps := 0 }
      node_heap := heap
      heap_at := 0
      total_nodes := 0
      used_nodes := 0
      gap_ix := List.replicate MEM_GAP_IX_INIT_CAPACITY zero_gap
      gap_ix_capacity := 0 }
  let m1 := (_mem_add_to_gap_ix m0 size (some 0)).1
  { m1 with
    total_nodes := MEM_NODE_HEAP_INIT_CAPACITY
    used_nodes := 1
    gap_ix_capacity := MEM_GAP_IX_INIT_CAPACITY }

/-- The node selected by `mem_new_alloc` (lines 271-298) for a request of `size`, as the
number of its slot. -/
def select_node (p : pool_mgr_t) (size : Nat) : Option Nat :=
  match p.pool.policy with
  | alloc_policy.FIRST_FIT =>
    scan (fun i =>
      decide ((nodeAt p.node_heap i).used = 1) &&
      decide ((nodeAt p.node_heap i).allocated = 0) &&
      decide (size ≤ (nodeAt p.node_heap i).alloc_record.size)) p.total_nodes 0
  | alloc_policy.BEST_FIT =>
    match scan (fun i => decide (size ≤ (gapAt p.gap_ix i).size)) p.pool.num_gaps 0 with
    | some i => (gapAt p.gap_ix i).node
    | none => none

/-- The node-heap writes of `mem_new_alloc` for the remaining gap (lines 332-347), every
pointer being the number of a slot: the slot `unusedNode` becomes a gap node of size
`remainingGap` right after `myNode`. -/
def split_link (h : List node_t) (myNode unusedNode remainingGap : Nat) : List node_t :=
  let my := nodeAt h myNode
  let un : node_t :=
    { nodeAt h unusedNode with
      used := 1
      allocated := 0
      alloc_record := ⟨my.alloc_record.mem + my.alloc_record.size, remainingGap⟩ }
  let h1 := h.set unusedNode un
  let h2 := match (nodeAt h1 myNode).next with
    | some nx => h1.set nx { nodeAt h1 nx with prev := some unusedNode }
    | none => h1
  let h3 := h2.set unusedNode { nodeAt h2 unusedNode with next := (nodeAt h2 myNode).next }
  let h4 := h3.set myNode { nodeAt h3 myNode with next := some unusedNode }
  h4.set unusedNode { nodeAt h4 unusedNode with prev := some myNode }

/-- The block of `mem_new_alloc` that creates the node of the remaining gap (lines 319-353):
an unused slot is found, linked right after `myNode` and entered in the gap index. -/
def new_alloc_split (p4 : pool_mgr_t) (myNode remainingGap : Nat) : pool_mgr_t × Option Nat :=
  match scan (fun i => decide ((nodeAt p4.node_heap i).used = 0)) p4.total_nodes 0 with
  | none => (p4, none)
  | some unusedNode =>
    let p5 : pool_mgr_t :=
      { p4 with
        node_heap := split_link p4.node_heap myNode unusedNode remainingGap
        used_nodes := p4.used_nodes + 1 }
    let (p6, st6) := _mem_add_to_gap_ix p5 remainingGap (some unusedNode)
    if st6 ≠ alloc_status.ALLOC_OK then (p6, none)
    else (p6, some myNode)

/-- The part of `mem_new_alloc` after the node heap was grown (lines 271-356): a node is
selected, taken out of the gap index and turned into an allocation of `size`. -/
def new_alloc_place (p1 : pool_mgr_t) (size : Nat) : pool_mgr_t × Option Nat :=
  match select_node p1 size with
  | none => (p1, none)
  | some myNode =>
    let p2 : pool_mgr_t :=
      { p1 with pool := { p1.pool with num_allocs := p1.pool.num_allocs + 1
                                       alloc_size := p1.pool.alloc_size + size } }
    let remainingGap := sub64 (nodeAt p2.node_heap myNode).alloc_record.size size
    let p3 := (_mem_remove_from_gap_ix p2 size (some myNode)).1
    let n0 := nodeAt p3.node_heap myNode
    let n1 : node_t :=
      { n0 with allocated := 1, alloc_record := { n0.alloc_record with size := size } }
    let p4 : pool_mgr_t := { p3 with node_heap := p3.node_heap.set myNode n1 }
    if 0 < remainingGap then new_alloc_split p4 myNode remainingGap
    else (p4, some myNode)

/-- The function `mem_new_alloc` when the host clears memory and never moves the node heap:
the new state and the returned handle (`none` is `NULL`). -/
def mem_new_alloc (p : pool_mgr_t) (size : Nat) : pool_mgr_t × Option Nat :=
  if p.pool.num_gaps = 0 then (p, none)
  else
    let (p1, st) := _mem_resize_node_heap p
    if st ≠ alloc_status.ALLOC_OK then (p1, none)
    else if p1.total_nodes < p1.used_nodes then (p1, none)
    else new_alloc_place p1 size

/-- The node-heap writes of `mem_del_alloc` that merge the free successor `nextNode` into
`node` (lines 396-424), every pointer being the number of a slot. -/
def merge_next_link (h : List node_t) (node nextNode : Nat) : List node_t :=
  let nd := nodeAt h node
  let nd1 : node_t :=
    { nd with alloc_record :=
      { nd.alloc_record with
        size := nd.alloc_record.size + (nodeAt h nextNode).alloc_record.size } }
  let h1 := h.set node nd1
  let h2 := h1.set nextNode { nodeAt h1 nextNode with used := 0 }
  let h3 := match (nodeAt h2 nextNode).next with
    | some nn =>
      let h3a := h2.set nn { nodeAt h2 nn with prev := (nodeAt h2 nextNode).prev }
      h3a.set node { nodeAt h3a node with next := (nodeAt h3a nextNode).next }
    | none => h2.set node { nodeAt h2 node with next := none }
  let h4 := h3.set nextNode { nodeAt h3 nextNode with next := none }
  h4.set nextNode { nodeAt h4 nextNode with prev := none }

/-- The block of `mem_del_alloc` that merges a free successor into `node` (lines 388-425);
`none` is the early `return ALLOC_FAIL`. -/
def del_merge_next (p1 : pool_mgr_t) (node : Nat) : Option pool_mgr_t :=
  match (nodeAt p1.node_heap node).next with
  | none => some p1
  | some nextNode =>
    if (nodeAt p1.node_heap nextNode).allocated = 0 then
      let (q1, st) := _mem_remove_from_gap_ix p1
        (nodeAt p1.node_heap nextNode).alloc_record.size (some nextNode)
      if st ≠ alloc_status.ALLOC_OK then none
      else
        some { q1 with
               node_heap := merge_next_link q1.node_heap node nextNode
               used_nodes := sub32 q1.used_nodes 1 }
    else some p1

/-- The node-heap writes of `mem_del_alloc` that merge `node` into its free predecessor
`prevNode` (lines 438-466), every pointer being the number of a slot. -/
def merge_prev_link (h : List node_t) (node prevNode : Nat) : List node_t :=
  let pv := nodeAt h prevNode
  let pv1 : node_t :=
    { pv with alloc_record :=
      { pv.alloc_record with
        size := pv.alloc_record.size + (nodeAt h node).alloc_record.size } }
  let h1 := h.set prevNode pv1
  let h2 := h1.set node { nodeAt h1 node with used := 0 }
  let h3 := match (nodeAt h2 node).next with
    | some nx =>
      let h3a := h2.set prevNode { nodeAt h2 prevNode with next := some nx }
      h3a.set nx { nodeAt h3a nx with prev := some prevNode }
    | none => h2.set prevNode { nodeAt h2 prevNode with next := none }
  let h4 := h3.set node { nodeAt h3 node with next := none }
  h4.set node { nodeAt h4 node with prev := none }

/-- The block of `mem_del_alloc` that merges `node` into a free predecessor (lines 427-469):
the new state and the node that now stands for the gap; `none` is the early
`return ALLOC_FAIL`. -/
def del_merge_prev (p2 : pool_mgr_t) (node : Nat) : Option (pool_mgr_t × Nat) :=
  match (nodeAt p2.node_heap node).prev with
  | none => some (p2, node)
  | some prevNode =>
    if (nodeAt p2.node_heap prevNode).allocated = 0 then
      let (q2, st) := _mem_remove_from_gap_ix p2
        (nodeAt p2.node_heap prevNode).alloc_record.size (some prevNode)
      if st ≠ alloc_status.ALLOC_OK then none
      else
        some ({ q2 with
                node_heap := merge_prev_link q2.node_heap node prevNode
                used_nodes := sub32 q2.used_nodes 1 }, prevNode)
    else some (p2, node)

/-- The function `mem_del_alloc` when the node heap lies at address 0: the new state and the
returned status.  The handle `alloc` is the node pointer the caller passes. -/
def mem_del_alloc (p : pool_mgr_t) (alloc : Nat) : pool_mgr_t × alloc_status :=
  match scan (fun i => decide ((nodeAt p.node_heap i).used = 1) && decide (i = alloc))
      p.total_nodes 0 with
  | none => (p, alloc_status.ALLOC_FAIL)
  | some node =>
    let p1 := del_mark_free p node
    match del_merge_next p1 node with
    | none => (p1, alloc_status.ALLOC_FAIL)
    | some p2 =>
      match del_merge_prev p2 node with
      | none => (p2, alloc_status.ALLOC_FAIL)
      | some (p3, node1) =>
        _mem_add_to_gap_ix p3 (nodeAt p3.node_heap node1).alloc_record.size (some node1)

/-- The walk `node = node->next` from `cur`, for at most `fuel` nodes, every pointer being
the number of a slot. -/
def walk (h : List node_t) : Nat → Option Nat → List Nat
  | 0, _ => []
  | _ + 1, none => []
  | fuel + 1, some i => i :: walk h fuel (nodeAt h i).next

/-- The segment list: the slots met by following `next` from the head, which is slot 0 as in
`mem_inspect_pool` (line 499). -/
def seg_list (p : pool_mgr_t) : List Nat := walk p.node_heap p.total_nodes (some 0)

/-- The handle `a` is a live allocation: a slot of the heap that is in use and allocated, the
node heap lying at address 0. -/
def live (p : pool_mgr_t) (a : Nat) : Prop :=
  a < p.total_nodes ∧ (nodeAt p.node_heap a).used = 1 ∧ (nodeAt p.node_heap a).allocated = 1

/-- The pool states reached from `mem_pool_open` by `mem_new_alloc` with request sizes in `K`
and by `mem_del_alloc` on live handles, on a host that clears memory and never moves a
block. -/
inductive ReachableBy (K : Nat → Prop) : pool_mgr_t → Prop where
  | opened (size : Nat) (policy : alloc_policy) : ReachableBy K (mem_pool_open size policy)
  | new_alloc (p : pool_mgr_t) (k : Nat) :
      ReachableBy K p → K k → ReachableBy K (mem_new_alloc p k).1
  | del_alloc (p : pool_mgr_t) (a : Nat) :
      ReachableBy K p → live p a → ReachableBy K (mem_del_alloc p a).1

/-- The pool states reached with any request sizes. -/
def Reachable (p : pool_mgr_t) : Prop := ReachableBy (fun _ => True) p

/-- The pool after `mem_new_alloc` placed `k` in a larger gap `S` and made the slot `R` the
remaining gap, the gap index having become `g` with capacity `c` and `n` entries. -/
def alloc_split_state (p : pool_mgr_t) (S R k : Nat) (g : List gap_t) (c n : Nat) :
    pool_mgr_t :=
  { p with
    node_heap := split_link (p.node_heap.set S (alloc_node p.node_heap S k)) S R
      ((nodeAt p.node_heap S).alloc_record.size - k)
    used_nodes := p.used_nodes + 1
    gap_ix := g
    gap_ix_capacity := c
    pool := { p.pool with
              num_allocs := p.pool.num_allocs + 1
              alloc_size := p.pool.alloc_size + k
              num_gaps := n } }

/-- The pool after `mem_del_alloc` merged the free successor `N` into `A`, the gap index
having become `g` with `n` entries. -/
def merge_next_state (p : pool_mgr_t) (A N : Nat) (g : List gap_t) (n : Nat) : pool_mgr_t :=
  { p with
    node_heap := merge_next_link p.node_heap A N
    used_nodes := sub32 p.used_nodes 1
    gap_ix := g
    pool := { p.pool with num_gaps := n } }

/-- The pool after `mem_del_alloc` merged `A` into its free predecessor `P`, the gap index
having become `g` with `n` entries. -/
def merge_prev_state (p : pool_mgr_t) (A P : Nat) (g : List gap_t) (n : Nat) : pool_mgr_t :=
  { p with
    node_heap := merge_prev_link p.node_heap A P
    used_nodes := sub32 p.used_nodes 1
    gap_ix := g
    pool := { p.pool with num_gaps := n } }

/-- The loop of `mem_inspect_pool` (lines 500-504) with `fuel` rounds to go and `firstNode`
at `cur`, every pointer being the number of a slot.  The result is `none` when a round reads
through `NULL`. -/
def inspect_loop (h : List node_t) : Nat → Option Nat → Option (List pool_segment_t)
  | 0, _ => some []
  | _ + 1, none => none
  | fuel + 1, some i =>
    (inspect_loop h fuel (nodeAt h i).next).map
      (fun rest => ⟨(nodeAt h i).alloc_record.size, (nodeAt h i).allocated⟩ :: rest)

/-- The function `mem_inspect_pool`: the array written to `*segments`, whose length is the
count written to `*num_segments`; `none` when the walk reads through `NULL`. -/
def mem_inspect_pool (p : pool_mgr_t) : Option (List pool_segment_t) :=
  inspect_loop p.node_heap p.used_nodes (some 0)

end Ideal

/-! # Theorems -/

/-! ## Basic facts -/

theorem scan_some {P : Nat → Bool} {fuel i j : Nat} (h : scan P fuel i = some j) :
    P j = true ∧ i ≤ j ∧ j < i + fuel ∧ ∀ m, i ≤ m → m < j → P m = false := by
  induction fuel generalizing i with
  | zero => simp [scan] at h
  | succ f ih =>
    unfold scan at h
    by_cases hp : P i = true
    · simp only [hp, if_true, Option.some.injEq] at h
      subst h
      exact ⟨hp, le_refl _, by omega, fun m h1 h2 => by omega⟩
    · simp only [hp, Bool.false_eq_true, if_false] at h
      obtain ⟨h1, h2, h3, h4⟩ := ih h
      refine ⟨h1, by omega, by omega, fun m hm1 hm2 => ?_⟩
      by_cases hmi : m = i
      · subst hmi; simpa using hp
      · exact h4 m (by omega) hm2

theorem scan_none {P : Nat → Bool} {fuel i : Nat} (h : scan P fuel i = none) :
    ∀ m, i ≤ m → m < i + fuel → P m = false := by
  induction fuel generalizing i with
  | zero => intro m h1 h2; omega
  | succ f ih =>
    unfold scan at h
    by_cases hp : P i = true
    · simp [hp] at h
    · simp only [hp, Bool.false_eq_true, if_false] at h
      intro m h1 h2
      by_cases hmi : m = i
      · subst hmi; simpa using hp
      · exact ih h m (by omega) (by omega)

theorem scan_exists (P : Nat → Bool) (fuel i m : Nat) (h1 : i ≤ m) (h2 : m < i + fuel)
    (hp : P m = true) : ∃ j, scan P fuel i = some j := by
  cases h : scan P fuel i with
  | some j => exact ⟨j, rfl⟩
  | none => have := scan_none h m h1 h2; simp [hp] at this

theorem nodeAt_set_eq {h : List node_t} {i : Nat} {x : node_t} (hi : i < h.length) :
    nodeAt (h.set i x) i = x := by
  simp [nodeAt, hi]

theorem nodeAt_set_ne {h : List node_t} {i j : Nat} {x : node_t} (hij : i ≠ j) :
    nodeAt (h.set i x) j = nodeAt h j := by
  simp [nodeAt, List.getElem?_set_ne hij]

theorem nodeAt_set {h : List node_t} {i j : Nat} {x : node_t} (hi : i < h.length) :
    nodeAt (h.set i x) j = if j = i then x else nodeAt h j := by
  by_cases hij : j = i
  · subst hij; simp [nodeAt_set_eq hi]
  · simp [hij, nodeAt_set_ne (Ne.symm hij)]

theorem nodeAt_ge {h : List node_t} {i : Nat} (hi : h.length ≤ i) : nodeAt h i = zero_node := by
  simp [nodeAt, List.getElem?_eq_none hi]

theorem gapAt_append_right (F T : List gap_t) (i : Nat) :
    gapAt (F ++ T) (F.length + i) = gapAt T i := by
  unfold gapAt
  rw [List.getD_append_right _ _ _ _ (by omega)]
  simp

theorem gapAt_length_cons (F T : List gap_t) (x : gap_t) : gapAt (F ++ x :: T) F.length = x := by
  have := gapAt_append_right F (x :: T) 0
  simpa [gapAt] using this

theorem set_length_cons {α : Type} (F T : List α) (x y : α) :
    (F ++ x :: T).set F.length y = F ++ y :: T := by
  rw [List.set_append_right _ _ (le_refl _)]
  simp

theorem shift_loop_succ (g : List gap_t) (pos c : Nat) :
    shift_loop g pos (c + 1) = shift_loop (g.set pos (gapAt g (pos + 1))) (pos + 1) c := rfl

theorem shift_loop_spec (Q : List gap_t) : ∀ (P T : List gap_t) (x r : gap_t),
    shift_loop (P ++ x :: (Q ++ r :: T)) P.length (Q.length + 1) = P ++ (Q ++ r :: r :: T) := by
  induction Q with
  | nil =>
    intro P T x r
    have h1 : gapAt (P ++ x :: r :: T) (P.length + 1) = r := by
      have := gapAt_append_right P (x :: r :: T) 1
      simpa [gapAt] using this
    rw [List.nil_append, List.length_nil, zero_add, shift_loop_succ, h1, set_length_cons]
    rfl
  | cons y Q ih =>
    intro P T x r
    have h1 : gapAt (P ++ x :: (y :: Q ++ r :: T)) (P.length + 1) = y := by
      have := gapAt_append_right P (x :: (y :: Q ++ r :: T)) 1
      simpa [gapAt] using this
    have h2 := ih (P ++ [y]) T y r
    simp only [List.length_append, List.length_singleton, List.append_assoc,
      List.singleton_append] at h2
    rw [List.length_cons, shift_loop_succ, h1, List.cons_append, set_length_cons]
    exact h2

theorem sort_loop_spec (F : List gap_t) : ∀ (T : List gap_t) (e : gap_t),
    ∃ F1 F2, F = F1 ++ F2 ∧ sort_loop (F ++ e :: T) F.length = F1 ++ e :: (F2 ++ T) ∧
      (∀ y ∈ F2, swaps e y) ∧ (∀ y, F1.getLast? = some y → ¬ swaps e y) := by
  induction F using List.reverseRecOn with
  | nil =>
    intro T e
    exact ⟨[], [], rfl, by simp [sort_loop], by simp, by simp⟩
  | append_singleton F y ih =>
    intro T e
    have hcur : gapAt (F ++ [y] ++ e :: T) (F.length + 1) = e := by
      have := gapAt_length_cons (F ++ [y]) T e
      simpa using this
    have hprv : gapAt (F ++ [y] ++ e :: T) F.length = y := by
      have := gapAt_length_cons F (e :: T) y
      simpa using this
    have hset : ((F ++ [y] ++ e :: T).set F.length e).set (F.length + 1) y = F ++ e :: y :: T := by
      have h1 : (F ++ [y] ++ e :: T) = F ++ y :: e :: T := by simp
      rw [h1, set_length_cons]
      have h2 : F ++ e :: e :: T = (F ++ [e]) ++ e :: T := by simp
      have h3 : F.length + 1 = (F ++ [e]).length := by simp
      rw [h2, h3, set_length_cons]
      simp
    by_cases hs : swaps e y
    · obtain ⟨F1, F2, hF, hres, hb, hl⟩ := ih (y :: T) e
      refine ⟨F1, F2 ++ [y], by simp [hF], ?_, ?_, hl⟩
      · simp only [List.length_append, List.length_singleton, sort_loop, hcur, hprv]
        rw [if_pos hs.1, if_neg hs.2, hset, hres]
        simp
      · intro z hz
        rcases List.mem_append.1 hz with hz | hz
        · exact hb z hz
        · simp at hz; subst hz; exact hs
    · refine ⟨F ++ [y], [], by simp, ?_, by simp, ?_⟩
      · simp only [List.length_append, List.length_singleton, sort_loop, hcur, hprv]
        by_cases h1 : e.size ≤ y.size
        · have h2 : e.size = y.size ∧ ptr_gt e.node y.node = true := by
            by_contra hc; exact hs ⟨h1, hc⟩
          rw [if_pos h1, if_pos h2]; simp
        · rw [if_neg h1]; simp
      · intro z hz
        simp at hz; subst hz; exact hs

theorem split_at_lt {α : Type} (g : List α) (n : Nat) (hn : n < g.length) :
    ∃ r T, g = g.take n ++ r :: T ∧ (g.take n).length = n := by
  refine ⟨g[n], g.drop (n + 1), ?_, ?_⟩
  · rw [← List.drop_eq_getElem_cons hn, List.take_append_drop]
  · simp [List.length_take]; omega

theorem scan_gap_found (P T : List gap_t) (e : gap_t) (x : Option Nat) (n : Nat)
    (hP : ∀ y ∈ P, y.node ≠ x) (he : e.node = x) (hn : P.length < n) :
    scan (fun i => decide ((gapAt (P ++ e :: T) i).node = x)) n 0 = some P.length := by
  obtain ⟨j, hj⟩ := scan_exists (fun i => decide ((gapAt (P ++ e :: T) i).node = x))
    n 0 P.length (Nat.zero_le _) (by omega)
    (by simp [gapAt_length_cons, he])
  obtain ⟨h1, _, _, h4⟩ := scan_some hj
  rw [hj]
  by_contra hne
  have hne2 : j ≠ P.length := fun h => hne (by rw [h])
  by_cases hlt : j < P.length
  · have : gapAt (P ++ e :: T) j = P[j] := by
      simp [gapAt, List.getElem?_append_left hlt, List.getElem?_eq_getElem hlt]
    rw [this] at h1
    simp only [decide_eq_true_eq] at h1
    exact hP _ (List.getElem_mem hlt) h1
  · have := h4 P.length (Nat.zero_le _) (by omega)
    simp [gapAt_length_cons, he] at this

theorem scan_gap_none (g : List gap_t) (n : Nat) (P : gap_t → Bool)
    (hn : n ≤ g.length)
    (h : scan (fun i => P (gapAt g i)) n 0 = none) : ∀ e ∈ g.take n, P e = false := by
  intro e he
  obtain ⟨i, hi, rfl⟩ := List.getElem_of_mem he
  have hi2 : i < n := by simp [List.length_take] at hi; omega
  have := scan_none h i (Nat.zero_le _) (by omega)
  have h3 : gapAt g i = (List.take n g)[i] := by
    simp [gapAt, List.getElem_take]
    rw [List.getElem?_eq_getElem (by omega)]; rfl
  rw [← h3]; exact this

theorem remove_spec (p : pool_mgr_t) (sz : Nat) (x : Option Nat)
    (hn : p.pool.num_gaps < p.gap_ix.length) (e : gap_t) (he : e ∈ live_gaps p)
    (hex : e.node = x) :
    ∃ g n, _mem_remove_from_gap_ix p sz x =
        ({ p with gap_ix := g, pool := { p.pool with num_gaps := n } }, alloc_status.ALLOC_OK) ∧
      g.length = p.gap_ix.length ∧ n + 1 = p.pool.num_gaps ∧
      g.take n = (live_gaps p).eraseP (fun y => decide (y.node = x)) := by
  obtain ⟨r, T, hg, hlen⟩ := split_at_lt p.gap_ix p.pool.num_gaps hn
  obtain ⟨a, P, Q, hP, ha, hG, hE⟩ := @List.exists_of_eraseP gap_t (fun y => decide (y.node = x)) _ _ he
    (by simpa using hex)
  have hG2 : p.gap_ix.take p.pool.num_gaps = P ++ a :: Q := hG
  have hnum : p.pool.num_gaps = P.length + (Q.length + 1) := by
    rw [← hlen, hG2]; simp
  have hg2 : p.gap_ix = P ++ a :: (Q ++ r :: T) := by
    rw [hg, hG2]; simp
  have hscan := scan_gap_found P (Q ++ r :: T) a x p.pool.num_gaps
    (fun y hy => by simpa using hP y hy) (by simpa using ha) (by omega)
  refine ⟨(P ++ (Q ++ r :: r :: T)).set (P.length + Q.length) zero_gap, P.length + Q.length,
    ?_, ?_, by omega, ?_⟩
  · unfold _mem_remove_from_gap_ix
    rw [hg2]
    simp only [hscan]
    have h1 : ((P.length : Nat) : Int) ≠ -1 := by omega
    have h2 : toUnsigned (P.length : Int) = P.length := by
      simp [toUnsigned]
    have h3 : P.length + (Q.length + 1) - P.length = Q.length + 1 := by omega
    have h4 : sub32 (P.length + (Q.length + 1)) 1 = P.length + Q.length := by
      unfold sub32; rw [if_pos (by omega)]; omega
    simp only [if_neg h1, h2, hnum, h3, h4, shift_loop_spec]
  · rw [hg2]; simp; omega
  · have : live_gaps p = P ++ a :: Q := hG
    rw [this] at hE ⊢
    rw [hE]
    have h3 : P ++ (Q ++ r :: r :: T) = (P ++ Q) ++ r :: r :: T := by simp
    have h4 : P.length + Q.length = (P ++ Q).length := by simp
    rw [h3, h4, set_length_cons, List.take_left]

theorem lastOr_append_singleton (A : List Nat) (x : Nat) (d : Option Nat) :
    lastOr (A ++ [x]) d = some x := by
  induction A generalizing d with
  | nil => rfl
  | cons a A ih => simp [lastOr, ih]

theorem lastOr_append_cons (A B : List Nat) (x : Nat) (d : Option Nat) :
    lastOr (A ++ x :: B) d = lastOr B (some x) := by
  induction A generalizing d with
  | nil => rfl
  | cons a A ih => simp [lastOr, ih]

theorem headOr_append_cons (A B : List Nat) (x : Nat) (d : Option Nat) :
    headOr (A ++ x :: B) d = headOr (A ++ [x]) d := by
  cases A <;> rfl

theorem headOr_append (A C : List Nat) (d : Option Nat) :
    headOr (A ++ C) d = headOr A (headOr C d) := by
  cases A <;> rfl

theorem nextOK_cons (h : List node_t) (nx : Option Nat) (a : Nat) (L : List Nat) :
    nextOK h nx (a :: L) ↔ (nodeAt h a).next = headOr L nx ∧ nextOK h nx L := Iff.rfl

theorem prevOK_cons (h : List node_t) (pv : Option Nat) (a : Nat) (L : List Nat) :
    prevOK h pv (a :: L) ↔ (nodeAt h a).prev = pv ∧ prevOK h (some a) L := Iff.rfl

theorem tilesFrom_cons (h : List node_t) (s : Nat) (a : Nat) (L : List Nat) :
    tilesFrom h s (a :: L) ↔ (nodeAt h a).alloc_record.mem = s ∧
      tilesFrom h (s + (nodeAt h a).alloc_record.size) L := Iff.rfl

theorem nextOK_append (h : List node_t) (nx : Option Nat) (A C : List Nat) :
    nextOK h nx (A ++ C) ↔ nextOK h (headOr C nx) A ∧ nextOK h nx C := by
  induction A with
  | nil => simp [nextOK]
  | cons a A ih =>
    rw [List.cons_append, nextOK_cons, nextOK_cons, ih, headOr_append]
    tauto

theorem nextOK_congr {h h' : List node_t} {nx : Option Nat} {L : List Nat}
    (hc : ∀ a ∈ L, (nodeAt h' a).next = (nodeAt h a).next) (hn : nextOK h nx L) :
    nextOK h' nx L := by
  induction L with
  | nil => trivial
  | cons a L ih =>
    exact ⟨by rw [hc a (List.mem_cons_self _ _)]; exact hn.1,
      ih (fun b hb => hc b (List.mem_cons_of_mem _ hb)) hn.2⟩

theorem prevOK_append (h : List node_t) (pv : Option Nat) (A C : List Nat) :
    prevOK h pv (A ++ C) ↔ prevOK h pv A ∧ prevOK h (lastOr A pv) C := by
  induction A generalizing pv with
  | nil => simp [prevOK, lastOr]
  | cons a A ih =>
    rw [List.cons_append, prevOK_cons, prevOK_cons, ih]
    simp only [lastOr]
    tauto

theorem prevOK_congr {h h' : List node_t} {pv : Option Nat} {L : List Nat}
    (hc : ∀ a ∈ L, (nodeAt h' a).prev = (nodeAt h a).prev) (hn : prevOK h pv L) :
    prevOK h' pv L := by
  induction L generalizing pv with
  | nil => trivial
  | cons a L ih =>
    exact ⟨by rw [hc a (List.mem_cons_self _ _)]; exact hn.1,
      ih (fun b hb => hc b (List.mem_cons_of_mem _ hb)) hn.2⟩

theorem sizes_nil (h : List node_t) : sizes h [] = 0 := rfl

theorem sizes_cons (h : List node_t) (a : Nat) (L : List Nat) :
    sizes h (a :: L) = (nodeAt h a).alloc_record.size + sizes h L := by
  simp [sizes]

theorem sizes_append (h : List node_t) (A C : List Nat) :
    sizes h (A ++ C) = sizes h A + sizes h C := by
  simp [sizes]

theorem sizes_congr {h h' : List node_t} {L : List Nat}
    (hc : ∀ a ∈ L, (nodeAt h' a).alloc_record.size = (nodeAt h a).alloc_record.size) :
    sizes h' L = sizes h L := by
  unfold sizes
  rw [List.map_congr_left hc]

theorem tilesFrom_append (h : List node_t) (s : Nat) (A C : List Nat) :
    tilesFrom h s (A ++ C) ↔ tilesFrom h s A ∧ tilesFrom h (s + sizes h A) C := by
  induction A generalizing s with
  | nil => simp [tilesFrom, sizes]
  | cons a A ih =>
    rw [List.cons_append, tilesFrom_cons, tilesFrom_cons, ih, sizes_cons, Nat.add_assoc]
    tauto

theorem tilesFrom_congr {h h' : List node_t} {s : Nat} {L : List Nat}
    (hm : ∀ a ∈ L, (nodeAt h' a).alloc_record.mem = (nodeAt h a).alloc_record.mem)
    (hs : ∀ a ∈ L, (nodeAt h' a).alloc_record.size = (nodeAt h a).alloc_record.size)
    (hn : tilesFrom h s L) : tilesFrom h' s L := by
  induction L generalizing s with
  | nil => trivial
  | cons a L ih =>
    refine ⟨by rw [hm a (List.mem_cons_self _ _)]; exact hn.1, ?_⟩
    rw [hs a (List.mem_cons_self _ _)]
    exact ih (fun b hb => hm b (List.mem_cons_of_mem _ hb))
      (fun b hb => hs b (List.mem_cons_of_mem _ hb)) hn.2

theorem length_le_of_nodup_bound {L : List Nat} {n : Nat} (hd : L.Nodup)
    (hb : ∀ i ∈ L, i < n) : L.length ≤ n := by
  have hs : L ⊆ List.range n := fun i hi => List.mem_range.2 (hb i hi)
  have := (List.subperm_of_subset hd hs).length_le
  simpa using this

theorem exists_not_mem_of_length_lt {L : List Nat} {n : Nat} (hl : L.length < n) :
    ∃ i, i < n ∧ i ∉ L := by
  by_contra hc
  push_neg at hc
  have hs : List.range n ⊆ L := fun i hi => hc i (List.mem_range.1 hi)
  have := (List.subperm_of_subset (List.nodup_range n) hs).length_le
  simp at this
  omega

theorem nodeAt_replicate (n i : Nat) : nodeAt (List.replicate n zero_node) i = zero_node := by
  unfold nodeAt
  simp only [List.getD_eq_getElem?_getD, List.getElem?_replicate]
  split <;> rfl

theorem nodeAt_cons_zero (x : node_t) (h : List node_t) : nodeAt (x :: h) 0 = x := rfl

theorem nodeAt_cons_succ (x : node_t) (h : List node_t) (i : Nat) :
    nodeAt (x :: h) (i + 1) = nodeAt h i := by
  simp [nodeAt]

theorem ptr_gt_asymm {a b : Option Nat} (h : ptr_gt a b = true) : ptr_gt b a = false := by
  cases a <;> cases b <;> simp [ptr_gt] at h ⊢
  omega

theorem ptr_le_trans {a b c : Option Nat} (h1 : ptr_gt a b = false) (h2 : ptr_gt b c = false) :
    ptr_gt a c = false := by
  cases a <;> cases b <;> cases c <;> simp [ptr_gt] at h1 h2 ⊢
  omega

theorem gap_le_trans {a b c : gap_t} (h1 : gap_le a b) (h2 : gap_le b c) : gap_le a c := by
  unfold gap_le at *
  rcases h1 with h1 | ⟨h1, h1'⟩ <;> rcases h2 with h2 | ⟨h2, h2'⟩
  · left; omega
  · left; omega
  · left; omega
  · right; exact ⟨by omega, ptr_le_trans h1' h2'⟩

theorem gap_le_size {a b : gap_t} (h : gap_le a b) : a.size ≤ b.size := by
  rcases h with h | ⟨h, _⟩ <;> omega

theorem gap_le_of_swaps {e y : gap_t} (h : swaps e y) : gap_le e y := by
  obtain ⟨h1, h2⟩ := h
  by_cases heq : e.size = y.size
  · right
    refine ⟨heq, ?_⟩
    cases hp : ptr_gt e.node y.node with
    | false => rfl
    | true => exact absurd ⟨heq, hp⟩ h2
  · left; omega

theorem gap_le_of_not_swaps {e y : gap_t} (h : ¬ swaps e y) : gap_le y e := by
  unfold swaps at h
  by_cases h1 : e.size ≤ y.size
  · have h2 : e.size = y.size ∧ ptr_gt e.node y.node = true := by
      by_contra hc; exact h ⟨h1, hc⟩
    right; exact ⟨h2.1.symm, ptr_gt_asymm h2.2⟩
  · left; omega

theorem sorted_insert {F1 F2 : List gap_t} {e : gap_t} (hs : (F1 ++ F2).Pairwise gap_le)
    (h2 : ∀ y ∈ F2, swaps e y) (h1 : ∀ y, F1.getLast? = some y → ¬ swaps e y) :
    (F1 ++ e :: F2).Pairwise gap_le := by
  rw [List.pairwise_append] at hs ⊢
  obtain ⟨hs1, hs2, hs12⟩ := hs
  have hF1 : ∀ x ∈ F1, gap_le x e := by
    intro x hx
    rcases List.eq_nil_or_concat F1 with hnil | ⟨F, y, hF⟩
    · subst hnil; simp at hx
    · rw [List.concat_eq_append] at hF
      subst hF
      have hy : gap_le y e := gap_le_of_not_swaps (h1 y (by simp))
      rw [List.pairwise_append] at hs1
      rcases List.mem_append.1 hx with hx | hx
      · exact gap_le_trans (hs1.2.2 x hx y (by simp)) hy
      · simp at hx; subst hx; exact hy
  refine ⟨hs1, ?_, ?_⟩
  · rw [List.pairwise_cons]
    exact ⟨fun y hy => gap_le_of_swaps (h2 y hy), hs2⟩
  · intro x hx y hy
    rcases List.mem_cons.1 hy with hy | hy
    · subst hy; exact hF1 x hx
    · exact hs12 x hx y hy

theorem num_gaps_lt {p : pool_mgr_t} {L : List Nat} {hole : Option Nat} (w : WFh p L hole) :
    p.pool.num_gaps < p.gap_ix.length := by
  have h1 := w.cap_gaps
  have h2 := w.min_gaps
  have h3 := w.gap_len
  omega

theorem length_live_gaps {p : pool_mgr_t} {L : List Nat} {hole : Option Nat} (w : WFh p L hole) :
    (live_gaps p).length = p.pool.num_gaps := by
  have := num_gaps_lt w
  simp [live_gaps, List.length_take]; omega

theorem num_gaps_eq {p : pool_mgr_t} {L : List Nat} {hole : Option Nat} (w : WFh p L hole) :
    p.pool.num_gaps = (L.filter (freeAt p.node_heap hole)).length := by
  rw [← length_live_gaps w, w.gaps.length_eq, List.length_map]

theorem mem_live_gaps {p : pool_mgr_t} {L : List Nat} {hole : Option Nat} (w : WFh p L hole)
    (e : gap_t) :
    e ∈ live_gaps p ↔ ∃ i, i ∈ L ∧ freeAt p.node_heap hole i = true ∧ e = gap_entry p.node_heap i := by
  rw [w.gaps.mem_iff, List.mem_map]
  constructor
  · rintro ⟨i, hi, rfl⟩
    rw [List.mem_filter] at hi
    exact ⟨i, hi.1, hi.2, rfl⟩
  · rintro ⟨i, hi, hf, rfl⟩
    exact ⟨i, List.mem_filter.2 ⟨hi, hf⟩, rfl⟩

theorem gapAt_live {p : pool_mgr_t} {i : Nat} (hi : i < p.pool.num_gaps)
    (hn : p.pool.num_gaps ≤ p.gap_ix.length) :
    ∃ hlt : i < (live_gaps p).length, gapAt p.gap_ix i = (live_gaps p)[i] := by
  have hlt : i < (live_gaps p).length := by simp [live_gaps, List.length_take]; omega
  refine ⟨hlt, ?_⟩
  simp only [gapAt, live_gaps, List.getD_eq_getElem?_getD, List.getElem_take]
  rw [List.getElem?_eq_getElem (by omega)]; rfl

theorem mem_of_used {p : pool_mgr_t} {L : List Nat} {hole : Option Nat} (w : WFh p L hole)
    {i : Nat} (hu : (nodeAt p.node_heap i).used = 1) : i ∈ L := by
  by_contra hc
  have := w.used_out i hc
  omega

theorem freeAt_none (h : List node_t) (i : Nat) :
    freeAt h none i = decide ((nodeAt h i).allocated = 0) := by
  simp [freeAt]

theorem gap_entry_node (h : List node_t) (i : Nat) : (gap_entry h i).node = some i := rfl

theorem gap_entry_size (h : List node_t) (i : Nat) :
    (gap_entry h i).size = (nodeAt h i).alloc_record.size := rfl

theorem gaps_remove {p : pool_mgr_t} {A B : List Nat} {S : Nat} {hole : Option Nat}
    (w : WFh p (A ++ S :: B) hole) (hS : freeAt p.node_heap hole S = true) :
    ((live_gaps p).eraseP (fun y => decide (y.node = some S))).Perm
      (((A ++ B).filter (freeAt p.node_heap hole)).map (gap_entry p.node_heap)) := by
  have hnd := w.nodup
  have hSA : S ∉ A := fun hc => by
    exact (List.nodup_append.1 hnd).2.2 hc (List.mem_cons_self _ _)
  have hpw : List.Pairwise (fun a b : gap_t =>
      (decide (a.node = some S)) = true → (decide (b.node = some S)) = true → False)
      (((A ++ S :: B).filter (freeAt p.node_heap hole)).map (gap_entry p.node_heap)) := by
    rw [List.pairwise_map]
    have hnd2 : ((A ++ S :: B).filter (freeAt p.node_heap hole)).Nodup := hnd.filter _
    refine hnd2.imp ?_
    intro a b hab ha hb
    simp only [gap_entry_node, decide_eq_true_eq, Option.some.injEq] at ha hb
    exact hab (ha.trans hb.symm)
  have hperm := (w.gaps.symm.eraseP _ hpw).symm
  refine hperm.trans ?_
  rw [List.filter_append, List.filter_cons, if_pos hS, List.map_append, List.map_cons,
    List.eraseP_append_right, List.eraseP_cons_of_pos, List.filter_append, List.map_append]
  · simp [gap_entry_node]
  · intro b hb
    rw [List.mem_map] at hb
    obtain ⟨i, hi, rfl⟩ := hb
    simp only [gap_entry_node, decide_eq_true_eq, Option.some.injEq]
    intro hc; subst hc
    exact hSA (List.mem_filter.1 hi).1

theorem gaps_sorted_remove {p : pool_mgr_t} (x : Option Nat)
    (hs : (live_gaps p).Pairwise gap_le) :
    ((live_gaps p).eraseP (fun y => decide (y.node = x))).Pairwise gap_le :=
  hs.sublist (List.eraseP_sublist _)

theorem split_facts {A B : List Nat} {S : Nat} (hnd : (A ++ S :: B).Nodup) :
    S ∉ A ∧ S ∉ B ∧ A.Nodup ∧ B.Nodup ∧ (∀ a ∈ A, a ∉ B) := by
  rw [List.nodup_append, List.nodup_cons] at hnd
  obtain ⟨hA, ⟨hSB, hB⟩, hdis⟩ := hnd
  exact ⟨fun hc => hdis hc (List.mem_cons_self _ _), hSB, hA, hB,
    fun a ha hb => hdis ha (List.mem_cons_of_mem _ hb)⟩

theorem freeAt_congr {h h' : List node_t} {hole hole' : Option Nat} {i : Nat}
    (ha : (nodeAt h' i).allocated = (nodeAt h i).allocated)
    (h1 : some i ≠ hole) (h2 : some i ≠ hole') : freeAt h' hole' i = freeAt h hole i := by
  simp [freeAt, ha, h1, h2]

theorem allocAt_congr {h h' : List node_t} {i : Nat}
    (ha : (nodeAt h' i).allocated = (nodeAt h i).allocated) : allocAt h' i = allocAt h i := by
  simp [allocAt, ha]

theorem gap_entry_congr {h h' : List node_t} {i : Nat}
    (ha : (nodeAt h' i).alloc_record.size = (nodeAt h i).alloc_record.size) :
    gap_entry h' i = gap_entry h i := by
  simp [gap_entry, ha]

/-- Frame for the free-segment entries of a part of the list. -/
theorem free_entries_congr {h h' : List node_t} {hole hole' : Option Nat} {X : List Nat}
    (ha : ∀ i ∈ X, (nodeAt h' i).allocated = (nodeAt h i).allocated)
    (hs : ∀ i ∈ X, (nodeAt h' i).alloc_record.size = (nodeAt h i).alloc_record.size)
    (h1 : ∀ i ∈ X, some i ≠ hole) (h2 : ∀ i ∈ X, some i ≠ hole') :
    (X.filter (freeAt h' hole')).map (gap_entry h') = (X.filter (freeAt h hole)).map (gap_entry h) := by
  have hf : X.filter (freeAt h' hole') = X.filter (freeAt h hole) :=
    List.filter_congr (fun i hi => freeAt_congr (ha i hi) (h1 i hi) (h2 i hi))
  rw [hf]
  exact List.map_congr_left (fun i hi => gap_entry_congr (hs i (List.mem_filter.1 hi).1))

theorem free_map_congr {h h' : List node_t} {hole hole' : Option Nat} {X : List Nat}
    (ha : ∀ i ∈ X, (nodeAt h' i).allocated = (nodeAt h i).allocated)
    (h1 : ∀ i ∈ X, some i ≠ hole) (h2 : ∀ i ∈ X, some i ≠ hole') :
    X.map (freeAt h' hole') = X.map (freeAt h hole) :=
  List.map_congr_left (fun i hi => freeAt_congr (ha i hi) (h1 i hi) (h2 i hi))

theorem alloc_count_congr {h h' : List node_t} {X : List Nat}
    (ha : ∀ i ∈ X, (nodeAt h' i).allocated = (nodeAt h i).allocated) :
    X.countP (allocAt h') = X.countP (allocAt h) :=
  List.countP_congr (fun i hi => by rw [allocAt_congr (ha i hi)])

theorem alloc_sizes_congr {h h' : List node_t} {X : List Nat}
    (ha : ∀ i ∈ X, (nodeAt h' i).allocated = (nodeAt h i).allocated)
    (hs : ∀ i ∈ X, (nodeAt h' i).alloc_record.size = (nodeAt h i).alloc_record.size) :
    sizes h' (X.filter (allocAt h')) = sizes h (X.filter (allocAt h)) := by
  have hf : X.filter (allocAt h') = X.filter (allocAt h) :=
    List.filter_congr (fun i hi => allocAt_congr (ha i hi))
  rw [hf]
  exact sizes_congr (fun i hi => hs i (List.mem_filter.1 hi).1)

theorem ne_hole_none (X : List Nat) : ∀ i ∈ X, some i ≠ (none : Option Nat) := by
  intro i _; simp

theorem ne_hole_some {X : List Nat} {m : Nat} (hm : m ∉ X) : ∀ i ∈ X, some i ≠ some m := by
  intro i hi hc
  simp only [Option.some.injEq] at hc
  subst hc
  exact hm hi

/-- The no-two-free-neighbours chain around a node that is not (or no longer) free. -/
theorem chain_mid_false {X Y : List Bool} :
    List.Chain' (fun x y => ¬ (x = true ∧ y = true)) (X ++ false :: Y) ↔
      List.Chain' (fun x y => ¬ (x = true ∧ y = true)) X ∧
      List.Chain' (fun x y => ¬ (x = true ∧ y = true)) Y := by
  rw [List.chain'_append, List.chain'_cons']
  simp

theorem chain_mid_true {X Y : List Bool} :
    List.Chain' (fun x y => ¬ (x = true ∧ y = true)) (X ++ true :: Y) ↔
      List.Chain' (fun x y => ¬ (x = true ∧ y = true)) X ∧
      List.Chain' (fun x y => ¬ (x = true ∧ y = true)) Y ∧
      X.getLast? ≠ some true ∧ Y.head? ≠ some true := by
  rw [List.chain'_append, List.chain'_cons']
  simp
  tauto

theorem WFh_alloc_exact {p : pool_mgr_t} {A B : List Nat} {S : Nat}
    (w : WFh p (A ++ S :: B) none) (hfree : (nodeAt p.node_heap S).allocated = 0)
    (n1 : node_t) (g : List gap_t) (n : Nat)
    (hu : n1.used = (nodeAt p.node_heap S).used) (ha : n1.allocated = 1)
    (hnx : n1.next = (nodeAt p.node_heap S).next) (hpv : n1.prev = (nodeAt p.node_heap S).prev)
    (hm : n1.alloc_record.mem = (nodeAt p.node_heap S).alloc_record.mem)
    (hsz : n1.alloc_record.size = (nodeAt p.node_heap S).alloc_record.size)
    (hg : g.length = p.gap_ix.length) (hn : n + 1 = p.pool.num_gaps)
    (hgt : g.take n = (live_gaps p).eraseP (fun y => decide (y.node = some S))) :
    WFh { p with
          node_heap := p.node_heap.set S n1
          gap_ix := g
          pool := { p.pool with
                    num_allocs := p.pool.num_allocs + 1
                    alloc_size := p.pool.alloc_size + (nodeAt p.node_heap S).alloc_record.size
                    num_gaps := n } }
      (A ++ S :: B) none := by
  obtain ⟨hSA, hSB, _, _, _⟩ := split_facts w.nodup
  have hSL : S ∈ A ++ S :: B := by simp
  have hSlt : S < p.node_heap.length := by rw [w.heap_len]; exact w.bound S hSL
  have hS' : nodeAt (p.node_heap.set S n1) S = n1 := nodeAt_set_eq hSlt
  have hne : ∀ i, i ≠ S → nodeAt (p.node_heap.set S n1) i = nodeAt p.node_heap i :=
    fun i hi => nodeAt_set_ne (Ne.symm hi)
  have hAne : ∀ i ∈ A, i ≠ S := fun i hi hc => hSA (hc ▸ hi)
  have hBne : ∀ i ∈ B, i ≠ S := fun i hi hc => hSB (hc ▸ hi)
  have fnext : ∀ i, (nodeAt (p.node_heap.set S n1) i).next = (nodeAt p.node_heap i).next := by
    intro i; by_cases hi : i = S
    · subst hi; rw [hS', hnx]
    · rw [hne i hi]
  have fprev : ∀ i, (nodeAt (p.node_heap.set S n1) i).prev = (nodeAt p.node_heap i).prev := by
    intro i; by_cases hi : i = S
    · subst hi; rw [hS', hpv]
    · rw [hne i hi]
  have fmem : ∀ i, (nodeAt (p.node_heap.set S n1) i).alloc_record.mem
      = (nodeAt p.node_heap i).alloc_record.mem := by
    intro i; by_cases hi : i = S
    · subst hi; rw [hS', hm]
    · rw [hne i hi]
  have fsize : ∀ i, (nodeAt (p.node_heap.set S n1) i).alloc_record.size
      = (nodeAt p.node_heap i).alloc_record.size := by
    intro i; by_cases hi : i = S
    · subst hi; rw [hS', hsz]
    · rw [hne i hi]
  have fused : ∀ i, (nodeAt (p.node_heap.set S n1) i).used = (nodeAt p.node_heap i).used := by
    intro i; by_cases hi : i = S
    · subst hi; rw [hS', hu]
    · rw [hne i hi]
  have falloc : ∀ i, i ≠ S → (nodeAt (p.node_heap.set S n1) i).allocated
      = (nodeAt p.node_heap i).allocated := fun i hi => by rw [hne i hi]
  have hfS : freeAt p.node_heap none S = true := by simp [freeAt, hfree]
  have hfS' : freeAt (p.node_heap.set S n1) none S = false := by simp [freeAt, hS', ha]
  have haS : allocAt p.node_heap S = false := by simp [allocAt, hfree]
  have haS' : allocAt (p.node_heap.set S n1) S = true := by simp [allocAt, hS', ha]
  refine
    { heap_len := by simp [w.heap_len]
      gap_len := by show g.length = p.gap_ix_capacity; rw [hg, w.gap_len]
      head := w.head
      nodup := w.nodup
      bound := w.bound
      used_in := fun i hi => by show (nodeAt (p.node_heap.set S n1) i).used = 1
                                rw [fused]; exact w.used_in i hi
      used_out := fun i hi => by show (nodeAt (p.node_heap.set S n1) i).used = 0
                                 rw [fused]; exact w.used_out i hi
      alloc01 := fun i hi => by
        show (nodeAt (p.node_heap.set S n1) i).allocated ≤ 1
        by_cases his : i = S
        · subst his; rw [hS', ha]
        · rw [falloc i his]; exact w.alloc01 i hi
      nexts := nextOK_congr (fun a _ => fnext a) w.nexts
      prevs := prevOK_congr (fun a _ => fprev a) w.prevs
      tiles := tilesFrom_congr (fun a _ => fmem a) (fun a _ => fsize a) w.tiles
      total := by
        show sizes (p.node_heap.set S n1) _ = p.pool.total_size
        rw [sizes_congr (fun a _ => fsize a)]; exact w.total
      noadj := ?_
      gaps := ?_
      sorted := by
        show (g.take n).Pairwise gap_le
        rw [hgt]; exact gaps_sorted_remove _ w.sorted
      n_allocs := ?_
      a_size := ?_
      n_used := w.n_used
      cap_nodes := w.cap_nodes
      min_nodes := w.min_nodes
      cap_gaps := by
        have := w.cap_gaps
        show 4 * n ≤ 3 * p.gap_ix_capacity + 4
        omega
      min_gaps := w.min_gaps }
  · show List.Chain' _ (List.map (freeAt (p.node_heap.set S n1) none) (A ++ S :: B))
    have := w.noadj
    rw [List.map_append, List.map_cons, hfS, chain_mid_true] at this
    rw [List.map_append, List.map_cons, hfS', chain_mid_false,
      free_map_congr (fun i hi => falloc i (hAne i hi)) (ne_hole_none A) (ne_hole_none A),
      free_map_congr (fun i hi => falloc i (hBne i hi)) (ne_hole_none B) (ne_hole_none B)]
    exact ⟨this.1, this.2.1⟩
  · show (g.take n).Perm _
    rw [hgt]
    refine (gaps_remove w hfS).trans ?_
    show List.Perm _ (List.map (gap_entry (p.node_heap.set S n1))
      (List.filter (freeAt (p.node_heap.set S n1) none) (A ++ S :: B)))
    rw [List.filter_append, List.filter_append,
      List.filter_cons_of_neg (by rw [hfS']; simp), List.map_append,
      List.map_append,
      free_entries_congr (fun i hi => falloc i (hAne i hi)) (fun i _ => fsize i)
        (ne_hole_none A) (ne_hole_none A),
      free_entries_congr (fun i hi => falloc i (hBne i hi)) (fun i _ => fsize i)
        (ne_hole_none B) (ne_hole_none B)]
  · show p.pool.num_allocs + 1 = List.countP (allocAt (p.node_heap.set S n1)) (A ++ S :: B)
    rw [w.n_allocs, List.countP_append, List.countP_append,
      List.countP_cons_of_neg _ _ (by rw [haS]; simp), List.countP_cons_of_pos _ _ haS',
      alloc_count_congr (fun i hi => falloc i (hAne i hi)),
      alloc_count_congr (fun i hi => falloc i (hBne i hi))]
    omega
  · show p.pool.alloc_size + _ = sizes (p.node_heap.set S n1)
      (List.filter (allocAt (p.node_heap.set S n1)) (A ++ S :: B))
    rw [w.a_size, List.filter_append, List.filter_append,
      List.filter_cons_of_neg (by rw [haS]; simp), List.filter_cons_of_pos haS',
      sizes_append, sizes_append, sizes_cons,
      alloc_sizes_congr (fun i hi => falloc i (hAne i hi)) (fun i _ => fsize i),
      alloc_sizes_congr (fun i hi => falloc i (hBne i hi)) (fun i _ => fsize i), fsize]
    omega

theorem nodeAt_set_if {h : List node_t} {i j : Nat} {x : node_t} :
    nodeAt (h.set i x) j = if j = i ∧ i < h.length then x else nodeAt h j := by
  by_cases hij : j = i
  · subst hij
    by_cases hl : j < h.length
    · simp [nodeAt_set_eq hl, hl]
    · simp [hl, nodeAt, List.set_eq_of_length_le (Nat.le_of_not_lt hl)]
  · simp [hij, nodeAt_set_ne (Ne.symm hij)]

theorem headOr_mem {B : List Nat} {d : Option Nat} {x : Nat} (h : headOr B d = some x)
    (hd : d = none) : ∃ B', B = x :: B' := by
  cases B with
  | nil => simp [headOr, hd] at h
  | cons b B' => simp [headOr] at h; exact ⟨B', by rw [h]⟩

theorem sub64_of_le {a b : Nat} (h : b ≤ a) : sub64 a b = a - b := by
  unfold sub64; rw [if_pos h]

theorem sub32_of_le {a b : Nat} (h : b ≤ a) : sub32 a b = a - b := by
  unfold sub32; rw [if_pos h]

theorem AllocEffect.congr {p1 p q : pool_mgr_t} {A B : List Nat} {S k : Nat}
    (hn : ∀ i, nodeAt p1.node_heap i = nodeAt p.node_heap i) (hp : p1.pool = p.pool)
    (hu : p1.used_nodes = p.used_nodes) (hg : p1.gap_ix = p.gap_ix)
    (e : AllocEffect p1 q A B S k) : AllocEffect p q A B S k := by
  have hl : live_gaps p1 = live_gaps p := by unfold live_gaps; rw [hg, hp]
  exact
    { was_free := by rw [← hn]; exact e.was_free
      fits := by rw [← hn]; exact e.fits
      now_alloc := e.now_alloc
      now_size := e.now_size
      now_mem := by rw [← hn]; exact e.now_mem
      n_allocs := by rw [← hp]; exact e.n_allocs
      a_size := by rw [← hp]; exact e.a_size
      t_size := by rw [← hp]; exact e.t_size
      policy := by rw [← hp]; exact e.policy
      others := fun i h1 h2 => by rw [← hn]; exact e.others i h1 h2
      exact := fun h => by
        rw [← hn] at h
        rw [← hu, ← hp, ← hl]
        exact e.exact h
      split := fun h => by
        rw [← hn] at h
        rw [← hu, ← hp, ← hl, ← hn]
        exact e.split h }

theorem del_mark_free_spec {p : pool_mgr_t} {X Y : List Nat} {A : Nat}
    (w : WFh p (X ++ A :: Y) none) (hl : (nodeAt p.node_heap A).allocated = 1) :
    WFh (del_mark_free p A) (X ++ A :: Y) (some A) ∧
      (nodeAt (del_mark_free p A).node_heap A).allocated = 0 ∧
      (nodeAt (del_mark_free p A).node_heap A).alloc_record = (nodeAt p.node_heap A).alloc_record ∧
      (∀ i, i ≠ A → nodeAt (del_mark_free p A).node_heap i = nodeAt p.node_heap i) ∧
      (del_mark_free p A).pool.num_allocs + 1 = p.pool.num_allocs ∧
      (del_mark_free p A).pool.alloc_size + (nodeAt p.node_heap A).alloc_record.size
        = p.pool.alloc_size := by
  obtain ⟨hAX, hAY, _, _, _⟩ := split_facts w.nodup
  have hAL : A ∈ X ++ A :: Y := by simp
  have hAlt : A < p.node_heap.length := by rw [w.heap_len]; exact w.bound A hAL
  have hheap : (del_mark_free p A).node_heap
      = p.node_heap.set A { nodeAt p.node_heap A with allocated := 0 } := rfl
  have hA' : nodeAt (del_mark_free p A).node_heap A
      = { nodeAt p.node_heap A with allocated := 0 } := by rw [hheap, nodeAt_set_eq hAlt]
  have hne : ∀ i, i ≠ A → nodeAt (del_mark_free p A).node_heap i = nodeAt p.node_heap i :=
    fun i hi => by rw [hheap, nodeAt_set_ne (Ne.symm hi)]
  have hXne : ∀ i ∈ X, i ≠ A := fun i hi hc => hAX (hc ▸ hi)
  have hYne : ∀ i ∈ Y, i ≠ A := fun i hi hc => hAY (hc ▸ hi)
  have fnext : ∀ i, (nodeAt (del_mark_free p A).node_heap i).next = (nodeAt p.node_heap i).next := by
    intro i; by_cases hi : i = A
    · subst hi; rw [hA']
    · rw [hne i hi]
  have fprev : ∀ i, (nodeAt (del_mark_free p A).node_heap i).prev = (nodeAt p.node_heap i).prev := by
    intro i; by_cases hi : i = A
    · subst hi; rw [hA']
    · rw [hne i hi]
  have frec : ∀ i, (nodeAt (del_mark_free p A).node_heap i).alloc_record
      = (nodeAt p.node_heap i).alloc_record := by
    intro i; by_cases hi : i = A
    · subst hi; rw [hA']
    · rw [hne i hi]
  have fmem : ∀ i, (nodeAt (del_mark_free p A).node_heap i).alloc_record.mem
      = (nodeAt p.node_heap i).alloc_record.mem := fun i => by rw [frec]
  have fsize : ∀ i, (nodeAt (del_mark_free p A).node_heap i).alloc_record.size
      = (nodeAt p.node_heap i).alloc_record.size := fun i => by rw [frec]
  have fused : ∀ i, (nodeAt (del_mark_free p A).node_heap i).used = (nodeAt p.node_heap i).used := by
    intro i; by_cases hi : i = A
    · subst hi; rw [hA']
    · rw [hne i hi]
  have falloc : ∀ i, i ≠ A → (nodeAt (del_mark_free p A).node_heap i).allocated
      = (nodeAt p.node_heap i).allocated := fun i hi => by rw [hne i hi]
  have hfA : freeAt p.node_heap none A = false := by simp [freeAt, hl]
  have hfA' : freeAt (del_mark_free p A).node_heap (some A) A = false := by simp [freeAt]
  have haA : allocAt p.node_heap A = true := by simp [allocAt, hl]
  have haA' : allocAt (del_mark_free p A).node_heap A = false := by simp [allocAt, hA']
  have hmapX := @free_map_congr p.node_heap (del_mark_free p A).node_heap none (some A) X
    (fun i hi => falloc i (hXne i hi)) (ne_hole_none X)
    (ne_hole_some hAX)
  have hmapY := @free_map_congr p.node_heap (del_mark_free p A).node_heap none (some A) Y
    (fun i hi => falloc i (hYne i hi)) (ne_hole_none Y)
    (ne_hole_some hAY)
  have hentX := @free_entries_congr p.node_heap (del_mark_free p A).node_heap none (some A) X
    (fun i hi => falloc i (hXne i hi)) (fun i _ => fsize i)
    (ne_hole_none X) (ne_hole_some hAX)
  have hentY := @free_entries_congr p.node_heap (del_mark_free p A).node_heap none (some A) Y
    (fun i hi => falloc i (hYne i hi)) (fun i _ => fsize i)
    (ne_hole_none Y) (ne_hole_some hAY)
  -- the statistics before
  have hna := w.n_allocs
  rw [List.countP_append, List.countP_cons_of_pos _ _ haA] at hna
  have hsa := w.a_size
  rw [List.filter_append, List.filter_cons_of_pos haA, sizes_append, sizes_cons] at hsa
  have hnum : (del_mark_free p A).pool.num_allocs = p.pool.num_allocs - 1 := by
    show sub32 p.pool.num_allocs 1 = _
    exact sub32_of_le (by omega)
  have hasz : (del_mark_free p A).pool.alloc_size
      = p.pool.alloc_size - (nodeAt p.node_heap A).alloc_record.size := by
    show sub64 p.pool.alloc_size (nodeAt (p.node_heap.set A _) A).alloc_record.size = _
    rw [nodeAt_set_eq hAlt]
    exact sub64_of_le (by show (nodeAt p.node_heap A).alloc_record.size ≤ _; omega)
  refine ⟨?_, by rw [hA'], frec A, hne, by omega, by omega⟩
  refine
    { heap_len := by rw [hheap, List.length_set]; exact w.heap_len
      gap_len := w.gap_len
      head := w.head
      nodup := w.nodup
      bound := w.bound
      used_in := fun i hi => by rw [fused]; exact w.used_in i hi
      used_out := fun i hi => by rw [fused]; exact w.used_out i hi
      alloc01 := fun i hi => by
        by_cases his : i = A
        · subst his; rw [hA']; simp
        · rw [falloc i his]; exact w.alloc01 i hi
      nexts := nextOK_congr (fun a _ => fnext a) w.nexts
      prevs := prevOK_congr (fun a _ => fprev a) w.prevs
      tiles := tilesFrom_congr (fun a _ => fmem a) (fun a _ => fsize a) w.tiles
      total := by
        rw [sizes_congr (fun a _ => fsize a)]; exact w.total
      noadj := by
        have := w.noadj
        rw [List.map_append, List.map_cons, hfA] at this
        rw [List.map_append, List.map_cons, hfA', hmapX, hmapY]
        exact this
      gaps := by
        have := w.gaps
        rw [List.filter_append, List.filter_cons_of_neg (by rw [hfA]; simp),
          List.map_append] at this
        rw [List.filter_append, List.filter_cons_of_neg (by rw [hfA']; simp),
          List.map_append, hentX, hentY]
        exact this
      sorted := w.sorted
      n_allocs := by
        rw [hnum, List.countP_append, List.countP_cons_of_neg _ _ (by rw [haA']; simp),
          alloc_count_congr (fun i hi => falloc i (hXne i hi)),
          alloc_count_congr (fun i hi => falloc i (hYne i hi))]
        omega
      a_size := by
        rw [hasz, List.filter_append, List.filter_cons_of_neg (by rw [haA']; simp),
          sizes_append,
          alloc_sizes_congr (fun i hi => falloc i (hXne i hi)) (fun i _ => fsize i),
          alloc_sizes_congr (fun i hi => falloc i (hYne i hi)) (fun i _ => fsize i)]
        omega
      n_used := w.n_used
      cap_nodes := w.cap_nodes
      min_nodes := w.min_nodes
      cap_gaps := w.cap_gaps
      min_gaps := w.min_gaps }

theorem WFh_del_add {p q : pool_mgr_t} {X Y : List Nat} {M : Nat}
    (w : WFh p (X ++ M :: Y) (some M)) (hM : (nodeAt p.node_heap M).allocated = 0)
    (hpred : (X.map (freeAt p.node_heap none)).getLast? ≠ some true)
    (hsucc : (Y.map (freeAt p.node_heap none)).head? ≠ some true)
    (hheap : q.node_heap = p.node_heap) (htot : q.total_nodes = p.total_nodes)
    (hused : q.used_nodes = p.used_nodes)
    (hglen : q.gap_ix.length = q.gap_ix_capacity) (hgmin : 40 ≤ q.gap_ix_capacity)
    (hgcap : 4 * q.pool.num_gaps ≤ 3 * q.gap_ix_capacity + 4)
    (F1 F2 : List gap_t) (hF : live_gaps p = F1 ++ F2)
    (hlive : live_gaps q = F1 ++ ⟨(nodeAt p.node_heap M).alloc_record.size, some M⟩ :: F2)
    (hsw2 : ∀ y ∈ F2, swaps ⟨(nodeAt p.node_heap M).alloc_record.size, some M⟩ y)
    (hsw1 : ∀ y, F1.getLast? = some y →
      ¬ swaps ⟨(nodeAt p.node_heap M).alloc_record.size, some M⟩ y)
    (hna : q.pool.num_allocs = p.pool.num_allocs)
    (has : q.pool.alloc_size = p.pool.alloc_size)
    (hts : q.pool.total_size = p.pool.total_size) :
    WFh q (X ++ M :: Y) none := by
  obtain ⟨hMX, hMY, _, _, _⟩ := split_facts w.nodup
  have hfM : freeAt p.node_heap (some M) M = false := by simp [freeAt]
  have hfM' : freeAt p.node_heap none M = true := by simp [freeAt, hM]
  have hmapX : X.map (freeAt p.node_heap (some M)) = X.map (freeAt p.node_heap none) :=
    free_map_congr (fun _ _ => rfl) (ne_hole_none X) (ne_hole_some hMX)
  have hmapY : Y.map (freeAt p.node_heap (some M)) = Y.map (freeAt p.node_heap none) :=
    free_map_congr (fun _ _ => rfl) (ne_hole_none Y) (ne_hole_some hMY)
  have hentX := @free_entries_congr p.node_heap p.node_heap none (some M) X
    (fun _ _ => rfl) (fun _ _ => rfl)
    (ne_hole_none X) (ne_hole_some hMX)
  have hentY := @free_entries_congr p.node_heap p.node_heap none (some M) Y
    (fun _ _ => rfl) (fun _ _ => rfl)
    (ne_hole_none Y) (ne_hole_some hMY)
  refine
    { heap_len := by rw [hheap, htot]; exact w.heap_len
      gap_len := hglen
      head := w.head
      nodup := w.nodup
      bound := fun i hi => by rw [htot]; exact w.bound i hi
      used_in := fun i hi => by rw [hheap]; exact w.used_in i hi
      used_out := fun i hi => by rw [hheap]; exact w.used_out i hi
      alloc01 := fun i hi => by rw [hheap]; exact w.alloc01 i hi
      nexts := by rw [hheap]; exact w.nexts
      prevs := by rw [hheap]; exact w.prevs
      tiles := by rw [hheap]; exact w.tiles
      total := by rw [hheap, hts]; exact w.total
      noadj := ?_
      gaps := ?_
      sorted := by
        rw [hlive]
        exact sorted_insert (by rw [← hF]; exact w.sorted) hsw2 hsw1
      n_allocs := by rw [hheap, hna]; exact w.n_allocs
      a_size := by rw [hheap, has]; exact w.a_size
      n_used := by rw [hused]; exact w.n_used
      cap_nodes := by rw [hused, htot]; exact w.cap_nodes
      min_nodes := by rw [htot]; exact w.min_nodes
      cap_gaps := hgcap
      min_gaps := hgmin }
  · have := w.noadj
    rw [List.map_append, List.map_cons, hfM, chain_mid_false, hmapX, hmapY] at this
    rw [hheap, List.map_append, List.map_cons, hfM', chain_mid_true]
    exact ⟨this.1, this.2, hpred, hsucc⟩
  · have := w.gaps
    rw [List.filter_append, List.filter_cons_of_neg (by rw [hfM]; simp), List.map_append,
      hentX, hentY, hF] at this
    rw [hlive, hheap, List.filter_append, List.filter_cons_of_pos hfM', List.map_append,
      List.map_cons]
    exact (List.perm_middle.trans (this.cons _)).trans List.perm_middle.symm

theorem seg_free_eq (p : pool_mgr_t) : seg_free p = freeAt p.node_heap none := by
  funext i; simp [seg_free, freeAt]

theorem sizes_filter_split {h : List node_t} {L : List Nat}
    (h01 : ∀ i ∈ L, (nodeAt h i).allocated ≤ 1) :
    sizes h (L.filter (allocAt h)) + sizes h (L.filter (freeAt h none)) = sizes h L := by
  induction L with
  | nil => rfl
  | cons a L ih =>
    have ih' := ih (fun i hi => h01 i (List.mem_cons_of_mem _ hi))
    have ha := h01 a (List.mem_cons_self _ _)
    by_cases h0 : (nodeAt h a).allocated = 0
    · have h1 : allocAt h a = false := by simp [allocAt, h0]
      have h2 : freeAt h none a = true := by simp [freeAt, h0]
      rw [List.filter_cons_of_neg (by rw [h1]; simp), List.filter_cons_of_pos h2, sizes_cons,
        sizes_cons]
      omega
    · have h1 : allocAt h a = true := by simp [allocAt]; omega
      have h2 : freeAt h none a = false := by simp [freeAt, h0]
      rw [List.filter_cons_of_pos h1, List.filter_cons_of_neg (by rw [h2]; simp), sizes_cons,
        sizes_cons]
      omega

theorem count_filter_split {h : List node_t} {L : List Nat}
    (h01 : ∀ i ∈ L, (nodeAt h i).allocated ≤ 1) :
    L.countP (allocAt h) + (L.filter (freeAt h none)).length = L.length := by
  induction L with
  | nil => rfl
  | cons a L ih =>
    have ih' := ih (fun i hi => h01 i (List.mem_cons_of_mem _ hi))
    have ha := h01 a (List.mem_cons_self _ _)
    by_cases h0 : (nodeAt h a).allocated = 0
    · have h1 : allocAt h a = false := by simp [allocAt, h0]
      have h2 : freeAt h none a = true := by simp [freeAt, h0]
      rw [List.countP_cons_of_neg _ _ (by rw [h1]; simp), List.filter_cons_of_pos h2,
        List.length_cons, List.length_cons]
      omega
    · have h1 : allocAt h a = true := by simp [allocAt]; omega
      have h2 : freeAt h none a = false := by simp [freeAt, h0]
      rw [List.countP_cons_of_pos _ _ h1, List.filter_cons_of_neg (by rw [h2]; simp),
        List.length_cons]
      omega

theorem used_slots_perm {p : pool_mgr_t} {L : List Nat} (w : WFh p L none) :
    ((List.range p.total_nodes).filter
      (fun i => decide ((nodeAt p.node_heap i).used = 1))).Perm L := by
  rw [List.perm_ext_iff_of_nodup ((List.nodup_range _).filter _) w.nodup]
  intro i
  rw [List.mem_filter, List.mem_range]
  constructor
  · rintro ⟨_, hu⟩
    exact mem_of_used w (by simpa using hu)
  · intro hi
    exact ⟨w.bound i hi, by simpa using w.used_in i hi⟩

theorem offset_eq_sizes {h : List node_t} {A B : List Nat} {b s : Nat}
    (ht : tilesFrom h s (A ++ b :: B)) : (nodeAt h b).alloc_record.mem = s + sizes h A := by
  rw [tilesFrom_append, tilesFrom_cons] at ht
  exact ht.2.1

theorem seg_inside {p : pool_mgr_t} {L : List Nat} {hole : Option Nat} (w : WFh p L hole)
    {S : Nat} (hS : S ∈ L) :
    (nodeAt p.node_heap S).alloc_record.mem + (nodeAt p.node_heap S).alloc_record.size
      ≤ p.pool.total_size := by
  obtain ⟨A, B, rfl⟩ := List.append_of_mem hS
  have h1 := offset_eq_sizes w.tiles
  have h2 := w.total
  rw [sizes_append, sizes_cons] at h2
  omega

theorem seg_before {h : List node_t} {s : Nat} {A B C : List Nat} {a b : Nat}
    (ht : tilesFrom h s (A ++ a :: (B ++ b :: C))) :
    (nodeAt h a).alloc_record.mem + (nodeAt h a).alloc_record.size
      ≤ (nodeAt h b).alloc_record.mem := by
  have h1 := offset_eq_sizes ht
  have h2 : A ++ a :: (B ++ b :: C) = (A ++ a :: B) ++ b :: C := by simp
  rw [h2] at ht
  have h3 := offset_eq_sizes ht
  rw [sizes_append, sizes_cons] at h3
  omega

theorem alloc_effect_wf {p q : pool_mgr_t} {A B : List Nat} {S k : Nat}
    (e : AllocEffect p q A B S k) : ∃ L', WFh q L' none ∧ S ∈ L' := by
  by_cases hex : (nodeAt p.node_heap S).alloc_record.size = k
  · exact ⟨A ++ S :: B, (e.exact hex).1, by simp⟩
  · have hlt : k < (nodeAt p.node_heap S).alloc_record.size := by
      have := e.fits; omega
    obtain ⟨R, _, hw, _⟩ := e.split hlt
    exact ⟨_, hw, by simp⟩

theorem not_free_last {h : List node_t} {X : List Nat}
    (hp : (X.map (freeAt h none)).getLast? ≠ some true) :
    ∀ x, X.getLast? = some x → (nodeAt h x).allocated ≠ 0 := by
  intro x hx h0
  apply hp
  rw [List.getLast?_map, hx]
  simp [freeAt, h0]

theorem not_free_head {h : List node_t} {Y : List Nat}
    (hp : (Y.map (freeAt h none)).head? ≠ some true) :
    ∀ y, Y.head? = some y → (nodeAt h y).allocated ≠ 0 := by
  intro y hy h0
  apply hp
  rw [List.head?_map, hy]
  simp [freeAt, h0]

theorem gap_le_antisymm {a b : gap_t} (h1 : gap_le a b) (h2 : gap_le b a) : a = b := by
  obtain ⟨sa, na⟩ := a
  obtain ⟨sb, nb⟩ := b
  unfold gap_le at h1 h2
  simp only at h1 h2
  have hs : sa = sb := by omega
  subst hs
  have g1 : ptr_gt na nb = false := by
    rcases h1 with h | h
    · omega
    · exact h.2
  have g2 : ptr_gt nb na = false := by
    rcases h2 with h | h
    · omega
    · exact h.2
  have hn : na = nb := by
    cases na with
    | none =>
      cases nb with
      | none => rfl
      | some y => simp [ptr_gt] at g2
    | some x =>
      cases nb with
      | none => simp [ptr_gt] at g1
      | some y =>
        simp only [ptr_gt, decide_eq_false_iff_not, not_lt] at g1 g2
        have : x = y := by omega
        rw [this]
  rw [hn]

theorem sorted_perm_eq {l1 l2 : List gap_t} (hp : l1.Perm l2)
    (h1 : l1.Pairwise gap_le) (h2 : l2.Pairwise gap_le) : l1 = l2 :=
  @List.eq_of_perm_of_sorted gap_t gap_le ⟨fun _ _ => gap_le_antisymm⟩ l1 l2 hp h1 h2

theorem split_unique {X1 Y1 X2 Y2 : List Nat} {a : Nat} (hnd : (X1 ++ a :: Y1).Nodup)
    (h : X1 ++ a :: Y1 = X2 ++ a :: Y2) : X1 = X2 ∧ Y1 = Y2 := by
  induction X1 generalizing X2 with
  | nil =>
    cases X2 with
    | nil => simpa using h
    | cons c X2 =>
      simp only [List.nil_append, List.cons_append, List.cons.injEq] at h
      obtain ⟨_, h2⟩ := h
      have : a ∈ Y1 := by rw [h2]; simp
      simp only [List.nil_append, List.nodup_cons] at hnd
      exact absurd this hnd.1
  | cons b X1 ih =>
    cases X2 with
    | nil =>
      simp only [List.nil_append, List.cons_append, List.cons.injEq] at h
      obtain ⟨h1, _⟩ := h
      subst h1
      simp only [List.cons_append, List.nodup_cons] at hnd
      exact absurd (by simp) hnd.1
    | cons c X2 =>
      simp only [List.cons_append, List.cons.injEq] at h
      obtain ⟨h1, h2⟩ := h
      simp only [List.cons_append, List.nodup_cons] at hnd
      obtain ⟨e1, e2⟩ := ih hnd.2 h2
      exact ⟨by rw [h1, e1], e2⟩

theorem no_free_of_no_gaps {p : pool_mgr_t} {L : List Nat} (w : WFh p L none)
    (h0 : p.pool.num_gaps = 0) : ∀ i ∈ L, (nodeAt p.node_heap i).allocated ≠ 0 := by
  intro i hi ha
  have h1 := num_gaps_eq w
  have h2 : i ∈ L.filter (freeAt p.node_heap none) :=
    List.mem_filter.2 ⟨hi, by simp [freeAt, ha]⟩
  have h3 := List.length_pos_of_mem h2
  omega

theorem close_status (s : store_t) (mgr : Nat) (p : pool_mgr_t) (hm : p.pool.mem ≠ none)
    (hs : s.pool_store ≠ none) :
    ∃ s1 st, mem_pool_close s mgr p = some (s1, st) ∧
      (st = alloc_status.ALLOC_OK ↔ (p.pool.num_allocs = 0 ∧ p.pool.num_gaps = 1)) ∧
      (st ≠ alloc_status.ALLOC_OK → st = alloc_status.ALLOC_NOT_FREED) := by
  unfold mem_pool_close
  rw [if_neg hm]
  by_cases hg : p.pool.num_gaps = 1
  · by_cases ha : p.pool.num_allocs = 0
    · rw [if_neg (by simpa using hg), if_neg (by simpa using ha)]
      cases hst : s.pool_store with
      | none => exact absurd hst hs
      | some st =>
        exact ⟨_, _, rfl, ⟨fun _ => ⟨ha, hg⟩, fun _ => rfl⟩, fun h => absurd rfl h⟩
    · rw [if_neg (by simpa using hg), if_pos ha]
      refine ⟨_, _, rfl, ⟨fun h => (by cases h), fun h => absurd h.1 ha⟩, fun _ => rfl⟩
  · rw [if_pos hg]
    refine ⟨_, _, rfl, ⟨fun h => (by cases h), fun h => absurd h.2 hg⟩, fun _ => rfl⟩

theorem tiles_lower {h : List node_t} {L : List Nat} :
    ∀ {s : Nat}, tilesFrom h s L → ∀ x ∈ L, s ≤ (nodeAt h x).alloc_record.mem := by
  induction L with
  | nil => intro s _ x hx; simp at hx
  | cons a rest ih =>
    intro s ht x hx
    rw [tilesFrom_cons] at ht
    rcases List.mem_cons.1 hx with hxa | hxr
    · rw [hxa, ht.1]
    · have := ih ht.2 x hxr
      omega

theorem tiles_pairwise {h : List node_t} {L : List Nat} :
    ∀ {s : Nat}, tilesFrom h s L →
      L.Pairwise (fun a b =>
        (nodeAt h a).alloc_record.mem + (nodeAt h a).alloc_record.size
          ≤ (nodeAt h b).alloc_record.mem) := by
  induction L with
  | nil => intro s _; exact List.Pairwise.nil
  | cons a rest ih =>
    intro s ht
    rw [tilesFrom_cons] at ht
    refine List.Pairwise.cons ?_ (ih ht.2)
    intro x hx
    have := tiles_lower ht.2 x hx
    rw [ht.1]
    exact this

theorem next_of_last {h : List node_t} {L : List Nat} (hn : nextOK h none L) :
    ∀ x, L.getLast? = some x → (nodeAt h x).next = none := by
  intro x hx
  rcases List.eq_nil_or_concat L with h0 | ⟨F, y, hF⟩
  · rw [h0] at hx; simp at hx
  · rw [List.concat_eq_append] at hF
    subst hF
    rw [List.getLast?_concat, Option.some.injEq] at hx
    subst hx
    rw [nextOK_append] at hn
    exact hn.2.1

/-- An entry put where the loop of `_mem_sort_gap_ix` stops keeps a list that is sorted by
size sorted by size. -/
theorem size_sorted_insert {F1 F2 : List gap_t} {e : gap_t}
    (hs : (F1 ++ F2).Pairwise (fun a b => a.size ≤ b.size))
    (h2 : ∀ y ∈ F2, swaps e y) (h1 : ∀ y, F1.getLast? = some y → ¬ swaps e y) :
    (F1 ++ e :: F2).Pairwise (fun a b => a.size ≤ b.size) := by
  rw [List.pairwise_append] at hs ⊢
  obtain ⟨hs1, hs2, hs12⟩ := hs
  have hlast : ∀ y, F1.getLast? = some y → y.size ≤ e.size := by
    intro y hy
    have hns := h1 y hy
    unfold swaps at hns
    by_contra hlt
    exact hns ⟨by omega, fun hc => hlt (by omega)⟩
  have hF1 : ∀ a ∈ F1, a.size ≤ e.size := by
    intro a ha
    rcases List.eq_nil_or_concat F1 with hnil | ⟨F, y, hF⟩
    · subst hnil; simp at ha
    · rw [List.concat_eq_append] at hF
      subst hF
      have hy := hlast y (by simp)
      rw [List.pairwise_append] at hs1
      rcases List.mem_append.1 ha with ha | ha
      · exact Nat.le_trans (hs1.2.2 a ha y (by simp)) hy
      · simp only [List.mem_singleton] at ha
        rw [ha]; exact hy
  refine ⟨hs1, ?_, ?_⟩
  · rw [List.pairwise_cons]
    exact ⟨fun y hy => (h2 y hy).1, hs2⟩
  · intro a ha b hb
    rcases List.mem_cons.1 hb with hb | hb
    · rw [hb]; exact hF1 a ha
    · exact hs12 a ha b hb

/-- What `_mem_remove_from_gap_ix` does for a node that none of the first `num_gaps` entries
references: `position` keeps its start value `-10`, the test `position == -1` does not fire,
the loop does not run, and the function drops the last entry and returns `ALLOC_OK`. -/
theorem remove_missing (p : pool_mgr_t) (sz : Nat) (x : Option Nat)
    (hnone : ∀ i, i < p.pool.num_gaps → (gapAt p.gap_ix i).node ≠ x)
    (hsmall : p.pool.num_gaps ≤ 2 ^ 32 - 10) :
    _mem_remove_from_gap_ix p sz x =
      ({ p with
          gap_ix := p.gap_ix.set (sub32 p.pool.num_gaps 1) zero_gap
          pool := { p.pool with num_gaps := sub32 p.pool.num_gaps 1 } },
        alloc_status.ALLOC_OK) := by
  have hscan : scan (fun i => decide ((gapAt p.gap_ix i).node = x)) p.pool.num_gaps 0
      = none := by
    cases hs : scan (fun i => decide ((gapAt p.gap_ix i).node = x)) p.pool.num_gaps 0 with
    | none => rfl
    | some j =>
      exfalso
      obtain ⟨h1, _, h3, _⟩ := scan_some hs
      simp only [decide_eq_true_eq] at h1
      exact hnone j (by omega) h1
  have hu : toUnsigned (-10) = 2 ^ 32 - 10 := by decide
  have h0 : p.pool.num_gaps - (2 ^ 32 - 10) = 0 := by omega
  unfold _mem_remove_from_gap_ix
  simp only [hscan]
  rw [if_neg (by decide), hu, h0]
  rfl

theorem gapAt_set_zero (g : List gap_t) (n : Nat) : gapAt (g.set n zero_gap) n = zero_gap := by
  simp only [gapAt, List.getD_eq_getElem?_getD, List.getElem?_set_self']
  by_cases h : n < g.length
  · simp [List.getElem?_eq_getElem h]
  · simp [List.getElem?_eq_none (Nat.le_of_not_lt h)]

/-- When `_mem_remove_from_gap_ix` returns `ALLOC_OK`, the entry at the new `num_gaps` is
cleared. -/
theorem remove_clears_tail (p : pool_mgr_t) (sz : Nat) (x : Option Nat)
    (hok : (_mem_remove_from_gap_ix p sz x).2 = alloc_status.ALLOC_OK) :
    gapAt (_mem_remove_from_gap_ix p sz x).1.gap_ix
      (_mem_remove_from_gap_ix p sz x).1.pool.num_gaps = zero_gap := by
  have key : ∀ pos : Int, ∀ r : pool_mgr_t × alloc_status,
      r = (if pos = -1 then (p, alloc_status.ALLOC_FAIL)
        else
          ({ p with
              gap_ix := (shift_loop p.gap_ix (toUnsigned pos)
                (p.pool.num_gaps - toUnsigned pos)).set (sub32 p.pool.num_gaps 1) zero_gap
              pool := { p.pool with num_gaps := sub32 p.pool.num_gaps 1 } },
            alloc_status.ALLOC_OK)) →
      r.2 = alloc_status.ALLOC_OK → gapAt r.1.gap_ix r.1.pool.num_gaps = zero_gap := by
    intro pos r hr h
    by_cases hp : pos = -1
    · rw [if_pos hp] at hr
      rw [hr] at h
      cases h
    · rw [if_neg hp] at hr
      rw [hr]
      exact gapAt_set_zero _ _
  exact key _ _ rfl hok

/-- For a node that an entry of the index references, `_mem_remove_from_gap_ix` returns
`ALLOC_OK`, deletes the first entry that references it, keeps the other entries in their
order, decrements `num_gaps` and clears the vacated slot. -/
theorem remove_found (p : pool_mgr_t) (sz : Nat) (x : Option Nat)
    (hn : p.pool.num_gaps < p.gap_ix.length) (e : gap_t) (he : e ∈ live_gaps p)
    (hex : e.node = x) :
    (_mem_remove_from_gap_ix p sz x).2 = alloc_status.ALLOC_OK ∧
    (_mem_remove_from_gap_ix p sz x).1.pool.num_gaps + 1 = p.pool.num_gaps ∧
    live_gaps (_mem_remove_from_gap_ix p sz x).1
      = (live_gaps p).eraseP (fun y => decide (y.node = x)) ∧
    gapAt (_mem_remove_from_gap_ix p sz x).1.gap_ix
      (_mem_remove_from_gap_ix p sz x).1.pool.num_gaps = zero_gap := by
  obtain ⟨g, n, hrun, _, hnum, htake⟩ := remove_spec p sz x hn e he hex
  have hok : (_mem_remove_from_gap_ix p sz x).2 = alloc_status.ALLOC_OK := by rw [hrun]
  refine ⟨hok, ?_, ?_, remove_clears_tail p sz x hok⟩
  · rw [hrun]; exact hnum
  · rw [hrun]; exact htake

/-! ## The invariant on a host that clears memory and never moves a block -/

namespace Ideal

theorem nodeAt_realloc {h : List node_t} {n i : Nat} (hn : h.length ≤ n) :
    nodeAt (realloc h n zero_node) i = nodeAt h i := by
  unfold realloc nodeAt
  rw [List.take_of_length_le hn]
  by_cases hi : i < h.length
  · rw [List.getD_append _ _ _ _ hi]
  · have hi2 : h.length ≤ i := by omega
    rw [List.getD_append_right _ _ _ _ hi2]
    simp only [List.getD_eq_getElem?_getD, List.getElem?_replicate]
    rw [List.getElem?_eq_none hi2]
    split <;> rfl

theorem length_realloc_ideal {α : Type} {xs : List α} {n : Nat} {z : α} (hn : xs.length ≤ n) :
    (realloc xs n z).length = n := by
  simp [realloc, List.length_take]; omega

theorem take_realloc_ideal {α : Type} {xs : List α} {n m : Nat} {z : α} (hn : xs.length ≤ n)
    (hm : m ≤ xs.length) : (realloc xs n z).take m = xs.take m := by
  unfold realloc
  rw [List.take_of_length_le hn, List.take_append_of_le_length hm]

theorem add_spec (p : pool_mgr_t) (sz : Nat) (x : Option Nat)
    (hlen : p.gap_ix.length = p.gap_ix_capacity) (hcap : 4 < p.gap_ix_capacity)
    (hfill : 4 * p.pool.num_gaps ≤ 3 * p.gap_ix_capacity + 4) :
    ∃ g c, _mem_add_to_gap_ix p sz x =
        ({ p with gap_ix := g, gap_ix_capacity := c,
                  pool := { p.pool with num_gaps := p.pool.num_gaps + 1 } },
          alloc_status.ALLOC_OK) ∧
      g.length = c ∧ (c = p.gap_ix_capacity ∨ c = p.gap_ix_capacity * 2) ∧
      4 * (p.pool.num_gaps + 1) ≤ 3 * c + 4 ∧
      ∃ F1 F2, live_gaps p = F1 ++ F2 ∧ g.take (p.pool.num_gaps + 1) = F1 ++ ⟨sz, x⟩ :: F2 ∧
        (∀ y ∈ F2, swaps ⟨sz, x⟩ y) ∧ (∀ y, F1.getLast? = some y → ¬ swaps ⟨sz, x⟩ y) := by
  -- the index after the resize step
  have hres : ∃ g1 c1, _mem_resize_gap_ix p = ({ p with gap_ix := g1, gap_ix_capacity := c1 },
      alloc_status.ALLOC_OK) ∧ g1.length = c1 ∧
      (c1 = p.gap_ix_capacity ∨ c1 = p.gap_ix_capacity * 2) ∧
      4 * p.pool.num_gaps ≤ 3 * c1 ∧ g1.take p.pool.num_gaps = live_gaps p := by
    unfold _mem_resize_gap_ix
    by_cases hf : fill_exceeded p.pool.num_gaps p.gap_ix_capacity = true
    · rw [if_pos hf]
      refine ⟨_, _, rfl, ?_, Or.inr rfl, ?_, ?_⟩
      · exact length_realloc_ideal (by rw [hlen]; simp only [MEM_GAP_IX_EXPAND_FACTOR]; omega)
      · simp [MEM_GAP_IX_EXPAND_FACTOR]; omega
      · exact take_realloc_ideal (by rw [hlen]; simp only [MEM_GAP_IX_EXPAND_FACTOR]; omega) (by omega)
    · rw [if_neg hf]
      refine ⟨p.gap_ix, p.gap_ix_capacity, rfl, hlen, Or.inl rfl, ?_, rfl⟩
      simpa [fill_exceeded] using hf
  obtain ⟨g1, c1, hr, hl1, hc1, hf1, ht1⟩ := hres
  have hn1 : p.pool.num_gaps < g1.length := by omega
  obtain ⟨r, T, hg, hlen2⟩ := split_at_lt g1 p.pool.num_gaps hn1
  rw [ht1] at hg hlen2
  obtain ⟨F1, F2, hF, hsort, hb, hl⟩ := sort_loop_spec (live_gaps p) T ⟨sz, x⟩
  refine ⟨F1 ++ ⟨sz, x⟩ :: (F2 ++ T), c1, ?_, ?_, hc1, by omega, F1, F2, hF, ?_, hb, hl⟩
  · unfold _mem_add_to_gap_ix _mem_sort_gap_ix
    simp only [hr]
    have h1 : g1.set p.pool.num_gaps ⟨sz, x⟩ = live_gaps p ++ ⟨sz, x⟩ :: T := by
      conv_lhs => rw [hg, ← hlen2]
      rw [set_length_cons]
    simp only [h1, Nat.add_sub_cancel]
    have h5 : sort_loop (live_gaps p ++ ⟨sz, x⟩ :: T) p.pool.num_gaps
        = F1 ++ ⟨sz, x⟩ :: (F2 ++ T) := by
      rw [← hsort, hlen2]
    rw [h5]
  · have : (F1 ++ ⟨sz, x⟩ :: (F2 ++ T)).length = g1.length := by
      conv_rhs => rw [hg, hF]
      simp only [List.length_append, List.length_cons]
      omega
    omega
  · have h2 : F1 ++ ⟨sz, x⟩ :: (F2 ++ T) = (F1 ++ ⟨sz, x⟩ :: F2) ++ T := by simp
    have h3 : p.pool.num_gaps + 1 = (F1 ++ (⟨sz, x⟩ : gap_t) :: F2).length := by
      rw [← hlen2, hF]; simp; omega
    rw [h2, h3, List.take_left]

theorem walk_of_nextOK (h : List node_t) (L : List Nat) (hn : nextOK h none L) :
    ∀ fuel, L.length ≤ fuel → walk h fuel (headOr L none) = L := by
  induction L with
  | nil => intro fuel _; cases fuel <;> rfl
  | cons a L ih =>
    intro fuel hf
    cases fuel with
    | zero => simp at hf
    | succ f =>
      have h1 := ih hn.2 f (by simpa using hf)
      have h2 : (nodeAt h a).next = headOr L none := hn.1
      show a :: walk h f (nodeAt h a).next = a :: L
      rw [h2, h1]

theorem seg_list_eq {p : pool_mgr_t} {L : List Nat} {hole : Option Nat} (w : WFh p L hole) :
    seg_list p = L := by
  have h0 : headOr L none = some 0 := by
    cases L with
    | nil => have := w.head; simp at this
    | cons a L => have := w.head; simp at this; simp [headOr, this]
  have hl : L.length ≤ p.total_nodes := length_le_of_nodup_bound w.nodup w.bound
  have := walk_of_nextOK p.node_heap L w.nexts p.total_nodes hl
  rw [h0] at this
  exact this

theorem mem_pool_open_eq_ideal (size : Nat) (policy : alloc_policy) :
    mem_pool_open size policy =
      { pool := { mem := some 0, policy := policy, total_size := size, alloc_size := 0,
                  num_allocs := 0, num_gaps := 1 }
        node_heap := ⟨⟨0, size⟩, 1, 0, none, none⟩ :: List.replicate 39 zero_node
        heap_at := 0
        total_nodes := 40
        used_nodes := 1
        gap_ix := ⟨size, some 0⟩ :: List.replicate 39 zero_gap
        gap_ix_capacity := 40 } := rfl

theorem WFh_open (size : Nat) (policy : alloc_policy) :
    WFh (mem_pool_open size policy) [0] none := by
  rw [mem_pool_open_eq_ideal]
  refine
    { heap_len := by simp
      gap_len := by simp
      head := rfl
      nodup := by simp
      bound := by simp
      used_in := by simp [nodeAt_cons_zero]
      used_out := ?_
      alloc01 := by simp [nodeAt_cons_zero]
      nexts := by simp [nextOK, headOr, nodeAt_cons_zero]
      prevs := by simp [prevOK, nodeAt_cons_zero]
      tiles := by simp [tilesFrom, nodeAt_cons_zero]
      total := by simp [sizes, nodeAt_cons_zero]
      noadj := by simp
      gaps := by simp [live_gaps, freeAt, gap_entry, nodeAt_cons_zero]
      sorted := by simp [live_gaps]
      n_allocs := by simp [allocAt, nodeAt_cons_zero]
      a_size := by simp [allocAt, nodeAt_cons_zero, sizes]
      n_used := rfl
      cap_nodes := by simp
      min_nodes := by simp
      cap_gaps := by simp
      min_gaps := by simp }
  intro i hi
  cases i with
  | zero => simp at hi
  | succ j => rw [nodeAt_cons_succ, nodeAt_replicate]; rfl

theorem select_first_fit {p : pool_mgr_t} {L : List Nat} (w : WFh p L none) {k S : Nat}
    (hp : p.pool.policy = alloc_policy.FIRST_FIT) (hs : select_node p k = some S) :
    S ∈ L ∧ (nodeAt p.node_heap S).allocated = 0 ∧ k ≤ (nodeAt p.node_heap S).alloc_record.size ∧
      ∀ i ∈ L, (nodeAt p.node_heap i).allocated = 0 →
        k ≤ (nodeAt p.node_heap i).alloc_record.size → S ≤ i := by
  unfold select_node at hs
  rw [hp] at hs
  simp only at hs
  obtain ⟨h1, _, _, h4⟩ := scan_some hs
  simp only [Bool.and_eq_true, decide_eq_true_eq] at h1
  refine ⟨mem_of_used w h1.1.1, h1.1.2, h1.2, fun i hi hfree hsz => ?_⟩
  by_contra hlt
  have := h4 i (Nat.zero_le _) (by omega)
  simp [w.used_in i hi, hfree, hsz] at this

theorem select_best_fit {p : pool_mgr_t} {L : List Nat} (w : WFh p L none) {k S : Nat}
    (hp : p.pool.policy = alloc_policy.BEST_FIT) (hs : select_node p k = some S) :
    S ∈ L ∧ (nodeAt p.node_heap S).allocated = 0 ∧ k ≤ (nodeAt p.node_heap S).alloc_record.size ∧
      ∀ i ∈ L, (nodeAt p.node_heap i).allocated = 0 →
        k ≤ (nodeAt p.node_heap i).alloc_record.size →
        (nodeAt p.node_heap S).alloc_record.size ≤ (nodeAt p.node_heap i).alloc_record.size := by
  unfold select_node at hs
  rw [hp] at hs
  simp only at hs
  cases hsc : scan (fun i => decide (k ≤ (gapAt p.gap_ix i).size)) p.pool.num_gaps 0 with
  | none => rw [hsc] at hs; simp at hs
  | some j =>
    rw [hsc] at hs
    simp only at hs
    obtain ⟨h1, _, h3, h4⟩ := scan_some hsc
    simp only [decide_eq_true_eq] at h1
    obtain ⟨hjl, hje⟩ := @gapAt_live p j (by omega) (le_of_lt (num_gaps_lt w))
    have hmem : (live_gaps p)[j] ∈ live_gaps p := List.getElem_mem hjl
    obtain ⟨s, hsL, hsf, hse⟩ := (mem_live_gaps w _).1 hmem
    rw [hje, hse] at hs h1
    simp only [gap_entry, Option.some.injEq] at hs h1
    subst hs
    rw [freeAt_none] at hsf
    simp only [decide_eq_true_eq] at hsf
    refine ⟨hsL, hsf, h1, fun i hi hfree hsz => ?_⟩
    have hmi : gap_entry p.node_heap i ∈ live_gaps p :=
      (mem_live_gaps w _).2 ⟨i, hi, by rw [freeAt_none]; simpa using hfree, rfl⟩
    obtain ⟨m, hm, hme⟩ := List.getElem_of_mem hmi
    have hmn : m < p.pool.num_gaps := by rw [← length_live_gaps w]; exact hm
    obtain ⟨_, hme2⟩ := @gapAt_live p m hmn (le_of_lt (num_gaps_lt w))
    by_cases hjm : j = m
    · subst hjm
      have : gap_entry p.node_heap s = gap_entry p.node_heap i := by rw [← hse, hme]
      simp only [gap_entry, gap_t.mk.injEq, Option.some.injEq] at this
      omega
    · by_cases hlt : m < j
      · have := h4 m (Nat.zero_le _) hlt
        rw [hme2, hme] at this
        simp [gap_entry] at this
        omega
      · have hjm2 : j < m := by omega
        have := gap_le_size ((List.pairwise_iff_getElem.1 w.sorted) j m hjl hm hjm2)
        rw [hse, hme] at this
        simpa [gap_entry] using this

theorem select_node_some {p : pool_mgr_t} {L : List Nat} (w : WFh p L none) {k S : Nat}
    (hs : select_node p k = some S) :
    S ∈ L ∧ (nodeAt p.node_heap S).allocated = 0 ∧ k ≤ (nodeAt p.node_heap S).alloc_record.size := by
  cases hp : p.pool.policy with
  | FIRST_FIT => obtain ⟨h1, h2, h3, _⟩ := select_first_fit w hp hs; exact ⟨h1, h2, h3⟩
  | BEST_FIT => obtain ⟨h1, h2, h3, _⟩ := select_best_fit w hp hs; exact ⟨h1, h2, h3⟩

theorem select_node_none {p : pool_mgr_t} {L : List Nat} (w : WFh p L none) {k : Nat}
    (hs : select_node p k = none) :
    ∀ i ∈ L, (nodeAt p.node_heap i).allocated = 0 → (nodeAt p.node_heap i).alloc_record.size < k := by
  intro i hi hfree
  by_contra hge
  unfold select_node at hs
  cases hp : p.pool.policy with
  | FIRST_FIT =>
    rw [hp] at hs
    simp only at hs
    have := scan_none hs i (Nat.zero_le _) (by have := w.bound i hi; omega)
    simp [w.used_in i hi, hfree] at this
    omega
  | BEST_FIT =>
    rw [hp] at hs
    simp only at hs
    have hmi : gap_entry p.node_heap i ∈ live_gaps p :=
      (mem_live_gaps w _).2 ⟨i, hi, by rw [freeAt_none]; simpa using hfree, rfl⟩
    obtain ⟨m, hm, hme⟩ := List.getElem_of_mem hmi
    have hmn : m < p.pool.num_gaps := by rw [← length_live_gaps w]; exact hm
    obtain ⟨_, hme2⟩ := @gapAt_live p m hmn (le_of_lt (num_gaps_lt w))
    cases hsc : scan (fun i => decide (k ≤ (gapAt p.gap_ix i).size)) p.pool.num_gaps 0 with
    | none =>
      have := scan_none hsc m (Nat.zero_le _) (by omega)
      rw [hme2, hme] at this
      simp [gap_entry] at this
      omega
    | some j =>
      rw [hsc] at hs
      simp only at hs
      obtain ⟨hjl, hje⟩ := @gapAt_live p j
        (by have := (scan_some hsc).2.2.1; omega) (le_of_lt (num_gaps_lt w))
      obtain ⟨s, _, _, hse⟩ := (mem_live_gaps w _).1 (List.getElem_mem hjl)
      rw [hje, hse] at hs
      simp [gap_entry] at hs

theorem resize_node_heap_spec {p : pool_mgr_t} {L : List Nat} {hole : Option Nat}
    (w : WFh p L hole) :
    ∃ h t, _mem_resize_node_heap p =
        ({ p with node_heap := h, total_nodes := t }, alloc_status.ALLOC_OK) ∧
      WFh { p with node_heap := h, total_nodes := t } L hole ∧
      4 * p.used_nodes ≤ 3 * t ∧ (t = p.total_nodes ∨ t = p.total_nodes * 2) ∧
      (∀ i, nodeAt h i = nodeAt p.node_heap i) := by
  unfold _mem_resize_node_heap
  by_cases hf : fill_exceeded p.used_nodes p.total_nodes = true
  · rw [if_pos hf]
    have hle : p.node_heap.length ≤ p.total_nodes * MEM_NODE_HEAP_EXPAND_FACTOR := by
      rw [w.heap_len]; simp only [MEM_NODE_HEAP_EXPAND_FACTOR]; omega
    have hn : ∀ i, nodeAt (realloc p.node_heap (p.total_nodes * MEM_NODE_HEAP_EXPAND_FACTOR)
        zero_node) i = nodeAt p.node_heap i := fun i => nodeAt_realloc hle
    have hfun : nodeAt (realloc p.node_heap (p.total_nodes * MEM_NODE_HEAP_EXPAND_FACTOR)
        zero_node) = nodeAt p.node_heap := funext hn
    have hcap := w.cap_nodes
    have hmin := w.min_nodes
    have hfree : freeAt (realloc p.node_heap (p.total_nodes * MEM_NODE_HEAP_EXPAND_FACTOR)
        zero_node) hole = freeAt p.node_heap hole := by
      funext i; simp only [freeAt, hn]
    have halloc : allocAt (realloc p.node_heap (p.total_nodes * MEM_NODE_HEAP_EXPAND_FACTOR)
        zero_node) = allocAt p.node_heap := by
      funext i; simp only [allocAt, hn]
    have hentry : gap_entry (realloc p.node_heap (p.total_nodes * MEM_NODE_HEAP_EXPAND_FACTOR)
        zero_node) = gap_entry p.node_heap := by
      funext i; simp only [gap_entry, hn]
    refine ⟨_, _, rfl, ?_, ?_, Or.inr rfl, hn⟩
    · refine
        { heap_len := length_realloc_ideal hle
          gap_len := w.gap_len
          head := w.head
          nodup := w.nodup
          bound := fun i hi => by
            have := w.bound i hi
            simp only [MEM_NODE_HEAP_EXPAND_FACTOR]; omega
          used_in := fun i hi => by simp only [hn]; exact w.used_in i hi
          used_out := fun i hi => by simp only [hn]; exact w.used_out i hi
          alloc01 := fun i hi => by simp only [hn]; exact w.alloc01 i hi
          nexts := nextOK_congr (fun a _ => by simp only [hn]) w.nexts
          prevs := prevOK_congr (fun a _ => by simp only [hn]) w.prevs
          tiles := tilesFrom_congr (fun a _ => by simp only [hn]) (fun a _ => by simp only [hn])
            w.tiles
          total := by
            have := w.total
            simp only [sizes, hn] at this ⊢
            exact this
          noadj := by rw [hfree]; exact w.noadj
          gaps := by rw [hfree, hentry]; exact w.gaps
          sorted := w.sorted
          n_allocs := by rw [halloc]; exact w.n_allocs
          a_size := by
            show p.pool.alloc_size = sizes _ (List.filter (allocAt _) L)
            rw [halloc, @sizes_congr p.node_heap _ _ (fun a _ => by rw [hn])]
            exact w.a_size
          n_used := w.n_used
          cap_nodes := by simp only [MEM_NODE_HEAP_EXPAND_FACTOR]; omega
          min_nodes := by
            have := w.min_nodes
            simp only [MEM_NODE_HEAP_EXPAND_FACTOR]; omega
          cap_gaps := w.cap_gaps
          min_gaps := w.min_gaps }
    · simp only [MEM_NODE_HEAP_EXPAND_FACTOR]; omega
  · rw [if_neg hf]
    refine ⟨p.node_heap, p.total_nodes, rfl, w, ?_, Or.inl rfl, fun _ => rfl⟩
    simpa [fill_exceeded] using hf

theorem split_link_length_ideal (h : List node_t) (S R rem : Nat) :
    (split_link h S R rem).length = h.length := by
  unfold split_link
  simp only [List.length_set]
  split <;> simp

theorem split_link_spec (h : List node_t) (S R rem : Nat) (hS : S < h.length)
    (hR : R < h.length) (hSR : S ≠ R)
    (hnx : ∀ nx, (nodeAt h S).next = some nx → nx < h.length ∧ nx ≠ S ∧ nx ≠ R) :
    nodeAt (split_link h S R rem) S = { nodeAt h S with next := some R } ∧
    nodeAt (split_link h S R rem) R =
      { nodeAt h R with
        used := 1, allocated := 0
        alloc_record := ⟨(nodeAt h S).alloc_record.mem + (nodeAt h S).alloc_record.size, rem⟩
        next := (nodeAt h S).next, prev := some S } ∧
    (∀ nx, (nodeAt h S).next = some nx →
      nodeAt (split_link h S R rem) nx = { nodeAt h nx with prev := some R }) ∧
    (∀ i, i ≠ S → i ≠ R → some i ≠ (nodeAt h S).next →
      nodeAt (split_link h S R rem) i = nodeAt h i) := by
  have hRS : R ≠ S := Ne.symm hSR
  unfold split_link
  cases hn : (nodeAt h S).next with
  | none =>
    simp only [nodeAt_set_if, List.length_set, hS, hR, hSR, hRS, hn, and_true, and_false,
      if_true, if_false, true_and]
    refine ⟨fun nx h => by simp at h, fun i h1 h2 _ => by simp [h1, h2]⟩
  | some nx =>
    obtain ⟨h1, h2, h3⟩ := hnx nx hn
    have h2' : S ≠ nx := Ne.symm h2
    have h3' : R ≠ nx := Ne.symm h3
    simp only [nodeAt_set_if, List.length_set, hS, hR, hSR, hRS, hn, and_true, and_false,
      if_true, if_false, true_and, h1, h2, h3, h2', h3']
    refine ⟨fun nx' h => ?_, fun i i1 i2 i3 => ?_⟩
    · simp only [Option.some.injEq] at h
      subst h
      simp [h2, h3]
    · have i3' : i ≠ nx := fun hc => i3 (by rw [hc])
      simp [i1, i2, i3']

theorem merge_next_link_length_ideal (h : List node_t) (A N : Nat) :
    (merge_next_link h A N).length = h.length := by
  unfold merge_next_link
  simp only [List.length_set]
  split <;> simp

theorem merge_next_link_spec (h : List node_t) (A N : Nat) (hA : A < h.length)
    (hN : N < h.length) (hAN : A ≠ N)
    (hnn : ∀ nn, (nodeAt h N).next = some nn → nn < h.length ∧ nn ≠ A ∧ nn ≠ N) :
    nodeAt (merge_next_link h A N) A =
      { nodeAt h A with
        alloc_record := { (nodeAt h A).alloc_record with
          size := (nodeAt h A).alloc_record.size + (nodeAt h N).alloc_record.size }
        next := (nodeAt h N).next } ∧
    nodeAt (merge_next_link h A N) N =
      { nodeAt h N with used := 0, next := none, prev := none } ∧
    (∀ nn, (nodeAt h N).next = some nn →
      nodeAt (merge_next_link h A N) nn = { nodeAt h nn with prev := (nodeAt h N).prev }) ∧
    (∀ i, i ≠ A → i ≠ N → some i ≠ (nodeAt h N).next →
      nodeAt (merge_next_link h A N) i = nodeAt h i) := by
  have hNA : N ≠ A := Ne.symm hAN
  unfold merge_next_link
  cases hn : (nodeAt h N).next with
  | none =>
    simp only [nodeAt_set_if, List.length_set, hA, hN, hAN, hNA, hn, and_true, and_false,
      if_true, if_false, true_and]
    refine ⟨fun nn h => by simp at h, fun i h1 h2 _ => by simp [h1, h2]⟩
  | some nn =>
    obtain ⟨h1, h2, h3⟩ := hnn nn hn
    have h2' : A ≠ nn := Ne.symm h2
    have h3' : N ≠ nn := Ne.symm h3
    simp only [nodeAt_set_if, List.length_set, hA, hN, hAN, hNA, hn, and_true, and_false,
      if_true, if_false, true_and, h1, h2, h3, h2', h3']
    refine ⟨fun nn' h => ?_, fun i i1 i2 i3 => ?_⟩
    · simp only [Option.some.injEq] at h
      subst h
      simp [h2, h3]
    · have i3' : i ≠ nn := fun hc => i3 (by rw [hc])
      simp [i1, i2, i3']

theorem merge_prev_link_length_ideal (h : List node_t) (A P : Nat) :
    (merge_prev_link h A P).length = h.length := by
  unfold merge_prev_link
  simp only [List.length_set]
  split <;> simp

theorem merge_prev_link_spec (h : List node_t) (A P : Nat) (hA : A < h.length)
    (hP : P < h.length) (hAP : A ≠ P)
    (hnx : ∀ nx, (nodeAt h A).next = some nx → nx < h.length ∧ nx ≠ A ∧ nx ≠ P) :
    nodeAt (merge_prev_link h A P) P =
      { nodeAt h P with
        alloc_record := { (nodeAt h P).alloc_record with
          size := (nodeAt h P).alloc_record.size + (nodeAt h A).alloc_record.size }
        next := (nodeAt h A).next } ∧
    nodeAt (merge_prev_link h A P) A =
      { nodeAt h A with used := 0, next := none, prev := none } ∧
    (∀ nx, (nodeAt h A).next = some nx →
      nodeAt (merge_prev_link h A P) nx = { nodeAt h nx with prev := some P }) ∧
    (∀ i, i ≠ A → i ≠ P → some i ≠ (nodeAt h A).next →
      nodeAt (merge_prev_link h A P) i = nodeAt h i) := by
  have hPA : P ≠ A := Ne.symm hAP
  unfold merge_prev_link
  cases hn : (nodeAt h A).next with
  | none =>
    simp only [nodeAt_set_if, List.length_set, hA, hP, hAP, hPA, hn, and_true, and_false,
      if_true, if_false, true_and]
    refine ⟨fun nn h => by simp at h, fun i h1 h2 _ => by simp [h1, h2]⟩
  | some nx =>
    obtain ⟨h1, h2, h3⟩ := hnx nx hn
    have h2' : A ≠ nx := Ne.symm h2
    have h3' : P ≠ nx := Ne.symm h3
    simp only [nodeAt_set_if, List.length_set, hA, hP, hAP, hPA, hn, and_true, and_false,
      if_true, if_false, true_and, h1, h2, h3, h2', h3']
    refine ⟨fun nx' h => ?_, fun i i1 i2 i3 => ?_⟩
    · simp only [Option.some.injEq] at h
      subst h
      simp [h2, h3]
    · have i3' : i ≠ nx := fun hc => i3 (by rw [hc])
      simp [i1, i2, i3']

theorem WFh_alloc_split {p q : pool_mgr_t} {A B : List Nat} {S R k : Nat}
    (w : WFh p (A ++ S :: B) none) (hfree : (nodeAt p.node_heap S).allocated = 0)
    (hk : k < (nodeAt p.node_heap S).alloc_record.size)
    (hRL : R ∉ A ++ S :: B) (hRb : R < p.total_nodes)
    (hcap : 4 * p.used_nodes ≤ 3 * p.total_nodes)
    (n1 : node_t) (hn1 : n1 = { nodeAt p.node_heap S with
      allocated := 1, alloc_record := { (nodeAt p.node_heap S).alloc_record with size := k } })
    (hheap : q.node_heap = split_link (p.node_heap.set S n1) S R
      ((nodeAt p.node_heap S).alloc_record.size - k))
    (htot : q.total_nodes = p.total_nodes) (hused : q.used_nodes = p.used_nodes + 1)
    (hglen : q.gap_ix.length = q.gap_ix_capacity) (hgmin : 40 ≤ q.gap_ix_capacity)
    (hgcap : 4 * q.pool.num_gaps ≤ 3 * q.gap_ix_capacity + 4)
    (F1 F2 : List gap_t)
    (hF : F1 ++ F2 = (live_gaps p).eraseP (fun y => decide (y.node = some S)))
    (hlive : live_gaps q = F1 ++
      ⟨(nodeAt p.node_heap S).alloc_record.size - k, some R⟩ :: F2)
    (hsw2 : ∀ y ∈ F2, swaps ⟨(nodeAt p.node_heap S).alloc_record.size - k, some R⟩ y)
    (hsw1 : ∀ y, F1.getLast? = some y →
      ¬ swaps ⟨(nodeAt p.node_heap S).alloc_record.size - k, some R⟩ y)
    (hna : q.pool.num_allocs = p.pool.num_allocs + 1)
    (has : q.pool.alloc_size = p.pool.alloc_size + k)
    (hts : q.pool.total_size = p.pool.total_size) :
    WFh q (A ++ S :: R :: B) none ∧
      (nodeAt q.node_heap S).allocated = 1 ∧ (nodeAt q.node_heap S).alloc_record.size = k ∧
      (nodeAt q.node_heap S).alloc_record.mem = (nodeAt p.node_heap S).alloc_record.mem ∧
      (nodeAt q.node_heap R).allocated = 0 ∧
      (nodeAt q.node_heap R).alloc_record.size = (nodeAt p.node_heap S).alloc_record.size - k ∧
      (nodeAt q.node_heap R).alloc_record.mem = (nodeAt p.node_heap S).alloc_record.mem + k ∧
      (∀ i, i ≠ S → i ≠ R →
        (nodeAt q.node_heap i).alloc_record = (nodeAt p.node_heap i).alloc_record ∧
        (nodeAt q.node_heap i).allocated = (nodeAt p.node_heap i).allocated ∧
        (nodeAt q.node_heap i).used = (nodeAt p.node_heap i).used) := by
  obtain ⟨hSA, hSB, _, _, hAB⟩ := split_facts w.nodup
  have hSL : S ∈ A ++ S :: B := by simp
  have hSlt : S < p.node_heap.length := by rw [w.heap_len]; exact w.bound S hSL
  have hRlt : R < p.node_heap.length := by rw [w.heap_len]; exact hRb
  have hSR : S ≠ R := fun hc => hRL (hc ▸ hSL)
  have hRA : R ∉ A := fun hc => hRL (List.mem_append_left _ hc)
  have hRB : R ∉ B := fun hc => hRL (List.mem_append_right _ (List.mem_cons_of_mem _ hc))
  have hAne : ∀ i ∈ A, i ≠ S := fun i hi hc => hSA (hc ▸ hi)
  have hBne : ∀ i ∈ B, i ≠ S := fun i hi hc => hSB (hc ▸ hi)
  have hAneR : ∀ i ∈ A, i ≠ R := fun i hi hc => hRA (hc ▸ hi)
  have hBneR : ∀ i ∈ B, i ≠ R := fun i hi hc => hRB (hc ▸ hi)
  -- the old list
  have hnx := w.nexts
  rw [nextOK_append, nextOK_cons] at hnx
  have hpv := w.prevs
  rw [prevOK_append, prevOK_cons] at hpv
  have htl := w.tiles
  rw [tilesFrom_append, tilesFrom_cons] at htl
  have hS4 : nodeAt (p.node_heap.set S n1) S = n1 := nodeAt_set_eq hSlt
  have hne4 : ∀ i, i ≠ S → nodeAt (p.node_heap.set S n1) i = nodeAt p.node_heap i :=
    fun i hi => nodeAt_set_ne (Ne.symm hi)
  have hnext4 : (nodeAt (p.node_heap.set S n1) S).next = headOr B none := by
    rw [hS4, hn1]; exact hnx.2.1
  obtain ⟨cS, cR, cN, cO⟩ := split_link_spec (p.node_heap.set S n1) S R
    ((nodeAt p.node_heap S).alloc_record.size - k) (by simpa using hSlt) (by simpa using hRlt) hSR
    (by
      intro nx hnx'
      rw [hnext4] at hnx'
      obtain ⟨B', rfl⟩ := headOr_mem hnx' rfl
      have hmem : nx ∈ A ++ S :: nx :: B' := by simp
      refine ⟨by rw [List.length_set, w.heap_len]; exact w.bound nx hmem, ?_, ?_⟩
      · exact hBne nx (List.mem_cons_self _ _)
      · exact hBneR nx (List.mem_cons_self _ _))
  rw [← hheap] at cS cR cN cO
  rw [hnext4] at cR cN cO
  rw [hS4] at cS cR
  rw [hne4 R (Ne.symm hSR)] at cR
  -- the nodes of the new heap
  have eS : nodeAt q.node_heap S = { n1 with next := some R } := cS
  have eA : ∀ i ∈ A, nodeAt q.node_heap i = nodeAt p.node_heap i := by
    intro i hi
    rw [cO i (hAne i hi) (hAneR i hi), hne4 i (hAne i hi)]
    intro hc
    obtain ⟨B', rfl⟩ := headOr_mem hc.symm rfl
    exact hAB i hi (List.mem_cons_self _ _)
  have eB : ∀ i ∈ B, (nodeAt q.node_heap i).next = (nodeAt p.node_heap i).next ∧
      (nodeAt q.node_heap i).alloc_record = (nodeAt p.node_heap i).alloc_record ∧
      (nodeAt q.node_heap i).allocated = (nodeAt p.node_heap i).allocated ∧
      (nodeAt q.node_heap i).used = (nodeAt p.node_heap i).used ∧
      (some i ≠ headOr B none → (nodeAt q.node_heap i).prev = (nodeAt p.node_heap i).prev) := by
    intro i hi
    by_cases hh : some i = headOr B none
    · rw [cN i hh.symm, hne4 i (hBne i hi)]
      exact ⟨rfl, rfl, rfl, rfl, fun hc => absurd hh hc⟩
    · rw [cO i (hBne i hi) (hBneR i hi) hh, hne4 i (hBne i hi)]
      exact ⟨rfl, rfl, rfl, rfl, fun _ => rfl⟩
  have eO : ∀ i, i ∉ A ++ S :: R :: B → nodeAt q.node_heap i = nodeAt p.node_heap i := by
    intro i hi
    have h1 : i ≠ S := fun hc => hi (by simp [hc])
    have h2 : i ≠ R := fun hc => hi (by simp [hc])
    rw [cO i h1 h2, hne4 i h1]
    intro hc
    obtain ⟨B', rfl⟩ := headOr_mem hc.symm rfl
    exact hi (by simp)
  have vS_alloc : (nodeAt q.node_heap S).allocated = 1 := by rw [eS, hn1]
  have vS_size : (nodeAt q.node_heap S).alloc_record.size = k := by rw [eS, hn1]
  have vS_mem : (nodeAt q.node_heap S).alloc_record.mem
      = (nodeAt p.node_heap S).alloc_record.mem := by rw [eS, hn1]
  have vS_used : (nodeAt q.node_heap S).used = 1 := by rw [eS, hn1]; exact w.used_in S hSL
  have vS_next : (nodeAt q.node_heap S).next = some R := by rw [eS]
  have vS_prev : (nodeAt q.node_heap S).prev = lastOr A none := by rw [eS, hn1]; exact hpv.2.1
  have vR_alloc : (nodeAt q.node_heap R).allocated = 0 := by rw [cR]
  have vR_size : (nodeAt q.node_heap R).alloc_record.size
      = (nodeAt p.node_heap S).alloc_record.size - k := by rw [cR]
  have vR_mem : (nodeAt q.node_heap R).alloc_record.mem
      = (nodeAt p.node_heap S).alloc_record.mem + k := by rw [cR, hn1]
  have vR_used : (nodeAt q.node_heap R).used = 1 := by rw [cR]
  have vR_next : (nodeAt q.node_heap R).next = headOr B none := by rw [cR]
  have vR_prev : (nodeAt q.node_heap R).prev = some S := by rw [cR]
  have hfS : freeAt p.node_heap none S = true := by simp [freeAt, hfree]
  have hfS' : freeAt q.node_heap none S = false := by simp [freeAt, vS_alloc]
  have hfR' : freeAt q.node_heap none R = true := by simp [freeAt, vR_alloc]
  have haS : allocAt p.node_heap S = false := by simp [allocAt, hfree]
  have haS' : allocAt q.node_heap S = true := by simp [allocAt, vS_alloc]
  have haR' : allocAt q.node_heap R = false := by simp [allocAt, vR_alloc]
  have fA_alloc : ∀ i ∈ A, (nodeAt q.node_heap i).allocated = (nodeAt p.node_heap i).allocated :=
    fun i hi => by rw [eA i hi]
  have fA_size : ∀ i ∈ A, (nodeAt q.node_heap i).alloc_record.size
      = (nodeAt p.node_heap i).alloc_record.size := fun i hi => by rw [eA i hi]
  have fB_alloc : ∀ i ∈ B, (nodeAt q.node_heap i).allocated = (nodeAt p.node_heap i).allocated :=
    fun i hi => (eB i hi).2.2.1
  have fB_size : ∀ i ∈ B, (nodeAt q.node_heap i).alloc_record.size
      = (nodeAt p.node_heap i).alloc_record.size := fun i hi => by rw [(eB i hi).2.1]
  have fB_mem : ∀ i ∈ B, (nodeAt q.node_heap i).alloc_record.mem
      = (nodeAt p.node_heap i).alloc_record.mem := fun i hi => by rw [(eB i hi).2.1]
  refine ⟨?_, vS_alloc, vS_size, vS_mem, vR_alloc, vR_size, vR_mem, ?_⟩
  · refine
      { heap_len := by rw [hheap, split_link_length_ideal, List.length_set, htot, w.heap_len]
        gap_len := hglen
        head := by
          have := w.head
          cases A <;> simpa using this
        nodup := ?_
        bound := ?_
        used_in := ?_
        used_out := ?_
        alloc01 := ?_
        nexts := ?_
        prevs := ?_
        tiles := ?_
        total := ?_
        noadj := ?_
        gaps := ?_
        sorted := ?_
        n_allocs := ?_
        a_size := ?_
        n_used := by rw [hused, w.n_used]; simp only [List.length_append, List.length_cons]; omega
        cap_nodes := by rw [hused, htot]; omega
        min_nodes := by rw [htot]; exact w.min_nodes
        cap_gaps := hgcap
        min_gaps := hgmin }
    · -- nodup
      have h1 : A ++ S :: R :: B = (A ++ [S]) ++ R :: B := by simp
      rw [h1, List.nodup_middle, List.nodup_cons]
      refine ⟨?_, by simpa using w.nodup⟩
      simpa using hRL
    · -- bound
      intro i hi
      rw [htot]
      by_cases hiR : i = R
      · rw [hiR]; exact hRb
      · exact w.bound i (by simp at hi ⊢; tauto)
    · -- used_in
      intro i hi
      simp only [List.mem_append, List.mem_cons] at hi
      rcases hi with hi | hi | hi | hi
      · rw [eA i hi]; exact w.used_in i (by simp [hi])
      · rw [hi]; exact vS_used
      · rw [hi]; exact vR_used
      · rw [(eB i hi).2.2.2.1]; exact w.used_in i (by simp [hi])
    · -- used_out
      intro i hi
      rw [eO i hi]
      exact w.used_out i (fun hc => hi (by simp at hc ⊢; tauto))
    · -- alloc01
      intro i hi
      simp only [List.mem_append, List.mem_cons] at hi
      rcases hi with hi | hi | hi | hi
      · rw [eA i hi]; exact w.alloc01 i (by simp [hi])
      · rw [hi, vS_alloc]
      · rw [hi, vR_alloc]; omega
      · rw [(eB i hi).2.2.1]; exact w.alloc01 i (by simp [hi])
    · -- nexts
      rw [nextOK_append, nextOK_cons, nextOK_cons]
      refine ⟨nextOK_congr (fun a ha => by rw [eA a ha]) hnx.1, vS_next, vR_next,
        nextOK_congr (fun a ha => (eB a ha).1) hnx.2.2⟩
    · -- prevs
      rw [prevOK_append, prevOK_cons, prevOK_cons]
      refine ⟨prevOK_congr (fun a ha => by rw [eA a ha]) hpv.1, vS_prev, vR_prev, ?_⟩
      cases B with
      | nil => trivial
      | cons b B' =>
        have hb : (nodeAt q.node_heap b).prev = some R := by
          rw [cN b rfl]
        have hold := hpv.2.2
        rw [prevOK_cons] at hold ⊢
        refine ⟨hb, prevOK_congr (fun a ha => ?_) hold.2⟩
        have hab : a ≠ b := by
          intro hc
          have := w.nodup
          rw [hc] at ha
          have h2 : (b :: B').Nodup := by
            have := (List.nodup_append.1 this).2.1
            exact (List.nodup_cons.1 this).2
          exact (List.nodup_cons.1 h2).1 ha
        exact (eB a (List.mem_cons_of_mem _ ha)).2.2.2.2 (by simp [headOr, hab])
    · -- tiles
      rw [tilesFrom_append, tilesFrom_cons, tilesFrom_cons]
      have hsA : sizes q.node_heap A = sizes p.node_heap A := sizes_congr fA_size
      refine ⟨tilesFrom_congr (fun a ha => by rw [eA a ha]) fA_size htl.1, ?_, ?_, ?_⟩
      · rw [vS_mem, hsA]; exact htl.2.1
      · rw [vR_mem, vS_size, hsA, ← htl.2.1]
      · rw [vS_size, vR_size, hsA]
        have : 0 + sizes p.node_heap A + k + ((nodeAt p.node_heap S).alloc_record.size - k)
            = 0 + sizes p.node_heap A + (nodeAt p.node_heap S).alloc_record.size := by omega
        rw [this]
        exact tilesFrom_congr fB_mem fB_size htl.2.2
    · -- total
      have := w.total
      rw [sizes_append, sizes_cons] at this
      rw [sizes_append, sizes_cons, sizes_cons, vS_size, vR_size, sizes_congr fA_size,
        sizes_congr fB_size, hts]
      omega
    · -- noadj
      have := w.noadj
      rw [List.map_append, List.map_cons, hfS, chain_mid_true] at this
      have h1 : List.map (freeAt q.node_heap none) (A ++ S :: R :: B)
          = (List.map (freeAt p.node_heap none) A ++ [false]) ++
            true :: List.map (freeAt p.node_heap none) B := by
        rw [List.map_append, List.map_cons, List.map_cons, hfS', hfR',
          free_map_congr fA_alloc (ne_hole_none A) (ne_hole_none A),
          free_map_congr fB_alloc (ne_hole_none B) (ne_hole_none B)]
        simp
      rw [h1, chain_mid_true, chain_mid_false]
      exact ⟨⟨this.1, List.chain'_nil⟩, this.2.1, by simp, this.2.2.2⟩
    · -- gaps
      rw [hlive]
      have h1 := gaps_remove w hfS
      rw [← hF] at h1
      have h2 : List.map (gap_entry q.node_heap)
          (List.filter (freeAt q.node_heap none) (A ++ S :: R :: B))
          = List.map (gap_entry p.node_heap) (List.filter (freeAt p.node_heap none) A) ++
            ⟨(nodeAt p.node_heap S).alloc_record.size - k, some R⟩ ::
            List.map (gap_entry p.node_heap) (List.filter (freeAt p.node_heap none) B) := by
        rw [List.filter_append, List.filter_cons_of_neg (by rw [hfS']; simp),
          List.filter_cons_of_pos hfR', List.map_append, List.map_cons,
          free_entries_congr fA_alloc fA_size (ne_hole_none A) (ne_hole_none A),
          free_entries_congr fB_alloc fB_size (ne_hole_none B) (ne_hole_none B)]
        simp [gap_entry, vR_size]
      rw [h2]
      rw [List.filter_append, List.map_append] at h1
      exact (List.perm_middle.trans (h1.cons _)).trans List.perm_middle.symm
    · -- sorted
      rw [hlive]
      refine sorted_insert ?_ hsw2 hsw1
      rw [hF]
      exact gaps_sorted_remove _ w.sorted
    · -- n_allocs
      rw [hna, w.n_allocs, List.countP_append, List.countP_append,
        List.countP_cons_of_neg _ _ (by rw [haS]; simp), List.countP_cons_of_pos _ _ haS',
        List.countP_cons_of_neg _ _ (by rw [haR']; simp),
        alloc_count_congr fA_alloc, alloc_count_congr fB_alloc]
      omega
    · -- a_size
      rw [has, w.a_size, List.filter_append, List.filter_append,
        List.filter_cons_of_neg (by rw [haS]; simp), List.filter_cons_of_pos haS',
        List.filter_cons_of_neg (by rw [haR']; simp),
        sizes_append, sizes_append, sizes_cons,
        alloc_sizes_congr fA_alloc fA_size, alloc_sizes_congr fB_alloc fB_size, vS_size]
      omega
  · intro i h1 h2
    by_cases hh : some i = headOr B none
    · rw [cN i hh.symm, hne4 i h1]
      exact ⟨rfl, rfl, rfl⟩
    · rw [cO i h1 h2 hh, hne4 i h1]
      exact ⟨rfl, rfl, rfl⟩

theorem resize_node_heap_state {p : pool_mgr_t} {L : List Nat} {hole : Option Nat}
    (w : WFh p L hole) :
    ∃ p1, _mem_resize_node_heap p = (p1, alloc_status.ALLOC_OK) ∧ WFh p1 L hole ∧
      4 * p1.used_nodes ≤ 3 * p1.total_nodes ∧ p1.pool = p.pool ∧
      p1.used_nodes = p.used_nodes ∧ p1.gap_ix = p.gap_ix ∧
      p1.gap_ix_capacity = p.gap_ix_capacity ∧
      (p1.total_nodes = p.total_nodes ∨ p1.total_nodes = p.total_nodes * 2) ∧
      (∀ i, nodeAt p1.node_heap i = nodeAt p.node_heap i) := by
  obtain ⟨h, t, hres, w1, hcap, ht, hsame⟩ := resize_node_heap_spec w
  exact ⟨_, hres, w1, hcap, rfl, rfl, rfl, rfl, ht, hsame⟩

theorem new_alloc_place_some {p : pool_mgr_t} {A B : List Nat} {k S : Nat}
    (w : WFh p (A ++ S :: B) none) (hcap : 4 * p.used_nodes ≤ 3 * p.total_nodes)
    (hsel : select_node p k = some S) :
    ∃ q, new_alloc_place p k = (q, some S) ∧ AllocEffect p q A B S k ∧
      q.total_nodes = p.total_nodes := by
  obtain ⟨hSL, hfree, hk⟩ := select_node_some w hsel
  have hfS : freeAt p.node_heap none S = true := by simp [freeAt, hfree]
  have hentry : gap_entry p.node_heap S ∈ live_gaps p := (mem_live_gaps w _).2 ⟨S, hSL, hfS, rfl⟩
  -- removal of S from the gap index
  obtain ⟨g, n, hrem, hg, hn, hgt⟩ := remove_spec
    ({ p with pool := { p.pool with num_allocs := p.pool.num_allocs + 1,
                                    alloc_size := p.pool.alloc_size + k } })
    k (some S) (show p.pool.num_gaps < p.gap_ix.length from num_gaps_lt w)
    (gap_entry p.node_heap S) hentry rfl
  have hSlt : S < p.node_heap.length := by rw [w.heap_len]; exact w.bound S hSL
  by_cases hex : (nodeAt p.node_heap S).alloc_record.size = k
  · -- exact fit
    have hrg : ¬ 0 < sub64 (nodeAt p.node_heap S).alloc_record.size k := by
      rw [hex, sub64_of_le (le_refl _)]; omega
    have hw' := WFh_alloc_exact w hfree (alloc_node p.node_heap S k)
      g n rfl rfl rfl rfl rfl hex.symm hg hn hgt
    rw [hex] at hw'
    refine ⟨alloc_exact_state p S k g n, ?_, ?_, ?_⟩
    · unfold new_alloc_place
      simp only [hsel, hrem, hrg, if_false]
      rfl
    · exact
        { was_free := hfree
          fits := hk
          now_alloc := by
            show (nodeAt (p.node_heap.set S (alloc_node p.node_heap S k)) S).allocated = 1
            rw [nodeAt_set_eq hSlt]; rfl
          now_size := by
            show (nodeAt (p.node_heap.set S (alloc_node p.node_heap S k)) S).alloc_record.size = k
            rw [nodeAt_set_eq hSlt]; rfl
          now_mem := by
            show (nodeAt (p.node_heap.set S (alloc_node p.node_heap S k)) S).alloc_record.mem = _
            rw [nodeAt_set_eq hSlt]; rfl
          n_allocs := rfl
          a_size := rfl
          t_size := rfl
          policy := rfl
          others := fun i hi _ => by
            show (nodeAt (p.node_heap.set S (alloc_node p.node_heap S k)) i).alloc_record = _ ∧
              (nodeAt (p.node_heap.set S (alloc_node p.node_heap S k)) i).allocated = _
            rw [nodeAt_set_ne (Ne.symm hi)]
            exact ⟨rfl, rfl⟩
          exact := fun _ => ⟨hw', rfl, hn, hgt⟩
          split := fun hc => by omega }
    · rfl
  · -- a gap remains
    have hklt : k < (nodeAt p.node_heap S).alloc_record.size := by omega
    have hrg : sub64 (nodeAt p.node_heap S).alloc_record.size k
        = (nodeAt p.node_heap S).alloc_record.size - k := sub64_of_le hk
    have hrpos : 0 < (nodeAt p.node_heap S).alloc_record.size - k := by omega
    -- an unused slot exists
    have hlen : (A ++ S :: B).length < p.total_nodes := by
      have := w.n_used
      have := w.min_nodes
      omega
    obtain ⟨m, hm1, hm2⟩ := exists_not_mem_of_length_lt hlen
    have hn1u : ∀ i, (nodeAt (p.node_heap.set S (alloc_node p.node_heap S k)) i).used
        = (nodeAt p.node_heap i).used := by
      intro i
      by_cases hi : i = S
      · subst hi; rw [nodeAt_set_eq hSlt]; rfl
      · rw [nodeAt_set_ne (Ne.symm hi)]
    obtain ⟨R, hR⟩ := scan_exists (fun i => decide ((nodeAt (p.node_heap.set S
        (alloc_node p.node_heap S k)) i).used = 0))
      p.total_nodes 0 m (Nat.zero_le _) (by omega)
      (by simp only [hn1u, decide_eq_true_eq]; exact w.used_out m hm2)
    obtain ⟨hR1, _, hR3, _⟩ := scan_some hR
    simp only [hn1u, decide_eq_true_eq] at hR1
    have hRL : R ∉ A ++ S :: B := fun hc => by
      have := w.used_in R hc; omega
    -- the entry of the new gap
    obtain ⟨g2, c2, hadd, hg2, hc2, hf2, F1, F2, hF, hlive, hsw2, hsw1⟩ := add_spec
      (alloc_split_state p S R k g p.gap_ix_capacity n)
      ((nodeAt p.node_heap S).alloc_record.size - k) (some R)
      (show g.length = p.gap_ix_capacity by rw [hg]; exact w.gap_len)
      (show 4 < p.gap_ix_capacity by have := w.min_gaps; omega)
      (show 4 * n ≤ 3 * p.gap_ix_capacity + 4 by
        have := w.cap_gaps
        have hn' : n + 1 = p.pool.num_gaps := hn
        omega)
    have hF' : F1 ++ F2 = (live_gaps p).eraseP (fun y => decide (y.node = some S)) := by
      rw [← hF]; exact hgt
    have hres := @WFh_alloc_split p (alloc_split_state p S R k g2 c2 (n + 1)) A B S R k
      w hfree hklt hRL (by omega) hcap (alloc_node p.node_heap S k) rfl rfl rfl rfl hg2
      (by
        have := w.min_gaps
        have hc2' : c2 = p.gap_ix_capacity ∨ c2 = p.gap_ix_capacity * 2 := hc2
        show 40 ≤ c2
        omega)
      hf2 F1 F2 hF' hlive hsw2 hsw1 rfl rfl rfl
    obtain ⟨hw', v1, v2, v3, v4, v5, v6, v7⟩ := hres
    refine ⟨alloc_split_state p S R k g2 c2 (n + 1), ?_, ?_, ?_⟩
    · unfold new_alloc_place new_alloc_split
      simp only [hsel, hrem, hrg, hrpos, if_true]
      have hR' : scan (fun i => decide ((nodeAt (p.node_heap.set S
          (alloc_node p.node_heap S k)) i).used = 0)) p.total_nodes 0 = some R := hR
      have hadd' : _mem_add_to_gap_ix (alloc_split_state p S R k g p.gap_ix_capacity n)
          ((nodeAt p.node_heap S).alloc_record.size - k) (some R)
          = (alloc_split_state p S R k g2 c2 (n + 1), alloc_status.ALLOC_OK) := hadd
      show (match scan (fun i => decide ((nodeAt (p.node_heap.set S
          (alloc_node p.node_heap S k)) i).used = 0)) p.total_nodes 0 with
        | none => _
        | some unusedNode => _) = _
      rw [hR']
      show (match _mem_add_to_gap_ix (alloc_split_state p S R k g p.gap_ix_capacity n)
          ((nodeAt p.node_heap S).alloc_record.size - k) (some R) with
        | (p6, st6) => if st6 ≠ alloc_status.ALLOC_OK then (p6, none) else (p6, some S)) = _
      rw [hadd']
      simp
    · exact
        { was_free := hfree
          fits := hk
          now_alloc := v1
          now_size := v2
          now_mem := v3
          n_allocs := rfl
          a_size := rfl
          t_size := rfl
          policy := rfl
          others := fun i hi hiL => by
            have hiR : i ≠ R := fun hc => hRL (hc ▸ hiL)
            exact ⟨(v7 i hi hiR).1, (v7 i hi hiR).2.1⟩
          exact := fun hc => by omega
          split := fun _ => ⟨R, hRL, hw', rfl, by show n + 1 = p.pool.num_gaps; exact hn,
            v4, v5, v6, F1, F2, hF', hlive⟩ }
    · rfl

theorem new_alloc_some {p : pool_mgr_t} {L : List Nat} (w : WFh p L none) {k S : Nat}
    (hsel : select_node (_mem_resize_node_heap p).1 k = some S) :
    ∃ A B q, L = A ++ S :: B ∧ mem_new_alloc p k = (q, some S) ∧ AllocEffect p q A B S k := by
  obtain ⟨p1, hres, w1, hcap, hp, hu, hg, _, _, hn⟩ := resize_node_heap_state w
  rw [hres] at hsel
  simp only at hsel
  obtain ⟨hSL, hfree, _⟩ := select_node_some w1 hsel
  obtain ⟨A, B, hL⟩ := List.append_of_mem hSL
  subst hL
  obtain ⟨q, hrun, heff, _⟩ := new_alloc_place_some w1 hcap hsel
  have hng : p.pool.num_gaps ≠ 0 := by
    have h1 := num_gaps_eq w1
    rw [hp] at h1
    have hfS : freeAt p1.node_heap none S = true := by simp [freeAt, hfree]
    have h2 : S ∈ (A ++ S :: B).filter (freeAt p1.node_heap none) :=
      List.mem_filter.2 ⟨hSL, hfS⟩
    have h3 := List.length_pos_of_mem h2
    omega
  refine ⟨A, B, q, rfl, ?_, heff.congr hn hp hu hg⟩
  unfold mem_new_alloc
  rw [if_neg hng, hres]
  have hlt : ¬ p1.total_nodes < p1.used_nodes := by omega
  simp only [ne_eq, not_true_eq_false, if_false, hlt, hrun]

theorem new_alloc_none {p : pool_mgr_t} {L : List Nat} (w : WFh p L none) {k : Nat}
    (hsel : p.pool.num_gaps = 0 ∨ select_node (_mem_resize_node_heap p).1 k = none) :
    (mem_new_alloc p k).2 = none ∧ WFh (mem_new_alloc p k).1 L none ∧
      ((mem_new_alloc p k).1 = p ∨ (mem_new_alloc p k).1 = (_mem_resize_node_heap p).1) := by
  unfold mem_new_alloc
  by_cases h0 : p.pool.num_gaps = 0
  · rw [if_pos h0]; exact ⟨rfl, w, Or.inl rfl⟩
  · rw [if_neg h0]
    have hs : select_node (_mem_resize_node_heap p).1 k = none := by
      rcases hsel with h | h
      · exact absurd h h0
      · exact h
    obtain ⟨p1, hres, w1, hcap, _⟩ := resize_node_heap_state w
    rw [hres] at hs ⊢
    simp only at hs ⊢
    have hlt : ¬ p1.total_nodes < p1.used_nodes := by omega
    have hpl : new_alloc_place p1 k = (p1, none) := by
      unfold new_alloc_place; rw [hs]
    simp only [ne_eq, not_true_eq_false, if_false, hlt, hpl]
    exact ⟨trivial, w1, Or.inr trivial⟩

/-- The invariant is kept by `mem_new_alloc`. -/
theorem WFh_new_alloc {p : pool_mgr_t} {L : List Nat} (w : WFh p L none) (k : Nat) :
    ∃ L', WFh (mem_new_alloc p k).1 L' none := by
  cases hsel : select_node (_mem_resize_node_heap p).1 k with
  | none => exact ⟨L, (new_alloc_none w (Or.inr hsel)).2.1⟩
  | some S =>
    obtain ⟨A, B, q, hL, hrun, heff⟩ := new_alloc_some w hsel
    rw [hrun]
    by_cases hex : (nodeAt p.node_heap S).alloc_record.size = k
    · exact ⟨A ++ S :: B, (heff.exact hex).1⟩
    · have hlt : k < (nodeAt p.node_heap S).alloc_record.size := by
        have := heff.fits; omega
      obtain ⟨R, _, hw, _⟩ := heff.split hlt
      exact ⟨_, hw⟩

theorem del_scan_found {p : pool_mgr_t} {a : Nat} (hl : live p a) :
    scan (fun i => decide ((nodeAt p.node_heap i).used = 1) && decide (i = a))
      p.total_nodes 0 = some a := by
  obtain ⟨j, hj⟩ := scan_exists
    (fun i => decide ((nodeAt p.node_heap i).used = 1) && decide (i = a))
    p.total_nodes 0 a (Nat.zero_le _) (by have := hl.1; omega)
    (by simp [hl.2.1])
  have := (scan_some hj).1
  simp only [Bool.and_eq_true, decide_eq_true_eq] at this
  rw [hj, this.2]

theorem WFh_merge_next {p q : pool_mgr_t} {X Y' : List Nat} {A N : Nat}
    (w : WFh p (X ++ A :: N :: Y') (some A))
    (hA : (nodeAt p.node_heap A).allocated = 0)
    (hN : (nodeAt p.node_heap N).allocated = 0)
    (hheap : q.node_heap = merge_next_link p.node_heap A N)
    (htot : q.total_nodes = p.total_nodes) (hused : q.used_nodes + 1 = p.used_nodes)
    (hglen : q.gap_ix.length = q.gap_ix_capacity)
    (hgcap : q.gap_ix_capacity = p.gap_ix_capacity)
    (hng : q.pool.num_gaps + 1 = p.pool.num_gaps)
    (hlive : live_gaps q = (live_gaps p).eraseP (fun y => decide (y.node = some N)))
    (hna : q.pool.num_allocs = p.pool.num_allocs)
    (has : q.pool.alloc_size = p.pool.alloc_size)
    (hts : q.pool.total_size = p.pool.total_size) :
    WFh q (X ++ A :: Y') (some A) ∧
      (Y'.map (freeAt q.node_heap none)).head? ≠ some true ∧
      (nodeAt q.node_heap A).allocated = (nodeAt p.node_heap A).allocated ∧
      (nodeAt q.node_heap A).alloc_record.mem = (nodeAt p.node_heap A).alloc_record.mem ∧
      (nodeAt q.node_heap A).alloc_record.size
        = (nodeAt p.node_heap A).alloc_record.size + (nodeAt p.node_heap N).alloc_record.size ∧
      (∀ i ∈ X ++ Y',
        (nodeAt q.node_heap i).alloc_record = (nodeAt p.node_heap i).alloc_record ∧
        (nodeAt q.node_heap i).allocated = (nodeAt p.node_heap i).allocated) := by
  have hnd := w.nodup
  have hsplit : X ++ A :: N :: Y' = (X ++ [A]) ++ N :: Y' := by simp
  obtain ⟨hAX, hAY, _, hNYnd, hXY⟩ := split_facts hnd
  rw [hsplit] at hnd
  obtain ⟨hNXA, hNY, _, _, hXAY⟩ := split_facts hnd
  have hNX : N ∉ X := fun hc => hNXA (List.mem_append_left _ hc)
  have hAN : A ≠ N := fun hc => hNXA (by simp [hc])
  have hAY' : A ∉ Y' := fun hc => hAY (List.mem_cons_of_mem _ hc)
  have hXY' : ∀ i ∈ X, i ∉ Y' := fun i hi hc => hXY i hi (List.mem_cons_of_mem _ hc)
  have hAL : A ∈ X ++ A :: N :: Y' := by simp
  have hNL : N ∈ X ++ A :: N :: Y' := by simp
  have hAlt : A < p.node_heap.length := by rw [w.heap_len]; exact w.bound A hAL
  have hNlt : N < p.node_heap.length := by rw [w.heap_len]; exact w.bound N hNL
  have hXne : ∀ i ∈ X, i ≠ A := fun i hi hc => hAX (hc ▸ hi)
  have hXneN : ∀ i ∈ X, i ≠ N := fun i hi hc => hNX (hc ▸ hi)
  have hYne : ∀ i ∈ Y', i ≠ A := fun i hi hc => hAY' (hc ▸ hi)
  have hYneN : ∀ i ∈ Y', i ≠ N := fun i hi hc => hNY (hc ▸ hi)
  -- the old list
  have hnx := w.nexts
  rw [nextOK_append, nextOK_cons, nextOK_cons] at hnx
  have hpv := w.prevs
  rw [prevOK_append, prevOK_cons, prevOK_cons] at hpv
  have htl := w.tiles
  rw [tilesFrom_append, tilesFrom_cons, tilesFrom_cons] at htl
  have hnextN : (nodeAt p.node_heap N).next = headOr Y' none := hnx.2.2.1
  have hprevN : (nodeAt p.node_heap N).prev = some A := hpv.2.2.1
  obtain ⟨cA, cN, cn, cO⟩ := merge_next_link_spec p.node_heap A N hAlt hNlt hAN
    (by
      intro nn hnn
      rw [hnextN] at hnn
      obtain ⟨Y'', rfl⟩ := headOr_mem hnn rfl
      have hmem : nn ∈ X ++ A :: N :: nn :: Y'' := by simp
      exact ⟨by rw [w.heap_len]; exact w.bound nn hmem, hYne nn (List.mem_cons_self _ _),
        hYneN nn (List.mem_cons_self _ _)⟩)
  rw [← hheap] at cA cN cn cO
  rw [hnextN] at cA cn cO
  rw [hprevN] at cn
  have eX : ∀ i ∈ X, nodeAt q.node_heap i = nodeAt p.node_heap i := by
    intro i hi
    rw [cO i (hXne i hi) (hXneN i hi)]
    intro hc
    obtain ⟨Y'', rfl⟩ := headOr_mem hc.symm rfl
    exact hXY' i hi (List.mem_cons_self _ _)
  have eY : ∀ i ∈ Y', (nodeAt q.node_heap i).next = (nodeAt p.node_heap i).next ∧
      (nodeAt q.node_heap i).alloc_record = (nodeAt p.node_heap i).alloc_record ∧
      (nodeAt q.node_heap i).allocated = (nodeAt p.node_heap i).allocated ∧
      (nodeAt q.node_heap i).used = (nodeAt p.node_heap i).used ∧
      (some i ≠ headOr Y' none → (nodeAt q.node_heap i).prev = (nodeAt p.node_heap i).prev) := by
    intro i hi
    by_cases hh : some i = headOr Y' none
    · rw [cn i hh.symm]
      exact ⟨rfl, rfl, rfl, rfl, fun hc => absurd hh hc⟩
    · rw [cO i (hYne i hi) (hYneN i hi) hh]
      exact ⟨rfl, rfl, rfl, rfl, fun _ => rfl⟩
  have eO : ∀ i, i ∉ X ++ A :: N :: Y' → nodeAt q.node_heap i = nodeAt p.node_heap i := by
    intro i hi
    have h1 : i ≠ A := fun hc => hi (by simp [hc])
    have h2 : i ≠ N := fun hc => hi (by simp [hc])
    rw [cO i h1 h2]
    intro hc
    obtain ⟨Y'', rfl⟩ := headOr_mem hc.symm rfl
    exact hi (by simp)
  have vA_alloc : (nodeAt q.node_heap A).allocated = (nodeAt p.node_heap A).allocated := by rw [cA]
  have vA_size : (nodeAt q.node_heap A).alloc_record.size
      = (nodeAt p.node_heap A).alloc_record.size + (nodeAt p.node_heap N).alloc_record.size := by
    rw [cA]
  have vA_mem : (nodeAt q.node_heap A).alloc_record.mem
      = (nodeAt p.node_heap A).alloc_record.mem := by rw [cA]
  have vA_used : (nodeAt q.node_heap A).used = 1 := by rw [cA]; exact w.used_in A hAL
  have vA_next : (nodeAt q.node_heap A).next = headOr Y' none := by rw [cA]
  have vA_prev : (nodeAt q.node_heap A).prev = lastOr X none := by rw [cA]; exact hpv.2.1
  have vN_used : (nodeAt q.node_heap N).used = 0 := by rw [cN]
  have hfA : freeAt p.node_heap (some A) A = false := by simp [freeAt]
  have hfA' : freeAt q.node_heap (some A) A = false := by simp [freeAt]
  have hfN : freeAt p.node_heap (some A) N = true := by
    simp only [freeAt, hN, decide_True, Bool.true_and, decide_eq_true_eq]
    intro hc; simp only [Option.some.injEq] at hc; exact hAN hc.symm
  have fX_alloc : ∀ i ∈ X, (nodeAt q.node_heap i).allocated = (nodeAt p.node_heap i).allocated :=
    fun i hi => by rw [eX i hi]
  have fX_size : ∀ i ∈ X, (nodeAt q.node_heap i).alloc_record.size
      = (nodeAt p.node_heap i).alloc_record.size := fun i hi => by rw [eX i hi]
  have fY_alloc : ∀ i ∈ Y', (nodeAt q.node_heap i).allocated = (nodeAt p.node_heap i).allocated :=
    fun i hi => (eY i hi).2.2.1
  have fY_size : ∀ i ∈ Y', (nodeAt q.node_heap i).alloc_record.size
      = (nodeAt p.node_heap i).alloc_record.size := fun i hi => by rw [(eY i hi).2.1]
  have fY_mem : ∀ i ∈ Y', (nodeAt q.node_heap i).alloc_record.mem
      = (nodeAt p.node_heap i).alloc_record.mem := fun i hi => by rw [(eY i hi).2.1]
  have haA : allocAt p.node_heap A = allocAt q.node_heap A := by simp [allocAt, vA_alloc]
  have haN : allocAt p.node_heap N = false := by simp [allocAt, hN]
  -- the chain of free flags before
  have hno := w.noadj
  rw [List.map_append, List.map_cons, List.map_cons, hfA, chain_mid_false, hfN,
    List.chain'_cons'] at hno
  have hmapY : Y'.map (freeAt q.node_heap (some A)) = Y'.map (freeAt p.node_heap (some A)) :=
    free_map_congr fY_alloc (ne_hole_some hAY') (ne_hole_some hAY')
  have hmapYn : Y'.map (freeAt q.node_heap none) = Y'.map (freeAt p.node_heap (some A)) :=
    free_map_congr fY_alloc (ne_hole_some hAY') (ne_hole_none Y')
  refine ⟨?_, ?_, vA_alloc, vA_mem, vA_size, ?_⟩
  · refine
      { heap_len := by rw [hheap, merge_next_link_length_ideal, htot, w.heap_len]
        gap_len := hglen
        head := by
          have := w.head
          cases X <;> simpa using this
        nodup := ?_
        bound := ?_
        used_in := ?_
        used_out := ?_
        alloc01 := ?_
        nexts := ?_
        prevs := ?_
        tiles := ?_
        total := ?_
        noadj := ?_
        gaps := ?_
        sorted := by rw [hlive]; exact gaps_sorted_remove _ w.sorted
        n_allocs := ?_
        a_size := ?_
        n_used := by
          have := w.n_used
          simp only [List.length_append, List.length_cons] at this ⊢
          omega
        cap_nodes := by have := w.cap_nodes; rw [htot]; omega
        min_nodes := by rw [htot]; exact w.min_nodes
        cap_gaps := by have := w.cap_gaps; rw [hgcap]; omega
        min_gaps := by rw [hgcap]; exact w.min_gaps }
    · -- nodup
      have hsub : (X ++ A :: Y').Sublist (X ++ A :: N :: Y') :=
        List.Sublist.append_left (List.Sublist.cons₂ _ (List.sublist_cons_self _ _)) _
      exact w.nodup.sublist hsub
    · intro i hi
      rw [htot]
      exact w.bound i (by simp at hi ⊢; tauto)
    · intro i hi
      simp only [List.mem_append, List.mem_cons] at hi
      rcases hi with hi | hi | hi
      · rw [eX i hi]; exact w.used_in i (by simp [hi])
      · rw [hi]; exact vA_used
      · rw [(eY i hi).2.2.2.1]; exact w.used_in i (by simp [hi])
    · intro i hi
      by_cases hiN : i = N
      · rw [hiN]; exact vN_used
      · rw [eO i (fun hc => hi (by simp at hc ⊢; tauto))]
        exact w.used_out i (fun hc => hi (by simp at hc ⊢; tauto))
    · intro i hi
      simp only [List.mem_append, List.mem_cons] at hi
      rcases hi with hi | hi | hi
      · rw [eX i hi]; exact w.alloc01 i (by simp [hi])
      · rw [hi, vA_alloc]; exact w.alloc01 A hAL
      · rw [(eY i hi).2.2.1]; exact w.alloc01 i (by simp [hi])
    · -- nexts
      rw [nextOK_append, nextOK_cons]
      exact ⟨nextOK_congr (fun a ha => by rw [eX a ha]) hnx.1, vA_next,
        nextOK_congr (fun a ha => (eY a ha).1) hnx.2.2.2⟩
    · -- prevs
      rw [prevOK_append, prevOK_cons]
      refine ⟨prevOK_congr (fun a ha => by rw [eX a ha]) hpv.1, vA_prev, ?_⟩
      cases Y' with
      | nil => trivial
      | cons b Y'' =>
        have hb : (nodeAt q.node_heap b).prev = some A := by rw [cn b rfl]
        have hold := hpv.2.2.2
        rw [prevOK_cons] at hold ⊢
        refine ⟨hb, prevOK_congr (fun a ha => ?_) hold.2⟩
        have hab : a ≠ b := by
          intro hc
          rw [hc] at ha
          exact (List.nodup_cons.1 (List.nodup_cons.1 hNYnd).2).1 ha
        exact (eY a (List.mem_cons_of_mem _ ha)).2.2.2.2 (by simp [headOr, hab])
    · -- tiles
      rw [tilesFrom_append, tilesFrom_cons]
      have hsX : sizes q.node_heap X = sizes p.node_heap X := sizes_congr fX_size
      refine ⟨tilesFrom_congr (fun a ha => by rw [eX a ha]) fX_size htl.1, ?_, ?_⟩
      · rw [vA_mem, hsX]; exact htl.2.1
      · rw [vA_size, hsX, ← Nat.add_assoc]
        exact tilesFrom_congr fY_mem fY_size htl.2.2.2
    · -- total
      have := w.total
      rw [sizes_append, sizes_cons, sizes_cons] at this
      rw [sizes_append, sizes_cons, vA_size, sizes_congr fX_size, sizes_congr fY_size, hts]
      omega
    · -- noadj
      rw [List.map_append, List.map_cons, hfA', chain_mid_false, hmapY,
        free_map_congr fX_alloc (ne_hole_some hAX) (ne_hole_some hAX)]
      exact ⟨hno.1, hno.2.2⟩
    · -- gaps
      rw [hlive]
      have h1 := @gaps_remove p (X ++ [A]) Y' N (some A) (by rw [← hsplit]; exact w) hfN
      refine h1.trans ?_
      rw [List.filter_append, List.filter_append, List.filter_append,
        List.filter_cons_of_neg (by rw [hfA]; simp), List.filter_cons_of_neg (by rw [hfA']; simp),
        List.filter_nil, List.append_nil, List.map_append, List.map_append,
        free_entries_congr fX_alloc fX_size (ne_hole_some hAX) (ne_hole_some hAX),
        free_entries_congr fY_alloc fY_size (ne_hole_some hAY') (ne_hole_some hAY')]
    · -- n_allocs
      have := w.n_allocs
      rw [List.countP_append, List.countP_cons, List.countP_cons_of_neg _ _ (by rw [haN]; simp)]
        at this
      rw [hna, this, List.countP_append, List.countP_cons,
        alloc_count_congr fX_alloc, alloc_count_congr fY_alloc, haA]
    · -- a_size
      have hAf : allocAt p.node_heap A = false := by simp [allocAt, hA]
      have hAf' : allocAt q.node_heap A = false := by rw [← haA]; exact hAf
      have := w.a_size
      rw [List.filter_append, List.filter_cons_of_neg (by rw [hAf]; simp),
        List.filter_cons_of_neg (by rw [haN]; simp), sizes_append] at this
      rw [has, this, List.filter_append, List.filter_cons_of_neg (by rw [hAf']; simp),
        sizes_append, alloc_sizes_congr fX_alloc fX_size, alloc_sizes_congr fY_alloc fY_size]
  · rw [hmapYn]
    intro hc
    exact hno.2.1 true hc ⟨rfl, rfl⟩
  · intro i hi
    rcases List.mem_append.1 hi with hi | hi
    · rw [eX i hi]; exact ⟨rfl, rfl⟩
    · exact ⟨(eY i hi).2.1, (eY i hi).2.2.1⟩

theorem del_merge_next_spec {p : pool_mgr_t} {X Y : List Nat} {A : Nat}
    (w : WFh p (X ++ A :: Y) (some A)) (hA : (nodeAt p.node_heap A).allocated = 0) :
    ∃ q nxt Y', del_merge_next p A = some q ∧ Y = nxt ++ Y' ∧
      MergeNextEffect p q X A nxt Y' := by
  have hnx := w.nexts
  rw [nextOK_append, nextOK_cons] at hnx
  have hAY : A ∉ Y := (split_facts w.nodup).2.1
  cases Y with
  | nil =>
    refine ⟨p, [], [], ?_, rfl, ?_⟩
    · unfold del_merge_next
      rw [hnx.2.1]; rfl
    · exact
        { short := by simp
          were_free := by simp
          wf := w
          succ_alloc := by simp
          alloc := rfl
          mem := rfl
          size := by simp [sizes]
          others := fun i _ => ⟨rfl, rfl⟩
          used := rfl
          gaps := rfl
          n_allocs := rfl
          a_size := rfl
          t_size := rfl
          policy := rfl }
  | cons N Y1 =>
    have hnextA : (nodeAt p.node_heap A).next = some N := hnx.2.1
    have hAN : A ≠ N := fun hc => hAY (by simp [hc])
    by_cases hN : (nodeAt p.node_heap N).allocated = 0
    · -- the successor is a gap
      have hfN : freeAt p.node_heap (some A) N = true := by
        simp only [freeAt, hN, decide_True, Bool.true_and, decide_eq_true_eq]
        intro hc; simp only [Option.some.injEq] at hc; exact hAN hc.symm
      have hentry : gap_entry p.node_heap N ∈ live_gaps p :=
        (mem_live_gaps w _).2 ⟨N, by simp, hfN, rfl⟩
      obtain ⟨g, n, hrem, hg, hn, hgt⟩ := remove_spec p
        (nodeAt p.node_heap N).alloc_record.size (some N) (num_gaps_lt w)
        (gap_entry p.node_heap N) hentry rfl
      have hu : 1 ≤ p.used_nodes := by
        have := w.n_used
        simp only [List.length_append, List.length_cons] at this
        omega
      have hres := @WFh_merge_next p (merge_next_state p A N g n) X Y1 A N w hA hN rfl rfl
        (show sub32 p.used_nodes 1 + 1 = p.used_nodes by rw [sub32_of_le hu]; omega)
        (show g.length = p.gap_ix_capacity by rw [hg]; exact w.gap_len) rfl hn hgt rfl rfl rfl
      obtain ⟨hw', v1, v2, v3, v4, v5⟩ := hres
      refine ⟨merge_next_state p A N g n, [N], Y1, ?_, rfl, ?_⟩
      · unfold del_merge_next
        rw [hnextA]
        simp only [hN, if_true, hrem, ne_eq, not_true_eq_false, if_false]
        rfl
      · exact
          { short := by simp
            were_free := by simpa using hN
            wf := hw'
            succ_alloc := v1
            alloc := v2
            mem := v3
            size := by rw [v4]; simp [sizes]
            others := v5
            used := by
              show sub32 p.used_nodes 1 + 1 = p.used_nodes
              rw [sub32_of_le hu]; omega
            gaps := hn
            n_allocs := rfl
            a_size := rfl
            t_size := rfl
            policy := rfl }
    · -- the successor is allocated
      refine ⟨p, [], N :: Y1, ?_, rfl, ?_⟩
      · unfold del_merge_next
        rw [hnextA]
        simp only [hN, if_false]
      · exact
          { short := by simp
            were_free := by simp
            wf := w
            succ_alloc := by simp [freeAt, hN]
            alloc := rfl
            mem := rfl
            size := by simp [sizes]
            others := fun i _ => ⟨rfl, rfl⟩
            used := rfl
            gaps := rfl
            n_allocs := rfl
            a_size := rfl
            t_size := rfl
            policy := rfl }

theorem WFh_merge_prev {p q : pool_mgr_t} {X' Y : List Nat} {A P : Nat}
    (w : WFh p (X' ++ P :: A :: Y) (some A))
    (hA : (nodeAt p.node_heap A).allocated = 0)
    (hP : (nodeAt p.node_heap P).allocated = 0)
    (hsucc : (Y.map (freeAt p.node_heap none)).head? ≠ some true)
    (hheap : q.node_heap = merge_prev_link p.node_heap A P)
    (htot : q.total_nodes = p.total_nodes) (hused : q.used_nodes + 1 = p.used_nodes)
    (hglen : q.gap_ix.length = q.gap_ix_capacity)
    (hgcap : q.gap_ix_capacity = p.gap_ix_capacity)
    (hng : q.pool.num_gaps + 1 = p.pool.num_gaps)
    (hlive : live_gaps q = (live_gaps p).eraseP (fun y => decide (y.node = some P)))
    (hna : q.pool.num_allocs = p.pool.num_allocs)
    (has : q.pool.alloc_size = p.pool.alloc_size)
    (hts : q.pool.total_size = p.pool.total_size) :
    WFh q (X' ++ P :: Y) (some P) ∧
      (X'.map (freeAt q.node_heap none)).getLast? ≠ some true ∧
      (Y.map (freeAt q.node_heap none)).head? ≠ some true ∧
      (nodeAt q.node_heap P).allocated = 0 ∧
      (nodeAt q.node_heap P).alloc_record.mem = (nodeAt p.node_heap P).alloc_record.mem ∧
      (nodeAt q.node_heap P).alloc_record.size
        = (nodeAt p.node_heap P).alloc_record.size + (nodeAt p.node_heap A).alloc_record.size ∧
      (∀ i ∈ X' ++ Y,
        (nodeAt q.node_heap i).alloc_record = (nodeAt p.node_heap i).alloc_record ∧
        (nodeAt q.node_heap i).allocated = (nodeAt p.node_heap i).allocated) := by
  have hnd := w.nodup
  have hsplit : X' ++ P :: A :: Y = (X' ++ [P]) ++ A :: Y := by simp
  obtain ⟨hPX, hPAY, _, hAYnd, hXAY⟩ := split_facts hnd
  rw [hsplit] at hnd
  obtain ⟨hAXP, hAY, _, hYnd, _⟩ := split_facts hnd
  have hAX : A ∉ X' := fun hc => hAXP (List.mem_append_left _ hc)
  have hAP : A ≠ P := fun hc => hAXP (by simp [hc])
  have hPY : P ∉ Y := fun hc => hPAY (List.mem_cons_of_mem _ hc)
  have hXY : ∀ i ∈ X', i ∉ Y := fun i hi hc => hXAY i hi (List.mem_cons_of_mem _ hc)
  have hAL : A ∈ X' ++ P :: A :: Y := by simp
  have hPL : P ∈ X' ++ P :: A :: Y := by simp
  have hAlt : A < p.node_heap.length := by rw [w.heap_len]; exact w.bound A hAL
  have hPlt : P < p.node_heap.length := by rw [w.heap_len]; exact w.bound P hPL
  have hXne : ∀ i ∈ X', i ≠ A := fun i hi hc => hAX (hc ▸ hi)
  have hXneP : ∀ i ∈ X', i ≠ P := fun i hi hc => hPX (hc ▸ hi)
  have hYne : ∀ i ∈ Y, i ≠ A := fun i hi hc => hAY (hc ▸ hi)
  have hYneP : ∀ i ∈ Y, i ≠ P := fun i hi hc => hPY (hc ▸ hi)
  -- the old list
  have hnx := w.nexts
  rw [nextOK_append, nextOK_cons, nextOK_cons] at hnx
  have hpv := w.prevs
  rw [prevOK_append, prevOK_cons, prevOK_cons] at hpv
  have htl := w.tiles
  rw [tilesFrom_append, tilesFrom_cons, tilesFrom_cons] at htl
  have hnextA : (nodeAt p.node_heap A).next = headOr Y none := hnx.2.2.1
  obtain ⟨cP, cA, cn, cO⟩ := merge_prev_link_spec p.node_heap A P hAlt hPlt hAP
    (by
      intro nx hnx'
      rw [hnextA] at hnx'
      obtain ⟨Y'', rfl⟩ := headOr_mem hnx' rfl
      have hmem : nx ∈ X' ++ P :: A :: nx :: Y'' := by simp
      exact ⟨by rw [w.heap_len]; exact w.bound nx hmem, hYne nx (List.mem_cons_self _ _),
        hYneP nx (List.mem_cons_self _ _)⟩)
  rw [← hheap] at cP cA cn cO
  rw [hnextA] at cP cn cO
  have eX : ∀ i ∈ X', nodeAt q.node_heap i = nodeAt p.node_heap i := by
    intro i hi
    rw [cO i (hXne i hi) (hXneP i hi)]
    intro hc
    obtain ⟨Y'', rfl⟩ := headOr_mem hc.symm rfl
    exact hXY i hi (List.mem_cons_self _ _)
  have eY : ∀ i ∈ Y, (nodeAt q.node_heap i).next = (nodeAt p.node_heap i).next ∧
      (nodeAt q.node_heap i).alloc_record = (nodeAt p.node_heap i).alloc_record ∧
      (nodeAt q.node_heap i).allocated = (nodeAt p.node_heap i).allocated ∧
      (nodeAt q.node_heap i).used = (nodeAt p.node_heap i).used ∧
      (some i ≠ headOr Y none → (nodeAt q.node_heap i).prev = (nodeAt p.node_heap i).prev) := by
    intro i hi
    by_cases hh : some i = headOr Y none
    · rw [cn i hh.symm]
      exact ⟨rfl, rfl, rfl, rfl, fun hc => absurd hh hc⟩
    · rw [cO i (hYne i hi) (hYneP i hi) hh]
      exact ⟨rfl, rfl, rfl, rfl, fun _ => rfl⟩
  have eO : ∀ i, i ∉ X' ++ P :: A :: Y → nodeAt q.node_heap i = nodeAt p.node_heap i := by
    intro i hi
    have h1 : i ≠ A := fun hc => hi (by simp [hc])
    have h2 : i ≠ P := fun hc => hi (by simp [hc])
    rw [cO i h1 h2]
    intro hc
    obtain ⟨Y'', rfl⟩ := headOr_mem hc.symm rfl
    exact hi (by simp)
  have vP_alloc : (nodeAt q.node_heap P).allocated = 0 := by rw [cP]; exact hP
  have vP_size : (nodeAt q.node_heap P).alloc_record.size
      = (nodeAt p.node_heap P).alloc_record.size + (nodeAt p.node_heap A).alloc_record.size := by
    rw [cP]
  have vP_mem : (nodeAt q.node_heap P).alloc_record.mem
      = (nodeAt p.node_heap P).alloc_record.mem := by rw [cP]
  have vP_used : (nodeAt q.node_heap P).used = 1 := by rw [cP]; exact w.used_in P hPL
  have vP_next : (nodeAt q.node_heap P).next = headOr Y none := by rw [cP]
  have vP_prev : (nodeAt q.node_heap P).prev = lastOr X' none := by rw [cP]; exact hpv.2.1
  have vA_used : (nodeAt q.node_heap A).used = 0 := by rw [cA]
  have hfA : freeAt p.node_heap (some A) A = false := by simp [freeAt]
  have hfP' : freeAt q.node_heap (some P) P = false := by simp [freeAt]
  have hfP : freeAt p.node_heap (some A) P = true := by
    simp only [freeAt, hP, decide_True, Bool.true_and, decide_eq_true_eq]
    intro hc; simp only [Option.some.injEq] at hc; exact hAP hc.symm
  have fX_alloc : ∀ i ∈ X', (nodeAt q.node_heap i).allocated = (nodeAt p.node_heap i).allocated :=
    fun i hi => by rw [eX i hi]
  have fX_size : ∀ i ∈ X', (nodeAt q.node_heap i).alloc_record.size
      = (nodeAt p.node_heap i).alloc_record.size := fun i hi => by rw [eX i hi]
  have fY_alloc : ∀ i ∈ Y, (nodeAt q.node_heap i).allocated = (nodeAt p.node_heap i).allocated :=
    fun i hi => (eY i hi).2.2.1
  have fY_size : ∀ i ∈ Y, (nodeAt q.node_heap i).alloc_record.size
      = (nodeAt p.node_heap i).alloc_record.size := fun i hi => by rw [(eY i hi).2.1]
  have fY_mem : ∀ i ∈ Y, (nodeAt q.node_heap i).alloc_record.mem
      = (nodeAt p.node_heap i).alloc_record.mem := fun i hi => by rw [(eY i hi).2.1]
  have haP : allocAt p.node_heap P = false := by simp [allocAt, hP]
  have haP' : allocAt q.node_heap P = false := by simp [allocAt, vP_alloc]
  have haA : allocAt p.node_heap A = false := by simp [allocAt, hA]
  -- the chain of free flags before
  have hno := w.noadj
  have hmapsplit : List.map (freeAt p.node_heap (some A)) (X' ++ P :: A :: Y)
      = (List.map (freeAt p.node_heap (some A)) X' ++ [true]) ++
        false :: List.map (freeAt p.node_heap (some A)) Y := by
    rw [List.map_append, List.map_cons, List.map_cons, hfA, hfP]; simp
  rw [hmapsplit, chain_mid_false, chain_mid_true] at hno
  have hmapX : X'.map (freeAt q.node_heap (some P)) = X'.map (freeAt p.node_heap (some A)) :=
    free_map_congr fX_alloc (ne_hole_some hAX) (ne_hole_some hPX)
  have hmapXn : X'.map (freeAt q.node_heap none) = X'.map (freeAt p.node_heap (some A)) :=
    free_map_congr fX_alloc (ne_hole_some hAX) (ne_hole_none X')
  have hmapY : Y.map (freeAt q.node_heap (some P)) = Y.map (freeAt p.node_heap (some A)) :=
    free_map_congr fY_alloc (ne_hole_some hAY) (ne_hole_some hPY)
  have hmapYn : Y.map (freeAt q.node_heap none) = Y.map (freeAt p.node_heap none) :=
    free_map_congr fY_alloc (ne_hole_none Y) (ne_hole_none Y)
  refine ⟨?_, ?_, ?_, vP_alloc, vP_mem, vP_size, ?_⟩
  · refine
      { heap_len := by rw [hheap, merge_prev_link_length_ideal, htot, w.heap_len]
        gap_len := hglen
        head := by
          have := w.head
          cases X' <;> simpa using this
        nodup := ?_
        bound := ?_
        used_in := ?_
        used_out := ?_
        alloc01 := ?_
        nexts := ?_
        prevs := ?_
        tiles := ?_
        total := ?_
        noadj := ?_
        gaps := ?_
        sorted := by rw [hlive]; exact gaps_sorted_remove _ w.sorted
        n_allocs := ?_
        a_size := ?_
        n_used := by
          have := w.n_used
          simp only [List.length_append, List.length_cons] at this ⊢
          omega
        cap_nodes := by have := w.cap_nodes; rw [htot]; omega
        min_nodes := by rw [htot]; exact w.min_nodes
        cap_gaps := by have := w.cap_gaps; rw [hgcap]; omega
        min_gaps := by rw [hgcap]; exact w.min_gaps }
    · -- nodup
      have hsub : (X' ++ P :: Y).Sublist (X' ++ P :: A :: Y) :=
        List.Sublist.append_left (List.Sublist.cons₂ _ (List.sublist_cons_self _ _)) _
      exact w.nodup.sublist hsub
    · intro i hi
      rw [htot]
      exact w.bound i (by simp at hi ⊢; tauto)
    · intro i hi
      simp only [List.mem_append, List.mem_cons] at hi
      rcases hi with hi | hi | hi
      · rw [eX i hi]; exact w.used_in i (by simp [hi])
      · rw [hi]; exact vP_used
      · rw [(eY i hi).2.2.2.1]; exact w.used_in i (by simp [hi])
    · intro i hi
      by_cases hiA : i = A
      · rw [hiA]; exact vA_used
      · rw [eO i (fun hc => hi (by simp at hc ⊢; tauto))]
        exact w.used_out i (fun hc => hi (by simp at hc ⊢; tauto))
    · intro i hi
      simp only [List.mem_append, List.mem_cons] at hi
      rcases hi with hi | hi | hi
      · rw [eX i hi]; exact w.alloc01 i (by simp [hi])
      · rw [hi, vP_alloc]; omega
      · rw [(eY i hi).2.2.1]; exact w.alloc01 i (by simp [hi])
    · -- nexts
      rw [nextOK_append, nextOK_cons]
      exact ⟨nextOK_congr (fun a ha => by rw [eX a ha]) hnx.1, vP_next,
        nextOK_congr (fun a ha => (eY a ha).1) hnx.2.2.2⟩
    · -- prevs
      rw [prevOK_append, prevOK_cons]
      refine ⟨prevOK_congr (fun a ha => by rw [eX a ha]) hpv.1, vP_prev, ?_⟩
      cases Y with
      | nil => trivial
      | cons b Y'' =>
        have hb : (nodeAt q.node_heap b).prev = some P := by rw [cn b rfl]
        have hold := hpv.2.2.2
        rw [prevOK_cons] at hold ⊢
        refine ⟨hb, prevOK_congr (fun a ha => ?_) hold.2⟩
        have hab : a ≠ b := by
          intro hc
          rw [hc] at ha
          exact (List.nodup_cons.1 hYnd).1 ha
        exact (eY a (List.mem_cons_of_mem _ ha)).2.2.2.2 (by simp [headOr, hab])
    · -- tiles
      rw [tilesFrom_append, tilesFrom_cons]
      have hsX : sizes q.node_heap X' = sizes p.node_heap X' := sizes_congr fX_size
      refine ⟨tilesFrom_congr (fun a ha => by rw [eX a ha]) fX_size htl.1, ?_, ?_⟩
      · rw [vP_mem, hsX]; exact htl.2.1
      · rw [vP_size, hsX, ← Nat.add_assoc]
        exact tilesFrom_congr fY_mem fY_size htl.2.2.2
    · -- total
      have := w.total
      rw [sizes_append, sizes_cons, sizes_cons] at this
      rw [sizes_append, sizes_cons, vP_size, sizes_congr fX_size, sizes_congr fY_size, hts]
      omega
    · -- noadj
      rw [List.map_append, List.map_cons, hfP', chain_mid_false, hmapX, hmapY]
      exact ⟨hno.1.1, hno.2⟩
    · -- gaps
      rw [hlive]
      have h1 := @gaps_remove p X' (A :: Y) P (some A) w hfP
      refine h1.trans ?_
      rw [List.filter_append, List.filter_append,
        List.filter_cons_of_neg (by rw [hfA]; simp), List.filter_cons_of_neg (by rw [hfP']; simp),
        List.map_append, List.map_append,
        free_entries_congr fX_alloc fX_size (ne_hole_some hAX) (ne_hole_some hPX),
        free_entries_congr fY_alloc fY_size (ne_hole_some hAY) (ne_hole_some hPY)]
    · -- n_allocs
      have := w.n_allocs
      rw [List.countP_append, List.countP_cons_of_neg _ _ (by rw [haP]; simp),
        List.countP_cons_of_neg _ _ (by rw [haA]; simp)] at this
      rw [hna, this, List.countP_append, List.countP_cons_of_neg _ _ (by rw [haP']; simp),
        alloc_count_congr fX_alloc, alloc_count_congr fY_alloc]
    · -- a_size
      have := w.a_size
      rw [List.filter_append, List.filter_cons_of_neg (by rw [haP]; simp),
        List.filter_cons_of_neg (by rw [haA]; simp), sizes_append] at this
      rw [has, this, List.filter_append, List.filter_cons_of_neg (by rw [haP']; simp),
        sizes_append, alloc_sizes_congr fX_alloc fX_size, alloc_sizes_congr fY_alloc fY_size]
  · rw [hmapXn]; exact hno.1.2.2.1
  · rw [hmapYn]; exact hsucc
  · intro i hi
    rcases List.mem_append.1 hi with hi | hi
    · rw [eX i hi]; exact ⟨rfl, rfl⟩
    · exact ⟨(eY i hi).2.1, (eY i hi).2.2.1⟩

theorem del_merge_prev_spec {p : pool_mgr_t} {X Y : List Nat} {A : Nat}
    (w : WFh p (X ++ A :: Y) (some A)) (hA : (nodeAt p.node_heap A).allocated = 0)
    (hsucc : (Y.map (freeAt p.node_heap none)).head? ≠ some true) :
    ∃ q X' prv M, del_merge_prev p A = some (q, M) ∧ X = X' ++ prv ∧
      MergePrevEffect p q X' prv A M Y ∧
      (Y.map (freeAt q.node_heap none)).head? ≠ some true := by
  have hpv := w.prevs
  rw [prevOK_append, prevOK_cons] at hpv
  have hAX : A ∉ X := (split_facts w.nodup).1
  have keep : MergePrevEffect p p X [] A A Y ↔
      (X.map (freeAt p.node_heap none)).getLast? ≠ some true := by
    constructor
    · intro e; exact e.pred_alloc
    · intro h
      exact
        { short := by simp
          were_free := by simp
          first := by simp
          wf := w
          pred_alloc := h
          alloc := hA
          mem := rfl
          size := by simp [sizes]
          others := fun i _ => ⟨rfl, rfl⟩
          used := rfl
          gaps := rfl
          n_allocs := rfl
          a_size := rfl
          t_size := rfl
          policy := rfl }
  rcases List.eq_nil_or_concat X with hnil | ⟨X1, P, hX⟩
  · subst hnil
    refine ⟨p, [], [], A, ?_, rfl, keep.2 (by simp), hsucc⟩
    unfold del_merge_prev
    rw [hpv.2.1]; rfl
  · rw [List.concat_eq_append] at hX
    subst hX
    have hprevA : (nodeAt p.node_heap A).prev = some P := by
      rw [hpv.2.1, lastOr_append_singleton]
    have hAP : A ≠ P := fun hc => hAX (by simp [hc])
    by_cases hP : (nodeAt p.node_heap P).allocated = 0
    · -- the predecessor is a gap
      have hL : X1 ++ [P] ++ A :: Y = X1 ++ P :: A :: Y := by simp
      have w' : WFh p (X1 ++ P :: A :: Y) (some A) := by rw [← hL]; exact w
      have hfP : freeAt p.node_heap (some A) P = true := by
        simp only [freeAt, hP, decide_True, Bool.true_and, decide_eq_true_eq]
        intro hc; simp only [Option.some.injEq] at hc; exact hAP hc.symm
      have hentry : gap_entry p.node_heap P ∈ live_gaps p :=
        (mem_live_gaps w' _).2 ⟨P, by simp, hfP, rfl⟩
      obtain ⟨g, n, hrem, hg, hn, hgt⟩ := remove_spec p
        (nodeAt p.node_heap P).alloc_record.size (some P) (num_gaps_lt w)
        (gap_entry p.node_heap P) hentry rfl
      have hu : 1 ≤ p.used_nodes := by
        have := w.n_used
        simp only [List.length_append, List.length_cons] at this
        omega
      have hres := @WFh_merge_prev p (merge_prev_state p A P g n) X1 Y A P w' hA hP hsucc rfl rfl
        (show sub32 p.used_nodes 1 + 1 = p.used_nodes by rw [sub32_of_le hu]; omega)
        (show g.length = p.gap_ix_capacity by rw [hg]; exact w.gap_len) rfl hn hgt rfl rfl rfl
      obtain ⟨hw', v1, v2, v3, v4, v5, v6⟩ := hres
      refine ⟨merge_prev_state p A P g n, X1, [P], P, ?_, rfl, ?_, v2⟩
      · unfold del_merge_prev
        rw [hprevA]
        simp only [hP, if_true, hrem, ne_eq, not_true_eq_false, if_false]
        rfl
      · exact
          { short := by simp
            were_free := by simpa using hP
            first := by simp
            wf := hw'
            pred_alloc := v1
            alloc := v3
            mem := v4
            size := by rw [v5]; simp [sizes]
            others := v6
            used := by
              show sub32 p.used_nodes 1 + 1 = p.used_nodes
              rw [sub32_of_le hu]; omega
            gaps := hn
            n_allocs := rfl
            a_size := rfl
            t_size := rfl
            policy := rfl }
    · -- the predecessor is allocated
      refine ⟨p, X1 ++ [P], [], A, ?_, by simp, keep.2 ?_, hsucc⟩
      · unfold del_merge_prev
        rw [hprevA]
        simp only [hP, if_false]
      · simp [freeAt, hP]

theorem del_alloc_spec {p : pool_mgr_t} {L : List Nat} {A : Nat} (w : WFh p L none)
    (hl : live p A) :
    ∃ X' prv nxt Y' M q, L = X' ++ prv ++ A :: (nxt ++ Y') ∧
      mem_del_alloc p A = (q, alloc_status.ALLOC_OK) ∧ DelEffect p q X' prv A nxt Y' M := by
  have hAL : A ∈ L := mem_of_used w hl.2.1
  obtain ⟨X, Y, hL⟩ := List.append_of_mem hAL
  subst hL
  obtain ⟨hAX, hAY, _, _, _⟩ := split_facts w.nodup
  -- the node is marked free
  obtain ⟨w0, a0, r0, o0, na0, as0⟩ := del_mark_free_spec w hl.2.2
  -- a free successor is merged
  obtain ⟨p1, nxt, Y', hrun1, hY, e1⟩ := del_merge_next_spec w0 a0
  subst hY
  have a1 : (nodeAt p1.node_heap A).allocated = 0 := by rw [e1.alloc]; exact a0
  have hAY' : A ∉ Y' := fun hc => hAY (List.mem_append_right _ hc)
  have hsucc1 : (Y'.map (freeAt p1.node_heap none)).head? ≠ some true := e1.succ_alloc
  -- a free predecessor is merged
  obtain ⟨p2, X', prv, M, hrun2, hX, e2, hsucc2⟩ := del_merge_prev_spec e1.wf a1 hsucc1
  subst hX
  -- the merged gap is entered in the index
  have w2 := e2.wf
  obtain ⟨g, c, hadd, hg, hc, hf, F1, F2, hF, hlive, hsw2, hsw1⟩ := add_spec p2
    (nodeAt p2.node_heap M).alloc_record.size (some M) w2.gap_len
    (by have := w2.min_gaps; omega) w2.cap_gaps
  have hminc : 40 ≤ c := by have := w2.min_gaps; omega
  have w3 := @WFh_del_add p2 (del_add_state p2 g c) X' Y' M
    w2 e2.alloc e2.pred_alloc hsucc2 rfl rfl rfl hg hminc hf F1 F2 hF hlive hsw2 hsw1 rfl rfl rfl
  -- frames back to the pool before the call
  have hprvX : ∀ i ∈ prv, i ≠ A := fun i hi hc => hAX (by rw [← hc]; simp [hi])
  have hnxtY : ∀ i ∈ nxt, i ≠ A := fun i hi hc => hAY (by rw [← hc]; simp [hi])
  have fX' : ∀ i ∈ X' ++ prv, (nodeAt p1.node_heap i).alloc_record
      = (nodeAt p.node_heap i).alloc_record ∧
      (nodeAt p1.node_heap i).allocated = (nodeAt p.node_heap i).allocated := by
    intro i hi
    have hne : i ≠ A := fun hc => hAX (hc ▸ hi)
    have := e1.others i (List.mem_append_left _ hi)
    rw [o0 i hne] at this
    exact this
  have fY' : ∀ i ∈ Y', (nodeAt p1.node_heap i).alloc_record
      = (nodeAt p.node_heap i).alloc_record ∧
      (nodeAt p1.node_heap i).allocated = (nodeAt p.node_heap i).allocated := by
    intro i hi
    have hne : i ≠ A := fun hc => hAY' (hc ▸ hi)
    have := e1.others i (List.mem_append_right _ hi)
    rw [o0 i hne] at this
    exact this
  have fnxt : ∀ i ∈ nxt, nodeAt (del_mark_free p A).node_heap i = nodeAt p.node_heap i :=
    fun i hi => o0 i (hnxtY i hi)
  have hsz_nxt : sizes (del_mark_free p A).node_heap nxt = sizes p.node_heap nxt :=
    sizes_congr (fun i hi => by rw [fnxt i hi])
  have hsz_prv : sizes p1.node_heap prv = sizes p.node_heap prv :=
    sizes_congr (fun i hi => by rw [(fX' i (List.mem_append_right _ hi)).1])
  have hsz_A1 : (nodeAt p1.node_heap A).alloc_record.size
      = (nodeAt p.node_heap A).alloc_record.size + sizes p.node_heap nxt := by
    rw [e1.size, r0, hsz_nxt]
  have hMmem : (nodeAt p1.node_heap M).alloc_record.mem = (nodeAt p.node_heap M).alloc_record.mem := by
    have hfirst := e2.first
    cases prv with
    | nil =>
      simp only [List.nil_append, List.head?_cons, Option.some.injEq] at hfirst
      subst hfirst
      rw [e1.mem, r0]
    | cons P rest =>
      simp only [List.cons_append, List.head?_cons, Option.some.injEq] at hfirst
      subst hfirst
      rw [(fX' P (by simp)).1]
  refine ⟨X', prv, nxt, Y', M, del_add_state p2 g c, by simp, ?_, ?_⟩
  · unfold mem_del_alloc
    rw [del_scan_found hl]
    simp only [hrun1, hrun2]
    exact hadd
  · exact
      { short_p := e2.short
        short_n := e1.short
        were_free := by
          intro i hi
          rcases List.mem_append.1 hi with hi | hi
          · rw [← (fX' i (List.mem_append_right _ hi)).2]
            exact e2.were_free i hi
          · rw [← fnxt i hi]
            exact e1.were_free i hi
        pred_alloc := by
          have := e2.pred_alloc
          rw [@free_map_congr p.node_heap _ none none X'
            (fun i hi => by
              rw [(e2.others i (List.mem_append_left _ hi)).2,
                (fX' i (List.mem_append_left _ hi)).2])
            (ne_hole_none X') (ne_hole_none X')] at this
          exact this
        succ_alloc := by
          have := hsucc1
          rw [@free_map_congr p.node_heap _ none none Y'
            (fun i hi => (fY' i hi).2) (ne_hole_none Y') (ne_hole_none Y')] at this
          exact this
        first := e2.first
        wf := w3
        alloc := e2.alloc
        mem := by
          show (nodeAt p2.node_heap M).alloc_record.mem = _
          rw [e2.mem, hMmem]
        size := by
          show (nodeAt p2.node_heap M).alloc_record.size = _
          rw [e2.size, hsz_prv, hsz_A1]
          omega
        others := by
          intro i hi
          show (nodeAt p2.node_heap i).alloc_record = _ ∧ (nodeAt p2.node_heap i).allocated = _
          have h2 := e2.others i hi
          rcases List.mem_append.1 hi with hi' | hi'
          · have h1 := fX' i (List.mem_append_left _ hi')
            exact ⟨h2.1.trans h1.1, h2.2.trans h1.2⟩
          · have h1 := fY' i hi'
            exact ⟨h2.1.trans h1.1, h2.2.trans h1.2⟩
        used := by
          show p2.used_nodes + prv.length + nxt.length = p.used_nodes
          have h1 := e1.used
          have h2 := e2.used
          have h0 : (del_mark_free p A).used_nodes = p.used_nodes := rfl
          omega
        gaps := by
          show p2.pool.num_gaps + 1 + prv.length + nxt.length = p.pool.num_gaps + 1
          have h1 := e1.gaps
          have h2 := e2.gaps
          have h0 : (del_mark_free p A).pool.num_gaps = p.pool.num_gaps := rfl
          omega
        n_allocs := by
          show p2.pool.num_allocs + 1 = p.pool.num_allocs
          rw [e2.n_allocs, e1.n_allocs]; exact na0
        a_size := by
          show p2.pool.alloc_size + _ = p.pool.alloc_size
          rw [e2.a_size, e1.a_size]; exact as0
        t_size := by
          show p2.pool.total_size = p.pool.total_size
          rw [e2.t_size, e1.t_size]; rfl
        policy := by
          show p2.pool.policy = p.pool.policy
          rw [e2.policy, e1.policy]; rfl }

/-- The invariant is kept by `mem_del_alloc` on a live handle. -/
theorem WFh_del_alloc {p : pool_mgr_t} {L : List Nat} {A : Nat} (w : WFh p L none)
    (hl : live p A) : ∃ L', WFh (mem_del_alloc p A).1 L' none := by
  obtain ⟨X', prv, nxt, Y', M, q, _, hrun, e⟩ := del_alloc_spec w hl
  rw [hrun]
  exact ⟨_, e.wf⟩

/-- Every reachable pool satisfies the representation invariant. -/
theorem reachable_WFh {K : Nat → Prop} {p : pool_mgr_t} (hr : ReachableBy K p) :
    ∃ L, WFh p L none := by
  induction hr with
  | opened size policy => exact ⟨[0], WFh_open size policy⟩
  | new_alloc p k _ _ ih =>
    obtain ⟨L, w⟩ := ih
    exact WFh_new_alloc w k
  | del_alloc p a _ hl ih =>
    obtain ⟨L, w⟩ := ih
    exact WFh_del_alloc w hl

theorem reachable_seg_list {K : Nat → Prop} {p : pool_mgr_t} (hr : ReachableBy K p) :
    WFh p (seg_list p) none := by
  obtain ⟨L, w⟩ := reachable_WFh hr
  rw [seg_list_eq w]; exact w

/-- On a host that clears memory and never moves a block: in every pool state reachable from `mem_pool_open` by `mem_new_alloc` calls and
`mem_del_alloc` calls on live handles, `alloc_size` plus the sum of the sizes of the free
segments equals `total_size`. -/
theorem ideal_alloc_size_plus_gap_sizes (p : pool_mgr_t) (hr : Reachable p) :
    p.pool.alloc_size + (((seg_list p).filter (seg_free p)).map (seg_size p)).sum
      = p.pool.total_size := by
  have w := reachable_seg_list hr
  have h := sizes_filter_split w.alloc01
  rw [← w.a_size, w.total, ← seg_free_eq] at h
  exact h

/-- On a host that clears memory and never moves a block: in every reachable pool state `num_allocs + num_gaps` equals `used_nodes`, which is
the number of node-heap slots flagged used and the length of the segment list walked from its
head along the `next` links. -/
theorem ideal_counts_agree (p : pool_mgr_t) (hr : Reachable p) :
    p.pool.num_allocs + p.pool.num_gaps = p.used_nodes ∧
    p.used_nodes = ((List.range p.total_nodes).filter
      (fun i => decide ((nodeAt p.node_heap i).used = 1))).length ∧
    p.used_nodes = (seg_list p).length := by
  have w := reachable_seg_list hr
  refine ⟨?_, ?_, w.n_used⟩
  · rw [w.n_allocs, num_gaps_eq w, w.n_used]
    exact count_filter_split w.alloc01
  · rw [(used_slots_perm w).length_eq]; exact w.n_used

/-- On a host that clears memory and never moves a block: in every pool state reachable with request sizes `k > 0`, the segment list has no two
consecutive segments that are both free. -/
theorem ideal_no_adjacent_free (p : pool_mgr_t) (hr : ReachableBy (fun k => 0 < k) p) :
    List.Chain' (fun a b => ¬ (seg_free p a = true ∧ seg_free p b = true)) (seg_list p) := by
  have w := reachable_seg_list hr
  have h := w.noadj
  rw [List.chain'_map, ← seg_free_eq] at h
  exact h

theorem new_alloc_returns {p : pool_mgr_t} {L : List Nat} (w : WFh p L none) {k a : Nat}
    (hret : (mem_new_alloc p k).2 = some a) :
    select_node (_mem_resize_node_heap p).1 k = some a := by
  cases hsel : select_node (_mem_resize_node_heap p).1 k with
  | none =>
    have := (new_alloc_none w (Or.inr hsel)).1
    rw [this] at hret; simp at hret
  | some S =>
    obtain ⟨A, B, q, _, hrun, _⟩ := new_alloc_some w hsel
    rw [hrun] at hret
    simpa using hret

/-- On a host that clears memory and never moves a block: in every reachable pool state, a handle returned by `mem_new_alloc(pool, k)` with
`k > 0` names a segment of size exactly `k` whose byte range lies inside `[0, total_size)`;
and the segments tile `[0, total_size)` in list order (each segment starts at the sum of the
sizes of the segments before it, and all sizes sum to `total_size`), so that two distinct live
allocations never overlap. -/
theorem ideal_alloc_inside_and_tiling (p : pool_mgr_t) (hr : Reachable p) :
    (∀ k a, 0 < k → (mem_new_alloc p k).2 = some a →
      seg_size (mem_new_alloc p k).1 a = k ∧
      seg_offset (mem_new_alloc p k).1 a + k ≤ (mem_new_alloc p k).1.pool.total_size ∧
      live (mem_new_alloc p k).1 a) ∧
    (∀ A b B, seg_list p = A ++ b :: B → seg_offset p b = (A.map (seg_size p)).sum) ∧
    ((seg_list p).map (seg_size p)).sum = p.pool.total_size ∧
    (∀ a b, live p a → live p b → a ≠ b →
      seg_offset p a + seg_size p a ≤ seg_offset p b ∨
      seg_offset p b + seg_size p b ≤ seg_offset p a) := by
  have w := reachable_seg_list hr
  refine ⟨?_, ?_, w.total, ?_⟩
  · intro k a _ hret
    have hsel := new_alloc_returns w hret
    obtain ⟨A, B, q, _, hrun, e⟩ := new_alloc_some w hsel
    rw [hrun]
    obtain ⟨L', w', hS⟩ := alloc_effect_wf e
    have hin := seg_inside w' hS
    refine ⟨e.now_size, ?_, w'.bound a hS, w'.used_in a hS, e.now_alloc⟩
    have := e.now_size
    show (nodeAt q.node_heap a).alloc_record.mem + k ≤ q.pool.total_size
    omega
  · intro A b B hL
    have ht := w.tiles
    rw [hL] at ht
    have := offset_eq_sizes ht
    rw [Nat.zero_add] at this
    exact this
  · intro a b ha hb hab
    have haL : a ∈ seg_list p := mem_of_used w ha.2.1
    have hbL : b ∈ seg_list p := mem_of_used w hb.2.1
    obtain ⟨A, B, hL⟩ := List.append_of_mem haL
    have ht := w.tiles
    rw [hL] at hbL ht
    rcases List.mem_append.1 hbL with hbA | hbB
    · obtain ⟨A1, A2, rfl⟩ := List.append_of_mem hbA
      right
      have ht' : tilesFrom p.node_heap 0 (A1 ++ b :: (A2 ++ a :: B)) := by
        simpa using ht
      exact seg_before ht'
    · rcases List.mem_cons.1 hbB with hba | hbB'
      · exact absurd hba.symm hab
      · obtain ⟨B1, B2, rfl⟩ := List.append_of_mem hbB'
        left
        exact seg_before ht

/-- On a host that clears memory and never moves a block: in every reachable pool state the first `num_gaps` entries of the gap index are
exactly the free segments of the segment list, each once, and the size field of every entry
is the current size of the segment it references. -/
theorem ideal_gap_index_exact (p : pool_mgr_t) (hr : Reachable p) :
    (live_gaps p).length = p.pool.num_gaps ∧
    ((live_gaps p).map (fun e => e.node)).Nodup ∧
    (∀ i, some i ∈ (live_gaps p).map (fun e => e.node) ↔
      (i ∈ seg_list p ∧ seg_free p i = true)) ∧
    (∀ e ∈ live_gaps p, ∃ i, e.node = some i ∧ i ∈ seg_list p ∧ e.size = seg_size p i) := by
  have w := reachable_seg_list hr
  refine ⟨length_live_gaps w, ?_, ?_, ?_⟩
  · have hp := w.gaps.map (fun e : gap_t => e.node)
    rw [hp.nodup_iff, List.map_map]
    have : ((fun e : gap_t => e.node) ∘ gap_entry p.node_heap) = some := by
      funext i; rfl
    rw [this]
    exact (w.nodup.filter _).map (fun a b h => by simpa using h)
  · intro i
    rw [List.mem_map]
    constructor
    · rintro ⟨e, he, hn⟩
      obtain ⟨j, hj, hf, rfl⟩ := (mem_live_gaps w e).1 he
      simp only [gap_entry_node, Option.some.injEq] at hn
      subst hn
      exact ⟨hj, by rw [seg_free_eq]; exact hf⟩
    · rintro ⟨hi, hf⟩
      exact ⟨gap_entry p.node_heap i,
        (mem_live_gaps w _).2 ⟨i, hi, by rw [← seg_free_eq]; exact hf, rfl⟩, rfl⟩
  · intro e he
    obtain ⟨j, hj, _, rfl⟩ := (mem_live_gaps w e).1 he
    exact ⟨j, rfl, hj, rfl⟩

theorem select_exists {p : pool_mgr_t} {L : List Nat} (w : WFh p L none) {k : Nat}
    (hex : ∃ i, i ∈ L ∧ (nodeAt p.node_heap i).allocated = 0 ∧
      k ≤ (nodeAt p.node_heap i).alloc_record.size) :
    ∃ S, select_node p k = some S := by
  cases hsel : select_node p k with
  | some S => exact ⟨S, rfl⟩
  | none =>
    obtain ⟨i, hi, hf, hk⟩ := hex
    have := select_node_none w hsel i hi hf
    omega

/-- The node that `mem_new_alloc` selects in a reachable pool that has a fitting gap, with
what the two policies guarantee about it. -/
theorem new_alloc_selects {p : pool_mgr_t} (hr : Reachable p) {k : Nat}
    (hex : ∃ i, i ∈ seg_list p ∧ seg_free p i = true ∧ k ≤ seg_size p i) :
    ∃ S, (mem_new_alloc p k).2 = some S ∧ S ∈ seg_list p ∧ seg_free p S = true ∧
      k ≤ seg_size p S ∧
      seg_free (mem_new_alloc p k).1 S = false ∧ seg_size (mem_new_alloc p k).1 S = k ∧
      seg_offset (mem_new_alloc p k).1 S = seg_offset p S ∧
      (p.pool.policy = alloc_policy.FIRST_FIT →
        ∀ i ∈ seg_list p, seg_free p i = true → k ≤ seg_size p i → S ≤ i) ∧
      (p.pool.policy = alloc_policy.BEST_FIT →
        ∀ i ∈ seg_list p, seg_free p i = true → k ≤ seg_size p i →
          seg_size p S ≤ seg_size p i) := by
  have w := reachable_seg_list hr
  obtain ⟨p1, hres, w1, _, hp, _, _, _, _, hn⟩ := resize_node_heap_state w
  have hex1 : ∃ i, i ∈ seg_list p ∧ (nodeAt p1.node_heap i).allocated = 0 ∧
      k ≤ (nodeAt p1.node_heap i).alloc_record.size := by
    obtain ⟨i, hi, hf, hk⟩ := hex
    exact ⟨i, hi, by rw [hn]; simpa [seg_free] using hf, by rw [hn]; exact hk⟩
  obtain ⟨S, hsel1⟩ := select_exists w1 hex1
  have hsel : select_node (_mem_resize_node_heap p).1 k = some S := by rw [hres]; exact hsel1
  obtain ⟨A, B, q, hL, hrun, e⟩ := new_alloc_some w hsel
  rw [hrun]
  have hSL : S ∈ seg_list p := by rw [hL]; simp
  refine ⟨S, rfl, hSL, by simp [seg_free, e.was_free], e.fits, by simp [seg_free, e.now_alloc],
    e.now_size, e.now_mem, ?_, ?_⟩
  · intro hpol i hi hf hk
    have := (select_first_fit w1 (by rw [hp]; exact hpol) hsel1).2.2.2 i hi
      (by rw [hn]; simpa [seg_free] using hf) (by rw [hn]; exact hk)
    exact this
  · intro hpol i hi hf hk
    have := (select_best_fit w1 (by rw [hp]; exact hpol) hsel1).2.2.2 i hi
      (by rw [hn]; simpa [seg_free] using hf) (by rw [hn]; exact hk)
    rw [hn, hn] at this
    exact this

/-- On a host that clears memory and never moves a block: in every reachable first-fit pool and for every `k > 0` for which some free
segment has size at least `k`, `mem_new_alloc(pool, k)` places the allocation in the free
segment of size at least `k` that has the lowest node-heap slot index; this is the one with
the lowest pool offset whenever slot order agrees with offset order on those segments. -/
theorem ideal_first_fit_lowest_slot (p : pool_mgr_t) (hr : Reachable p)
    (hp : p.pool.policy = alloc_policy.FIRST_FIT) (k : Nat) (hk : 0 < k)
    (hex : ∃ i, i ∈ seg_list p ∧ seg_free p i = true ∧ k ≤ seg_size p i) :
    ∃ S, (mem_new_alloc p k).2 = some S ∧ S ∈ seg_list p ∧ seg_free p S = true ∧
      k ≤ seg_size p S ∧
      (∀ i ∈ seg_list p, seg_free p i = true → k ≤ seg_size p i → S ≤ i) ∧
      seg_free (mem_new_alloc p k).1 S = false ∧ seg_size (mem_new_alloc p k).1 S = k ∧
      seg_offset (mem_new_alloc p k).1 S = seg_offset p S ∧
      ((∀ i ∈ seg_list p, ∀ j ∈ seg_list p, seg_free p i = true → seg_free p j = true →
          k ≤ seg_size p i → k ≤ seg_size p j → i ≤ j → seg_offset p i ≤ seg_offset p j) →
        ∀ i ∈ seg_list p, seg_free p i = true → k ≤ seg_size p i →
          seg_offset p S ≤ seg_offset p i) := by
  have _ := hk
  obtain ⟨S, h1, h2, h3, h4, h5, h6, h7, hff, _⟩ := new_alloc_selects hr hex
  refine ⟨S, h1, h2, h3, h4, hff hp, h5, h6, h7, ?_⟩
  intro hord i hi hf hki
  exact hord S h2 i hi h3 hf h4 hki (hff hp i hi hf hki)

/-- On a host that clears memory and never moves a block: in every reachable best-fit pool and for every `k > 0` for which some free segment has
size at least `k`, `mem_new_alloc(pool, k)` places the allocation in a free segment whose size
is the least among the free segments of size at least `k`. -/
theorem ideal_best_fit_smallest (p : pool_mgr_t) (hr : Reachable p)
    (hp : p.pool.policy = alloc_policy.BEST_FIT) (k : Nat) (hk : 0 < k)
    (hex : ∃ i, i ∈ seg_list p ∧ seg_free p i = true ∧ k ≤ seg_size p i) :
    ∃ S, (mem_new_alloc p k).2 = some S ∧ S ∈ seg_list p ∧ seg_free p S = true ∧
      k ≤ seg_size p S ∧
      (∀ i ∈ seg_list p, seg_free p i = true → k ≤ seg_size p i →
        seg_size p S ≤ seg_size p i) ∧
      seg_free (mem_new_alloc p k).1 S = false ∧ seg_size (mem_new_alloc p k).1 S = k ∧
      seg_offset (mem_new_alloc p k).1 S = seg_offset p S := by
  have _ := hk
  obtain ⟨S, h1, h2, h3, h4, h5, h6, h7, _, hbf⟩ := new_alloc_selects hr hex
  exact ⟨S, h1, h2, h3, h4, hbf hp, h5, h6, h7⟩

/-- In every reachable pool the gap index is sorted by size, entries of equal size by node
pointer. -/
theorem reachable_gaps_sorted {p : pool_mgr_t} (hr : Reachable p) :
    (live_gaps p).Pairwise gap_le :=
  (reachable_seg_list hr).sorted

/-- On a host that clears memory and never moves a block: in every reachable pool state, when `mem_new_alloc(pool, k)` with `k > 0` selects the
free segment `S` (the selection is made once the node heap has been grown, as in the code),
it returns `S`; `S` becomes allocated with size `k` at its old offset; `num_allocs` grows by 1
and `alloc_size` by `k`.  If `S` was larger than `k`, a new free segment `R` of the remaining
size, at the offset of `S` plus `k`, is spliced right after `S`, is entered in the gap index,
`used_nodes` grows by 1 and `num_gaps` is unchanged.  If `S` had size `k`, the segment list
and `used_nodes` are unchanged and `num_gaps` drops by 1. -/
theorem ideal_new_alloc_effect (p : pool_mgr_t) (hr : Reachable p) (k : Nat) (hk : 0 < k)
    (S : Nat) (hsel : select_node (_mem_resize_node_heap p).1 k = some S) :
    (mem_new_alloc p k).2 = some S ∧ S ∈ seg_list p ∧ seg_free p S = true ∧
    (nodeAt (mem_new_alloc p k).1.node_heap S).allocated = 1 ∧
    seg_size (mem_new_alloc p k).1 S = k ∧
    seg_offset (mem_new_alloc p k).1 S = seg_offset p S ∧
    (mem_new_alloc p k).1.pool.num_allocs = p.pool.num_allocs + 1 ∧
    (mem_new_alloc p k).1.pool.alloc_size = p.pool.alloc_size + k ∧
    (k < seg_size p S →
      ∃ A B R, seg_list p = A ++ S :: B ∧ R ∉ seg_list p ∧
        seg_list (mem_new_alloc p k).1 = A ++ S :: R :: B ∧
        seg_free (mem_new_alloc p k).1 R = true ∧
        seg_size (mem_new_alloc p k).1 R = seg_size p S - k ∧
        seg_offset (mem_new_alloc p k).1 R = seg_offset p S + k ∧
        (⟨seg_size p S - k, some R⟩ : gap_t) ∈ live_gaps (mem_new_alloc p k).1 ∧
        (mem_new_alloc p k).1.used_nodes = p.used_nodes + 1 ∧
        (mem_new_alloc p k).1.pool.num_gaps = p.pool.num_gaps) ∧
    (seg_size p S = k →
      seg_list (mem_new_alloc p k).1 = seg_list p ∧
      (mem_new_alloc p k).1.used_nodes = p.used_nodes ∧
      (mem_new_alloc p k).1.pool.num_gaps + 1 = p.pool.num_gaps) := by
  have _ := hk
  have w := reachable_seg_list hr
  obtain ⟨A, B, q, hL, hrun, e⟩ := new_alloc_some w hsel
  rw [hrun]
  refine ⟨rfl, by rw [hL]; simp, by simp [seg_free, e.was_free], e.now_alloc, e.now_size,
    e.now_mem, e.n_allocs, e.a_size, ?_, ?_⟩
  · intro hlt
    obtain ⟨R, hR, hw, hu, hg, v1, v2, v3, F1, F2, _, hlive⟩ := e.split hlt
    refine ⟨A, B, R, hL, by rw [hL]; exact hR, seg_list_eq hw, by simp [seg_free, v1], v2, v3,
      ?_, hu, hg⟩
    show _ ∈ live_gaps q
    rw [hlive]
    simp [seg_size]
  · intro hex
    obtain ⟨hw, hu, hg, _⟩ := e.exact hex
    exact ⟨by rw [seg_list_eq hw, hL], hu, hg⟩

/-- On a host that clears memory and never moves a block: in every reachable pool state, `mem_del_alloc(pool, A)` on a live handle `A` returns
`ALLOC_OK`, lowers `num_allocs` by 1 and `alloc_size` by the size of `A`.  With the segment
list written `X' ++ prv ++ A :: nxt ++ Y'`, where `prv` is the predecessor of `A` if that is
free (and empty otherwise) and `nxt` the successor of `A` if that is free, the new segment
list is `X' ++ M :: Y'` with `M` the first node of `prv ++ [A]`: `M` is free, keeps the offset
it had, and has the sizes of `prv`, `A` and `nxt` together; its neighbours are allocated;
`used_nodes` drops by the number of free neighbours, `num_gaps` becomes `num_gaps + 1` minus
that number, and the other segments keep their size, state, offset and order. -/
theorem ideal_del_alloc_effect (p : pool_mgr_t) (hr : Reachable p) (A : Nat) (hl : live p A) :
    (mem_del_alloc p A).2 = alloc_status.ALLOC_OK ∧
    (mem_del_alloc p A).1.pool.num_allocs + 1 = p.pool.num_allocs ∧
    (mem_del_alloc p A).1.pool.alloc_size + seg_size p A = p.pool.alloc_size ∧
    ∃ X' prv nxt Y' M, seg_list p = X' ++ prv ++ A :: (nxt ++ Y') ∧
      prv.length ≤ 1 ∧ nxt.length ≤ 1 ∧
      (∀ i ∈ prv ++ nxt, seg_free p i = true) ∧
      (∀ x, X'.getLast? = some x → seg_free p x = false) ∧
      (∀ y, Y'.head? = some y → seg_free p y = false) ∧
      (prv ++ [A]).head? = some M ∧
      seg_list (mem_del_alloc p A).1 = X' ++ M :: Y' ∧
      seg_free (mem_del_alloc p A).1 M = true ∧
      seg_size (mem_del_alloc p A).1 M
        = (prv.map (seg_size p)).sum + seg_size p A + (nxt.map (seg_size p)).sum ∧
      seg_offset (mem_del_alloc p A).1 M = seg_offset p M ∧
      (∀ x, X'.getLast? = some x → seg_free (mem_del_alloc p A).1 x = false) ∧
      (∀ y, Y'.head? = some y → seg_free (mem_del_alloc p A).1 y = false) ∧
      (mem_del_alloc p A).1.used_nodes + (prv.length + nxt.length) = p.used_nodes ∧
      (mem_del_alloc p A).1.pool.num_gaps + (prv.length + nxt.length) = p.pool.num_gaps + 1 ∧
      (∀ i ∈ X' ++ Y',
        seg_size (mem_del_alloc p A).1 i = seg_size p i ∧
        seg_free (mem_del_alloc p A).1 i = seg_free p i ∧
        seg_offset (mem_del_alloc p A).1 i = seg_offset p i) := by
  have w := reachable_seg_list hr
  obtain ⟨X', prv, nxt, Y', M, q, hL, hrun, e⟩ := del_alloc_spec w hl
  rw [hrun]
  have hpl := not_free_last e.pred_alloc
  have hsh := not_free_head e.succ_alloc
  refine ⟨rfl, e.n_allocs, e.a_size, X', prv, nxt, Y', M, hL, e.short_p, e.short_n, ?_, ?_, ?_,
    e.first, seg_list_eq e.wf, by simp [seg_free, e.alloc], e.size, e.mem, ?_, ?_, ?_, ?_, ?_⟩
  · intro i hi
    simp [seg_free, e.were_free i hi]
  · intro x hx
    simpa [seg_free] using hpl x hx
  · intro y hy
    simpa [seg_free] using hsh y hy
  · intro x hx
    have hxm : x ∈ X' ++ Y' := List.mem_append_left _ (List.mem_of_mem_getLast? hx)
    simp only [seg_free, (e.others x hxm).2]
    simpa using hpl x hx
  · intro y hy
    have hym : y ∈ X' ++ Y' := List.mem_append_right _ (List.mem_of_mem_head? hy)
    simp only [seg_free, (e.others y hym).2]
    simpa using hsh y hy
  · have := e.used
    show q.used_nodes + (prv.length + nxt.length) = p.used_nodes
    omega
  · have := e.gaps
    show q.pool.num_gaps + (prv.length + nxt.length) = p.pool.num_gaps + 1
    omega
  · intro i hi
    have := e.others i hi
    simp only [seg_size, seg_free, seg_offset, this.1, this.2]
    exact ⟨trivial, trivial, trivial⟩

theorem inspect_of_nextOK (h : List node_t) (L : List Nat) (hn : nextOK h none L) :
    inspect_loop h L.length (headOr L none) = some (L.map (segment_of h)) := by
  induction L with
  | nil => rfl
  | cons a L ih =>
    have h1 := ih hn.2
    have h2 : (nodeAt h a).next = headOr L none := hn.1
    show (inspect_loop h L.length (nodeAt h a).next).map
      (fun rest => segment_of h a :: rest) = some (segment_of h a :: L.map (segment_of h))
    rw [h2, h1]
    rfl

theorem inspect_eq {p : pool_mgr_t} {L : List Nat} {hole : Option Nat} (w : WFh p L hole) :
    mem_inspect_pool p = some (L.map (segment_of p.node_heap)) := by
  have h0 : headOr L none = some 0 := by
    cases L with
    | nil => have := w.head; simp at this
    | cons a L => have := w.head; simp at this; simp [headOr, this]
  have := inspect_of_nextOK p.node_heap L w.nexts
  rw [h0, ← w.n_used] at this
  exact this

/-- Two pools with the same segment list and the same sizes and flags on it show the same
segments to `mem_inspect_pool` and hold the same entries in the gap index, in the same
order. -/
theorem same_segments {p r : pool_mgr_t} {L : List Nat} (w : WFh p L none) (wr : WFh r L none)
    (hs : ∀ i ∈ L, (nodeAt r.node_heap i).alloc_record.size
      = (nodeAt p.node_heap i).alloc_record.size)
    (ha : ∀ i ∈ L, (nodeAt r.node_heap i).allocated = (nodeAt p.node_heap i).allocated) :
    mem_inspect_pool r = mem_inspect_pool p ∧ live_gaps r = live_gaps p := by
  constructor
  · rw [inspect_eq w, inspect_eq wr]
    congr 1
    apply List.map_congr_left
    intro i hi
    simp only [segment_of, hs i hi, ha i hi]
  · apply sorted_perm_eq _ wr.sorted w.sorted
    have he := @free_entries_congr p.node_heap r.node_heap none none L ha hs
      (fun _ _ => by simp) (fun _ _ => by simp)
    exact (wr.gaps.trans (by rw [he])).trans w.gaps.symm

/-- Freeing the handle that `mem_new_alloc` has just returned gives back a pool with the
segment list, the sizes, the flags and the statistics of the pool before the allocation. -/
theorem alloc_free_back {p q : pool_mgr_t} {A0 B : List Nat} {S k : Nat}
    (w : WFh p (A0 ++ S :: B) none) (e : AllocEffect p q A0 B S k) :
    ∃ r, mem_del_alloc q S = (r, alloc_status.ALLOC_OK) ∧ WFh r (A0 ++ S :: B) none ∧
      (∀ i ∈ A0 ++ S :: B, (nodeAt r.node_heap i).alloc_record.size
        = (nodeAt p.node_heap i).alloc_record.size) ∧
      (∀ i ∈ A0 ++ S :: B, (nodeAt r.node_heap i).allocated
        = (nodeAt p.node_heap i).allocated) ∧
      r.pool.num_allocs = p.pool.num_allocs ∧ r.pool.alloc_size = p.pool.alloc_size ∧
      r.pool.num_gaps = p.pool.num_gaps ∧ r.used_nodes = p.used_nodes := by
  obtain ⟨hSA, hSB, _, _, _⟩ := split_facts w.nodup
  -- the neighbours of the gap are allocated
  have hfS : freeAt p.node_heap none S = true := by simp [freeAt, e.was_free]
  have hch := w.noadj
  rw [List.map_append, List.map_cons, hfS, chain_mid_true] at hch
  obtain ⟨_, _, hlast, hhead⟩ := hch
  have hlast' := not_free_last hlast
  have hhead' := not_free_head hhead
  have hoth : ∀ i ∈ A0 ++ B,
      (nodeAt q.node_heap i).alloc_record = (nodeAt p.node_heap i).alloc_record ∧
      (nodeAt q.node_heap i).allocated = (nodeAt p.node_heap i).allocated := by
    intro i hi
    have hne : i ≠ S := by
      rintro rfl
      rcases List.mem_append.1 hi with h | h
      · exact hSA h
      · exact hSB h
    apply e.others i hne
    rcases List.mem_append.1 hi with h | h
    · exact List.mem_append_left _ h
    · exact List.mem_append_right _ (List.mem_cons_of_mem _ h)
  -- the predecessor is not merged
  have hprv : ∀ (X' prv : List Nat), A0 = X' ++ prv → prv.length ≤ 1 →
      (∀ i ∈ prv, (nodeAt q.node_heap i).allocated = 0) → prv = [] := by
    intro X' prv hA hlen hfree
    cases prv with
    | nil => rfl
    | cons P t =>
      cases t with
      | cons _ _ => simp at hlen
      | nil =>
        exfalso
        have hPA : P ∈ A0 := by rw [hA]; simp
        have h1 := (hoth P (List.mem_append_left _ hPA)).2
        rw [hfree P (by simp)] at h1
        exact hlast' P (by rw [hA]; simp) h1.symm
  by_cases hex : (nodeAt p.node_heap S).alloc_record.size = k
  · obtain ⟨wq, hu, hg, _⟩ := e.exact hex
    have hlive : live q S :=
      ⟨wq.bound S (by simp), wq.used_in S (by simp), e.now_alloc⟩
    obtain ⟨X', prv, nxt, Y', M, r, hL, hrun, d⟩ := del_alloc_spec wq hlive
    rw [List.append_assoc] at hL
    have hL' : A0 ++ S :: B = (X' ++ prv) ++ S :: (nxt ++ Y') := by
      rw [List.append_assoc]; exact hL
    obtain ⟨hA, hB⟩ := split_unique w.nodup hL'
    have hp0 : prv = [] := hprv X' prv hA d.short_p
      (fun i hi => d.were_free i (List.mem_append_left _ hi))
    have hn0 : nxt = [] := by
      cases hnx : nxt with
      | nil => rfl
      | cons N t =>
        exfalso
        subst hnx
        have hNB : N ∈ B := by rw [hB]; simp
        have h1 := (hoth N (List.mem_append_right _ hNB)).2
        rw [d.were_free N (by simp)] at h1
        exact hhead' N (by rw [hB]; simp) h1.symm
    subst hp0 hn0
    simp only [List.append_nil, List.nil_append] at hA hB
    subst hA hB
    have hM : M = S := by
      have := d.first
      simpa using this.symm
    subst hM
    refine ⟨r, hrun, d.wf, ?_, ?_, ?_, ?_, ?_, ?_⟩
    · intro i hi
      by_cases hiS : i = M
      · subst hiS
        rw [d.size, e.now_size]
        simp [sizes_nil, hex]
      · have hi' : i ∈ A0 ++ B := by
          rcases List.mem_append.1 hi with h | h
          · exact List.mem_append_left _ h
          · rcases List.mem_cons.1 h with h | h
            · exact absurd h hiS
            · exact List.mem_append_right _ h
        rw [(d.others i hi').1, (hoth i hi').1]
    · intro i hi
      by_cases hiS : i = M
      · subst hiS
        rw [d.alloc, e.was_free]
      · have hi' : i ∈ A0 ++ B := by
          rcases List.mem_append.1 hi with h | h
          · exact List.mem_append_left _ h
          · rcases List.mem_cons.1 h with h | h
            · exact absurd h hiS
            · exact List.mem_append_right _ h
        rw [(d.others i hi').2, (hoth i hi').2]
    · have := d.n_allocs; have := e.n_allocs; omega
    · have := d.a_size; have := e.a_size; have := e.now_size; omega
    · have := d.gaps; simp only [List.length_nil] at this; omega
    · have := d.used; simp only [List.length_nil] at this; omega
  · have hlt : k < (nodeAt p.node_heap S).alloc_record.size := by
      have := e.fits; omega
    obtain ⟨R, hR, wq, hu, hg, hRa, hRs, _, _⟩ := e.split hlt
    have hlive : live q S :=
      ⟨wq.bound S (by simp), wq.used_in S (by simp), e.now_alloc⟩
    obtain ⟨X', prv, nxt, Y', M, r, hL, hrun, d⟩ := del_alloc_spec wq hlive
    have hL' : A0 ++ S :: (R :: B) = (X' ++ prv) ++ S :: (nxt ++ Y') := hL
    obtain ⟨hA, hB⟩ := split_unique wq.nodup hL'
    have hp0 : prv = [] := hprv X' prv hA d.short_p
      (fun i hi => d.were_free i (List.mem_append_left _ hi))
    have hn1 : nxt = [R] ∧ Y' = B := by
      cases hnx : nxt with
      | nil =>
        exfalso
        subst hnx
        simp only [List.nil_append] at hB
        have := not_free_head d.succ_alloc R (by rw [← hB]; rfl)
        exact this hRa
      | cons N t =>
        subst hnx
        cases t with
        | cons _ _ => have := d.short_n; simp at this
        | nil =>
          simp only [List.cons_append, List.nil_append, List.cons.injEq] at hB
          exact ⟨by rw [hB.1], hB.2.symm⟩
    obtain ⟨hn1, hY⟩ := hn1
    subst hp0 hn1 hY
    simp only [List.append_nil] at hA
    subst hA
    have hM : M = S := by
      have := d.first
      simpa using this.symm
    subst hM
    have hsR : sizes q.node_heap [R] = (nodeAt p.node_heap M).alloc_record.size - k := by
      rw [sizes_cons, sizes_nil, hRs]; rfl
    have hoth2 : ∀ i ∈ A0 ++ M :: Y', i ≠ M → i ∈ A0 ++ Y' := by
      intro i hi hiS
      rcases List.mem_append.1 hi with h | h
      · exact List.mem_append_left _ h
      · rcases List.mem_cons.1 h with h | h
        · exact absurd h hiS
        · exact List.mem_append_right _ h
    refine ⟨r, hrun, by simpa using d.wf, ?_, ?_, ?_, ?_, ?_, ?_⟩
    · intro i hi
      by_cases hiS : i = M
      · subst hiS
        rw [d.size, e.now_size, hsR, sizes_nil]
        omega
      · have hi' := hoth2 i hi hiS
        rw [(d.others i (by simpa using hi')).1, (hoth i hi').1]
    · intro i hi
      by_cases hiS : i = M
      · subst hiS
        rw [d.alloc, e.was_free]
      · have hi' := hoth2 i hi hiS
        rw [(d.others i (by simpa using hi')).2, (hoth i hi').2]
    · have := d.n_allocs; have := e.n_allocs; omega
    · have := d.a_size; have := e.a_size; have := e.now_size; omega
    · have := d.gaps; simp only [List.length_nil, List.length_singleton] at this; omega
    · have := d.used; simp only [List.length_nil, List.length_singleton] at this; omega

/-- On a host that clears memory and never moves a block: in every reachable pool state and for every `k > 0`, when `mem_new_alloc(pool, k)`
returns a handle `A` and `mem_del_alloc(pool, A)` is called at once, the free succeeds and
the observable state is the one before the allocation: the `mem_inspect_pool` snapshot of
`(size, allocated)` pairs, `num_allocs`, `alloc_size`, `num_gaps`, `used_nodes` and the
entries of the gap index in order. -/
theorem ideal_alloc_then_free_restores (p : pool_mgr_t) (hr : Reachable p) (k : Nat)
    (hk : 0 < k) (A : Nat) (hret : (mem_new_alloc p k).2 = some A) :
    (mem_del_alloc (mem_new_alloc p k).1 A).2 = alloc_status.ALLOC_OK ∧
    mem_inspect_pool (mem_del_alloc (mem_new_alloc p k).1 A).1 = mem_inspect_pool p ∧
    (mem_del_alloc (mem_new_alloc p k).1 A).1.pool.num_allocs = p.pool.num_allocs ∧
    (mem_del_alloc (mem_new_alloc p k).1 A).1.pool.alloc_size = p.pool.alloc_size ∧
    (mem_del_alloc (mem_new_alloc p k).1 A).1.pool.num_gaps = p.pool.num_gaps ∧
    (mem_del_alloc (mem_new_alloc p k).1 A).1.used_nodes = p.used_nodes ∧
    live_gaps (mem_del_alloc (mem_new_alloc p k).1 A).1 = live_gaps p := by
  have _ := hk
  have w := reachable_seg_list hr
  have hsel := new_alloc_returns w hret
  obtain ⟨A0, B, q, hL, hrun, e⟩ := new_alloc_some w hsel
  rw [hL] at w
  obtain ⟨r, hdel, wr, hs, ha, h1, h2, h3, h4⟩ := alloc_free_back w e
  rw [hrun]
  show (mem_del_alloc q A).2 = _ ∧ mem_inspect_pool (mem_del_alloc q A).1 = _ ∧ _
  rw [hdel]
  obtain ⟨hi, hg⟩ := same_segments w wr hs ha
  exact ⟨rfl, hi, h1, h2, h3, h4, hg⟩

/-- When no node is selected `mem_new_alloc` returns `NULL`, and all it may have changed is
the capacity of the node heap. -/
theorem new_alloc_null {p : pool_mgr_t} {L : List Nat} (w : WFh p L none) {k : Nat}
    (hsel : p.pool.num_gaps = 0 ∨ select_node (_mem_resize_node_heap p).1 k = none) :
    (mem_new_alloc p k).2 = none ∧ WFh (mem_new_alloc p k).1 L none ∧
      (mem_new_alloc p k).1.pool = p.pool ∧
      (mem_new_alloc p k).1.used_nodes = p.used_nodes ∧
      (mem_new_alloc p k).1.gap_ix = p.gap_ix ∧
      (∀ i, nodeAt (mem_new_alloc p k).1.node_heap i = nodeAt p.node_heap i) := by
  obtain ⟨hnone, wq, hq⟩ := new_alloc_none w hsel
  refine ⟨hnone, wq, ?_⟩
  rcases hq with hq | hq
  · rw [hq]; exact ⟨rfl, rfl, rfl, fun _ => rfl⟩
  · obtain ⟨p1, hres, _, _, hp, hu, hg, _, _, hn⟩ := resize_node_heap_state w
    rw [hq, hres]
    exact ⟨hp, hu, hg, hn⟩

/-- On a host that clears memory and never moves a block: in every reachable pool state and for every `k > 0`, when no free segment has a size
of at least `k` (in particular when `num_gaps == 0`), `mem_new_alloc(pool, k)` returns `NULL`
and `num_allocs`, `alloc_size`, `num_gaps`, `used_nodes`, the segment list with its sizes and
flags and the gap index are as before the call. -/
theorem ideal_no_fit_returns_null (p : pool_mgr_t) (hr : Reachable p) (k : Nat) (hk : 0 < k)
    (hno : p.pool.num_gaps = 0 ∨
      ∀ i ∈ seg_list p, seg_free p i = true → seg_size p i < k) :
    (mem_new_alloc p k).2 = none ∧
    (mem_new_alloc p k).1.pool.num_allocs = p.pool.num_allocs ∧
    (mem_new_alloc p k).1.pool.alloc_size = p.pool.alloc_size ∧
    (mem_new_alloc p k).1.pool.num_gaps = p.pool.num_gaps ∧
    (mem_new_alloc p k).1.used_nodes = p.used_nodes ∧
    seg_list (mem_new_alloc p k).1 = seg_list p ∧
    mem_inspect_pool (mem_new_alloc p k).1 = mem_inspect_pool p ∧
    (mem_new_alloc p k).1.gap_ix = p.gap_ix := by
  have _ := hk
  have w := reachable_seg_list hr
  have hsel : p.pool.num_gaps = 0 ∨ select_node (_mem_resize_node_heap p).1 k = none := by
    rcases hno with h0 | hno
    · exact Or.inl h0
    · right
      obtain ⟨p1, hres, w1, _, _, _, _, _, _, hn⟩ := resize_node_heap_state w
      rw [hres]
      cases hs : select_node p1 k with
      | none => rfl
      | some S =>
        exfalso
        obtain ⟨hSL, hfree, hfit⟩ := select_node_some w1 hs
        rw [hn] at hfree hfit
        have := hno S hSL (by simp [seg_free, hfree])
        unfold seg_size at this
        omega
  obtain ⟨hnone, wq, hp, hu, hg, hn⟩ := new_alloc_null w hsel
  refine ⟨hnone, by rw [hp], by rw [hp], by rw [hp], hu, seg_list_eq wq, ?_, hg⟩
  rw [inspect_eq wq, inspect_eq w]
  congr 1
  apply List.map_congr_left
  intro i _
  simp only [segment_of, hn i]

/-- On a host that clears memory and never moves a block: in every reachable pool state, under either policy, `mem_new_alloc(pool, 0)`
returns `NULL` if and only if the pool has no gap (`num_gaps == 0`); when there is a gap it
returns the handle of a free segment, which becomes an allocation of size 0 at the same
offset. -/
theorem ideal_zero_request (p : pool_mgr_t) (hr : Reachable p) :
    ((mem_new_alloc p 0).2 = none ↔ p.pool.num_gaps = 0) ∧
    (p.pool.num_gaps ≠ 0 → ∃ S, (mem_new_alloc p 0).2 = some S ∧
      S ∈ seg_list p ∧ seg_free p S = true ∧
      live (mem_new_alloc p 0).1 S ∧ seg_size (mem_new_alloc p 0).1 S = 0 ∧
      seg_offset (mem_new_alloc p 0).1 S = seg_offset p S) := by
  have w := reachable_seg_list hr
  have hsome : p.pool.num_gaps ≠ 0 → ∃ S, (mem_new_alloc p 0).2 = some S ∧
      S ∈ seg_list p ∧ seg_free p S = true ∧
      live (mem_new_alloc p 0).1 S ∧ seg_size (mem_new_alloc p 0).1 S = 0 ∧
      seg_offset (mem_new_alloc p 0).1 S = seg_offset p S := by
    intro hg
    have h1 := num_gaps_eq w
    have hne : (seg_list p).filter (freeAt p.node_heap none) ≠ [] := by
      intro h; rw [h] at h1; exact hg h1
    obtain ⟨i, hi⟩ := List.exists_mem_of_ne_nil _ hne
    obtain ⟨hiL, hif⟩ := List.mem_filter.1 hi
    rw [← seg_free_eq] at hif
    obtain ⟨S, hret, hSL, hSf, _, hnf, hsz, hoff, _, _⟩ :=
      new_alloc_selects hr ⟨i, hiL, hif, Nat.zero_le _⟩
    refine ⟨S, hret, hSL, hSf, ?_, hsz, hoff⟩
    have hsel := new_alloc_returns w hret
    obtain ⟨A, B, q, _, hrun, e⟩ := new_alloc_some w hsel
    rw [hrun]
    obtain ⟨L', w', hS⟩ := alloc_effect_wf e
    exact ⟨w'.bound S hS, w'.used_in S hS, e.now_alloc⟩
  refine ⟨⟨?_, ?_⟩, hsome⟩
  · intro hnone
    by_contra hg
    obtain ⟨S, hret, _⟩ := hsome hg
    rw [hnone] at hret
    cases hret
  · intro h0
    exact (new_alloc_null w (Or.inl h0)).1

/-- On a host that clears memory and never moves a block: in every reachable pool state `mem_inspect_pool` yields exactly `used_nodes` pairs
`(size, allocated)`, the segments of the list from its head in slot 0 to its tail, in address
order; the walk does not read through `NULL` and ends at the node whose `next` is `NULL`; the
sizes of the pairs sum to `total_size`. -/
theorem ideal_inspect_lists_segments (p : pool_mgr_t) (hr : Reachable p) :
    ∃ segs, mem_inspect_pool p = some segs ∧
      segs.length = p.used_nodes ∧
      segs = (seg_list p).map (segment_of p.node_heap) ∧
      (seg_list p).head? = some 0 ∧
      (∀ x, (seg_list p).getLast? = some x → (nodeAt p.node_heap x).next = none) ∧
      (seg_list p).Pairwise
        (fun a b => seg_offset p a + seg_size p a ≤ seg_offset p b) ∧
      (segs.map (fun s => s.size)).sum = p.pool.total_size := by
  have w := reachable_seg_list hr
  refine ⟨_, inspect_eq w, ?_, rfl, w.head, next_of_last w.nexts, tiles_pairwise w.tiles, ?_⟩
  · rw [List.length_map, w.n_used]
  · rw [List.map_map]
    exact w.total

end Ideal

/-! ## What the calls keep -/

theorem length_fresh {α : Type} (n : Nat) (junk : Nat → α) : (fresh n junk).length = n := by
  simp [fresh]

theorem length_realloc {α : Type} (xs : List α) (n : Nat) (junk : Nat → α) :
    (realloc xs n junk).length = n := by
  simp only [realloc, List.length_append, List.length_take, List.length_map, List.length_range]
  omega

theorem take_realloc {α : Type} (xs : List α) (n : Nat) (junk : Nat → α)
    (h : xs.length ≤ n) : (realloc xs n junk).take xs.length = xs := by
  simp only [realloc]
  rw [List.take_of_length_le h, List.take_left]

theorem slot_at_some {base : Nat} {h : List node_t} {a i : Nat}
    (e : slot_at base h a = some i) : i < h.length ∧ base + i = a := by
  unfold slot_at at e
  split at e
  · cases e; omega
  · cases e

theorem slot_at_base (base : Nat) (h : List node_t) (i : Nat) (hi : i < h.length) :
    slot_at base h (base + i) = some i := by
  unfold slot_at
  rw [if_pos ⟨by omega, by omega⟩]
  congr 1
  omega

theorem split_link_length {base : Nat} {h hp : List node_t} {my un r : Nat}
    (e : split_link base h my un r = some hp) : hp.length = h.length := by
  unfold split_link at e
  simp only [Option.map_eq_some'] at e
  obtain ⟨h2, e2, rfl⟩ := e
  simp only [List.length_set]
  split at e2
  · split at e2
    · cases e2; simp
    · cases e2
  · cases e2; simp

theorem merge_next_link_length {base : Nat} {h hp : List node_t} {node nx : Nat}
    (e : merge_next_link base h node nx = some hp) : hp.length = h.length := by
  unfold merge_next_link at e
  simp only [Option.map_eq_some'] at e
  obtain ⟨h3, e3, rfl⟩ := e
  simp only [List.length_set]
  split at e3
  · split at e3
    · cases e3; simp
    · cases e3
  · cases e3; simp

theorem merge_prev_link_length {base : Nat} {h hp : List node_t} {node pv : Nat}
    (e : merge_prev_link base h node pv = some hp) : hp.length = h.length := by
  unfold merge_prev_link at e
  simp only [Option.map_eq_some'] at e
  obtain ⟨h3, e3, rfl⟩ := e
  simp only [List.length_set]
  split at e3
  · split at e3
    · cases e3; simp
    · cases e3
  · cases e3; simp

theorem Kept.refl (p : pool_mgr_t) : Kept p p := ⟨rfl, rfl, rfl, rfl, rfl, rfl, rfl⟩

theorem Kept.trans {p q r : pool_mgr_t} (h1 : Kept p q) (h2 : Kept q r) : Kept p r :=
  ⟨h2.mem.trans h1.mem, h2.policy.trans h1.policy, h2.t_size.trans h1.t_size,
    h2.nodes.trans h1.nodes, h2.cap.trans h1.cap, h2.base.trans h1.base,
    h2.heap_len.trans h1.heap_len⟩

theorem Kept.grown {p q : pool_mgr_t} (h : Kept p q) : Grown p q :=
  ⟨h.mem, h.policy, h.t_size, h.nodes, h.base, h.heap_len, Or.inl h.cap⟩

theorem remove_kept (p : pool_mgr_t) (sz : Nat) (x : Option Nat) :
    Kept p (_mem_remove_from_gap_ix p sz x).1 := by
  unfold _mem_remove_from_gap_ix
  simp only
  split
  · exact Kept.refl p
  · exact ⟨rfl, rfl, rfl, rfl, rfl, rfl, rfl⟩

theorem add_grown {p p1 : pool_mgr_t} (hk : Kept p p1) (h : host_t) (sz : Nat)
    (x : Option Nat) : Grown p (_mem_add_to_gap_ix h p1 sz x).1 := by
  unfold _mem_add_to_gap_ix _mem_sort_gap_ix _mem_resize_gap_ix
  by_cases hf : fill_exceeded p1.pool.num_gaps p1.gap_ix_capacity = true
  · simp only [hf, if_true]
    refine ⟨hk.mem, hk.policy, hk.t_size, hk.nodes, hk.base, hk.heap_len,
      Or.inr ⟨?_, p1.pool.num_gaps, rfl, ?_⟩⟩
    · show p1.gap_ix_capacity * MEM_GAP_IX_EXPAND_FACTOR = p.gap_ix_capacity * 2
      rw [hk.cap]; rfl
    · rw [← hk.cap]
      simpa [fill_exceeded] using hf
  · simp only [hf]
    exact ⟨hk.mem, hk.policy, hk.t_size, hk.nodes, hk.base, hk.heap_len, Or.inl hk.cap⟩

theorem new_alloc_split_grown {p p4 q : pool_mgr_t} (hk : Kept p p4) {h : host_t} {S r : Nat}
    {x : Option Nat} (e : new_alloc_split h p4 S r = some (q, x)) : Grown p q := by
  unfold new_alloc_split at e
  split at e
  · cases e; exact hk.grown
  · rename_i R _
    split at e
    · cases e
    · rename_i hp ehp
      have hk5 : Kept p { p4 with node_heap := hp, used_nodes := p4.used_nodes + 1 } :=
        ⟨hk.mem, hk.policy, hk.t_size, hk.nodes, hk.cap, hk.base,
          (split_link_length ehp).trans hk.heap_len⟩
      have hg := add_grown hk5 h r (some (p4.heap_at + R))
      simp only at e
      split at e <;> cases e <;> exact hg

theorem new_alloc_place_grown {p q : pool_mgr_t} {h : host_t} {k : Nat} {x : Option Nat}
    (e : new_alloc_place h p k = some (q, x)) : Grown p q := by
  unfold new_alloc_place at e
  split at e
  · cases e; exact (Kept.refl p).grown
  · rename_i a _
    split at e
    · cases e
    · rename_i S _
      have h2 : Kept p { p with pool := { p.pool with
          num_allocs := p.pool.num_allocs + 1
          alloc_size := p.pool.alloc_size + k } } := ⟨rfl, rfl, rfl, rfl, rfl, rfl, rfl⟩
      have h3 := h2.trans (remove_kept _ k (some a))
      simp only at e
      split at e
      · refine new_alloc_split_grown ?_ e
        exact ⟨h3.mem, h3.policy, h3.t_size, h3.nodes, h3.cap, h3.base,
          by simp only [List.length_set]; exact h3.heap_len⟩
      · cases e
        apply Kept.grown
        exact ⟨h3.mem, h3.policy, h3.t_size, h3.nodes, h3.cap, h3.base,
          by simp only [List.length_set]; exact h3.heap_len⟩

theorem del_merge_next_kept {p1 p2 : pool_mgr_t} {node : Nat} {st : alloc_status}
    (e : del_merge_next p1 node = some (p2, st)) : Kept p1 p2 := by
  unfold del_merge_next at e
  split at e
  · cases e; exact Kept.refl _
  · rename_i nxp _
    split at e
    · cases e
    · rename_i N _
      split at e
      · have hk := remove_kept p1 (nodeAt p1.node_heap N).alloc_record.size (some nxp)
        simp only at e
        split at e
        · cases e; exact hk
        · split at e
          · cases e
          · rename_i hq ehq
            cases e
            exact ⟨hk.mem, hk.policy, hk.t_size, hk.nodes, hk.cap, hk.base,
              (merge_next_link_length ehq).trans hk.heap_len⟩
      · cases e; exact Kept.refl _

theorem del_merge_prev_kept {p2 p3 : pool_mgr_t} {node node1 : Nat} {st : alloc_status}
    (e : del_merge_prev p2 node = some (p3, node1, st)) : Kept p2 p3 := by
  unfold del_merge_prev at e
  split at e
  · cases e; exact Kept.refl _
  · rename_i pvp _
    split at e
    · cases e
    · rename_i P _
      split at e
      · have hk := remove_kept p2 (nodeAt p2.node_heap P).alloc_record.size (some pvp)
        simp only at e
        split at e
        · cases e; exact hk
        · split at e
          · cases e
          · rename_i hq ehq
            cases e
            exact ⟨hk.mem, hk.policy, hk.t_size, hk.nodes, hk.cap, hk.base,
              (merge_prev_link_length ehq).trans hk.heap_len⟩
      · cases e; exact Kept.refl _

theorem del_alloc_grown {p q : pool_mgr_t} {h : host_t} {a : Nat} {st : alloc_status}
    (e : mem_del_alloc h p a = some (q, st)) : Grown p q := by
  unfold mem_del_alloc at e
  split at e
  · cases e; exact (Kept.refl p).grown
  · rename_i node _
    have h1 : Kept p (del_mark_free p node) :=
      ⟨rfl, rfl, rfl, rfl, rfl, rfl, by simp [del_mark_free]⟩
    simp only at e
    split at e
    · cases e
    · rename_i p2 st2 e2
      have hk2 := h1.trans (del_merge_next_kept e2)
      split at e
      · cases e; exact hk2.grown
      · split at e
        · cases e
        · rename_i p3 node1 st3 e3
          have hk3 := hk2.trans (del_merge_prev_kept e3)
          split at e
          · cases e; exact hk3.grown
          · cases e
            exact add_grown hk3 _ _ _

theorem resize_node_heap_facts (h : host_t) (p : pool_mgr_t) :
    (_mem_resize_node_heap h p).1.pool = p.pool ∧
    (_mem_resize_node_heap h p).1.gap_ix_capacity = p.gap_ix_capacity ∧
    (_mem_resize_node_heap h p).1.gap_ix = p.gap_ix ∧
    (_mem_resize_node_heap h p).1.used_nodes = p.used_nodes ∧
    (_mem_resize_node_heap h p).2 = alloc_status.ALLOC_OK ∧
    ((_mem_resize_node_heap h p).1.total_nodes = p.total_nodes ∨
      ((_mem_resize_node_heap h p).1.total_nodes = p.total_nodes * 2 ∧
        3 * p.total_nodes < 4 * p.used_nodes)) ∧
    (p.node_heap.length = p.total_nodes →
      (_mem_resize_node_heap h p).1.node_heap.length = (_mem_resize_node_heap h p).1.total_nodes) := by
  unfold _mem_resize_node_heap
  by_cases hf : fill_exceeded p.used_nodes p.total_nodes = true
  · rw [if_pos hf]
    refine ⟨rfl, rfl, rfl, rfl, rfl, Or.inr ⟨rfl, ?_⟩, fun _ => ?_⟩
    · simpa [fill_exceeded] using hf
    · dsimp only
      exact length_realloc _ _ _
  · rw [if_neg hf]
    exact ⟨rfl, rfl, rfl, rfl, rfl, Or.inl rfl, fun hl => hl⟩

theorem new_alloc_grown {p q : pool_mgr_t} {h : host_t} {k : Nat} {x : Option Nat}
    (e : mem_new_alloc h p k = some (q, x)) :
    q.pool.mem = p.pool.mem ∧ q.pool.policy = p.pool.policy ∧
    q.pool.total_size = p.pool.total_size ∧
    (p.node_heap.length = p.total_nodes → q.node_heap.length = q.total_nodes) ∧
    (q.total_nodes = p.total_nodes ∨
      (q.total_nodes = p.total_nodes * 2 ∧ 3 * p.total_nodes < 4 * p.used_nodes)) ∧
    (q.gap_ix_capacity = p.gap_ix_capacity ∨
      (q.gap_ix_capacity = p.gap_ix_capacity * 2 ∧
        ∃ n, q.pool.num_gaps = n + 1 ∧ 3 * p.gap_ix_capacity < 4 * n)) := by
  obtain ⟨hp, hc, _, _, hs, hn, hl⟩ := resize_node_heap_facts h p
  unfold mem_new_alloc at e
  split at e
  · cases e; exact ⟨rfl, rfl, rfl, fun hl => hl, Or.inl rfl, Or.inl rfl⟩
  · simp only [hs, ne_eq, not_true_eq_false, if_false] at e
    split at e
    · cases e
      exact ⟨by rw [hp], by rw [hp], by rw [hp], hl, hn, Or.inl hc⟩
    · have hg := new_alloc_place_grown e
      refine ⟨by rw [hg.mem, hp], by rw [hg.policy, hp], by rw [hg.t_size, hp], ?_, ?_, ?_⟩
      · intro hlen
        rw [hg.heap_len, hg.nodes]
        exact hl hlen
      · rw [hg.nodes]; exact hn
      · rw [← hc]; exact hg.cap

/-! ## The states the calls reach -/

theorem benign_zero : benign host_zero := ⟨fun _ _ => rfl, fun _ => rfl, fun _ => rfl⟩

/-- The pool that `mem_pool_open` returns, on any host: slot 0 and entry 0 are written, the
other slots and entries are as the host handed them out. -/
theorem mem_pool_open_eq (h : host_t) (size : Nat) (policy : alloc_policy) :
    mem_pool_open h size policy =
      { pool := { mem := some 0, policy := policy, total_size := size, alloc_size := 0,
                  num_allocs := 0, num_gaps := 1 }
        node_heap := ⟨⟨0, size⟩, 1, 0, none, none⟩ ::
          (List.range 39).map (fun i => h.node_junk (i + 1))
        heap_at := 0
        total_nodes := 40
        used_nodes := 1
        gap_ix := ⟨size, some 0⟩ :: (List.range 39).map (fun i => h.gap_junk (i + 1))
        gap_ix_capacity := 40 } := rfl

theorem reachable_facts {p : pool_mgr_t} (hr : Reachable p) :
    p.pool.mem = some 0 ∧ p.node_heap.length = p.total_nodes := by
  induction hr with
  | opened h size policy =>
    rw [mem_pool_open_eq]
    exact ⟨rfl, by simp⟩
  | new_alloc h p k q r _ e ih =>
    obtain ⟨h1, _, _, h4, _, _⟩ := new_alloc_grown e
    exact ⟨h1.trans ih.1, h4 ih.2⟩
  | del_alloc h p a q st _ e ih =>
    have hg := del_alloc_grown e
    exact ⟨hg.mem.trans ih.1, by rw [hg.heap_len, hg.nodes]; exact ih.2⟩

theorem reachable_of_on {H : host_t → Prop} {K : Nat → Prop} {size : Nat}
    {policy : alloc_policy} {p : pool_mgr_t} (hr : ReachableOn H K size policy p) :
    Reachable p := by
  induction hr with
  | opened h _ => exact Reachable.opened h size policy
  | new_alloc h p k q r _ _ _ e ih => exact Reachable.new_alloc h p k q r ih e
  | del_alloc h p a q st _ _ _ e ih => exact Reachable.del_alloc h p a q st ih e

theorem reach_mono {H : host_t → Prop} {K : Nat → Prop} {size : Nat}
    {policy : alloc_policy} {p : pool_mgr_t} (K2 : Nat → Prop) (hK : ∀ k, K k → K2 k)
    (hr : ReachableOn H K size policy p) : ReachableOn H K2 size policy p := by
  induction hr with
  | opened h hh => exact ReachableOn.opened h hh
  | new_alloc h p k q r hh _ hk e ih => exact ReachableOn.new_alloc h p k q r hh ih (hK k hk) e
  | del_alloc h p a q st hh _ hl e ih => exact ReachableOn.del_alloc h p a q st hh ih hl e

theorem reach_alloc {H : host_t → Prop} {K : Nat → Prop} {size : Nat} {policy : alloc_policy}
    {p : pool_mgr_t} (hr : ReachableOn H K size policy p) (h : host_t) (hh : H h) (k : Nat)
    (hk : K k) (hd : (mem_new_alloc h p k).isSome = true) :
    ReachableOn H K size policy (after_alloc h p k) := by
  unfold after_alloc pool_after
  cases e : mem_new_alloc h p k with
  | none => rw [e] at hd; cases hd
  | some r =>
    obtain ⟨q, x⟩ := r
    exact ReachableOn.new_alloc h p k q x hh hr hk e

theorem reach_free {H : host_t → Prop} {K : Nat → Prop} {size : Nat} {policy : alloc_policy}
    {p : pool_mgr_t} (hr : ReachableOn H K size policy p) (h : host_t) (hh : H h) (a : Nat)
    (hl : live p a) (hd : (mem_del_alloc h p a).isSome = true) :
    ReachableOn H K size policy (after_free h p a) := by
  unfold after_free pool_after
  cases e : mem_del_alloc h p a with
  | none => rw [e] at hd; cases hd
  | some r =>
    obtain ⟨q, x⟩ := r
    exact ReachableOn.del_alloc h p a q x hh hr hl e

theorem scenario_holes_reachable :
    ReachableOn benign (fun k => 0 < k) 100 alloc_policy.FIRST_FIT scenario_holes :=
  reach_free
    (reach_alloc
      (reach_alloc
        (reach_alloc (ReachableOn.opened host_zero benign_zero) host_zero benign_zero 10
          (by decide) (by decide))
        host_zero benign_zero 10 (by decide) (by decide))
      host_zero benign_zero 75 (by decide) (by decide))
    host_zero benign_zero 1 ⟨1, by decide, by decide, by decide, by decide⟩ (by decide)

theorem scenario_split_reachable :
    ReachableOn benign (fun k => 0 < k) 100 alloc_policy.FIRST_FIT scenario_split :=
  reach_alloc scenario_holes_reachable host_zero benign_zero 5 (by decide) (by decide)

theorem scenario_freed_reachable :
    ReachableOn benign (fun k => 0 < k) 100 alloc_policy.FIRST_FIT scenario_freed :=
  reach_free
    (reach_alloc (ReachableOn.opened host_zero benign_zero) host_zero benign_zero 10
      (by decide) (by decide))
    host_zero benign_zero 0 ⟨0, by decide, by decide, by decide, by decide⟩ (by decide)

theorem scenario_whole_reachable :
    ReachableOn benign (fun k => 0 < k) 100 alloc_policy.FIRST_FIT scenario_whole :=
  reach_alloc (ReachableOn.opened host_zero benign_zero) host_zero benign_zero 100
    (by decide) (by decide)

theorem reach_alloc_many {H : host_t → Prop} {K : Nat → Prop} {size : Nat}
    {policy : alloc_policy} (h : host_t) (hh : H h) (hk : K 1) :
    ∀ (n : Nat) (p : pool_mgr_t), ReachableOn H K size policy p →
      (∀ r ∈ alloc_handles h n p, r ≠ none) → ReachableOn H K size policy (alloc_many h n p)
  | 0, _, hr, _ => hr
  | n + 1, p, hr, hd => by
    have h1 : (mem_new_alloc h p 1).isSome = true := by
      have := hd ((mem_new_alloc h p 1).map (fun r => r.2)) (by simp [alloc_handles])
      cases e : mem_new_alloc h p 1 with
      | none => rw [e] at this; exact absurd rfl this
      | some _ => rfl
    exact reach_alloc_many h hh hk n _ (reach_alloc hr h hh 1 hk h1)
      (fun r hr2 => hd r (by simp only [alloc_handles, List.mem_cons]; exact Or.inr hr2))

set_option maxRecDepth 100000 in
theorem alloc_handles_thirty :
    alloc_handles host_moving 30 (mem_pool_open host_moving 100 alloc_policy.FIRST_FIT)
      = (List.range 30).map (fun i => some (some i)) := by decide

set_option maxRecDepth 100000 in
theorem alloc_handles_best_thirty :
    alloc_handles host_moving 30 (mem_pool_open host_moving 100 alloc_policy.BEST_FIT)
      = (List.range 30).map (fun i => some (some i)) := by decide

theorem scenario_thirty_reachable :
    ReachableOn (fun _ => True) (fun k => 0 < k) 100 alloc_policy.FIRST_FIT scenario_thirty :=
  reach_alloc_many host_moving trivial (by decide) 30 _ (ReachableOn.opened host_moving trivial)
    (by
      rw [alloc_handles_thirty]
      intro r hr
      simp only [List.mem_map] at hr
      obtain ⟨i, _, rfl⟩ := hr
      simp)

theorem scenario_best_thirty_reachable :
    ReachableOn (fun _ => True) (fun k => 0 < k) 100 alloc_policy.BEST_FIT
      scenario_best_thirty :=
  reach_alloc_many host_moving trivial (by decide) 30 _ (ReachableOn.opened host_moving trivial)
    (by
      rw [alloc_handles_best_thirty]
      intro r hr
      simp only [List.mem_map] at hr
      obtain ⟨i, _, rfl⟩ := hr
      simp)

set_option maxRecDepth 100000 in
theorem scenario_moved_reachable :
    ReachableOn (fun _ => True) (fun k => 0 < k) 100 alloc_policy.FIRST_FIT scenario_moved :=
  reach_alloc scenario_thirty_reachable host_moving trivial 1 (by decide) (by decide)

set_option maxRecDepth 100000 in
theorem scenario_refill_reachable :
    ReachableOn (fun _ => True) (fun k => 0 < k) 100 alloc_policy.FIRST_FIT scenario_refill :=
  reach_alloc
    (reach_free scenario_thirty_reachable host_moving trivial 5
      ⟨5, by decide, by decide, by decide, by decide⟩ (by decide))
    host_moving trivial 1 (by decide) (by decide)

theorem scenario_filled_reachable :
    ReachableOn (fun _ => True) (fun k => 0 < k) 100 alloc_policy.FIRST_FIT scenario_filled :=
  reach_alloc (ReachableOn.opened host_filled trivial) host_filled trivial 10 (by decide)
    (by decide)

/-! ## The gap index on any host -/

theorem take_realloc_le {α : Type} (xs : List α) (n k : Nat) (junk : Nat → α)
    (hn : xs.length ≤ n) (hk : k ≤ xs.length) : (realloc xs n junk).take k = xs.take k := by
  simp only [realloc]
  rw [List.take_of_length_le hn, List.take_append_of_le_length hk]

/-- The function `_mem_add_to_gap_ix` on any host and any gap index of capacity
`gap_ix_capacity > 0` that holds `num_gaps <= gap_ix_capacity` entries: the new entry is
inserted among the old ones, which keep their order. -/
theorem add_insert (h : host_t) (p : pool_mgr_t) (sz : Nat) (x : Option Nat)
    (hlen : p.gap_ix.length = p.gap_ix_capacity) (hn : p.pool.num_gaps ≤ p.gap_ix_capacity)
    (hc : 0 < p.gap_ix_capacity) :
    ∃ g c, _mem_add_to_gap_ix h p sz x =
        ({ p with gap_ix := g, gap_ix_capacity := c,
                  pool := { p.pool with num_gaps := p.pool.num_gaps + 1 } },
          alloc_status.ALLOC_OK) ∧
      g.length = c ∧ p.pool.num_gaps < c ∧
      ∃ F1 F2, live_gaps p = F1 ++ F2 ∧ g.take (p.pool.num_gaps + 1) = F1 ++ ⟨sz, x⟩ :: F2 ∧
        (∀ y ∈ F2, swaps ⟨sz, x⟩ y) ∧ (∀ y, F1.getLast? = some y → ¬ swaps ⟨sz, x⟩ y) := by
  have hres : ∃ g1 c1, _mem_resize_gap_ix h p =
      ({ p with gap_ix := g1, gap_ix_capacity := c1 }, alloc_status.ALLOC_OK) ∧
      g1.length = c1 ∧ p.pool.num_gaps < c1 ∧
      g1.take p.pool.num_gaps = live_gaps p := by
    unfold _mem_resize_gap_ix
    by_cases hf : fill_exceeded p.pool.num_gaps p.gap_ix_capacity = true
    · rw [if_pos hf]
      refine ⟨_, _, rfl, ?_, ?_, ?_⟩
      · exact length_realloc _ _ _
      · simp only [MEM_GAP_IX_EXPAND_FACTOR]; omega
      · exact take_realloc_le _ _ _ _
          (by rw [hlen]; simp only [MEM_GAP_IX_EXPAND_FACTOR]; omega) (by omega)
    · rw [if_neg hf]
      refine ⟨p.gap_ix, p.gap_ix_capacity, rfl, hlen, ?_, rfl⟩
      have : ¬ 3 * p.gap_ix_capacity < 4 * p.pool.num_gaps := by
        simpa [fill_exceeded] using hf
      omega
  obtain ⟨g1, c1, hr, hl1, hlt1, ht1⟩ := hres
  have hn1 : p.pool.num_gaps < g1.length := by omega
  obtain ⟨r, T, hg, hlen2⟩ := split_at_lt g1 p.pool.num_gaps hn1
  rw [ht1] at hg hlen2
  obtain ⟨F1, F2, hF, hsort, hb, hl⟩ := sort_loop_spec (live_gaps p) T ⟨sz, x⟩
  refine ⟨F1 ++ ⟨sz, x⟩ :: (F2 ++ T), c1, ?_, ?_, hlt1, F1, F2, hF, ?_, hb, hl⟩
  · unfold _mem_add_to_gap_ix _mem_sort_gap_ix
    simp only [hr]
    have h1 : g1.set p.pool.num_gaps ⟨sz, x⟩ = live_gaps p ++ ⟨sz, x⟩ :: T := by
      conv_lhs => rw [hg, ← hlen2]
      rw [set_length_cons]
    simp only [h1, Nat.add_sub_cancel]
    have h5 : sort_loop (live_gaps p ++ ⟨sz, x⟩ :: T) p.pool.num_gaps
        = F1 ++ ⟨sz, x⟩ :: (F2 ++ T) := by
      rw [← hsort, hlen2]
    rw [h5]
  · have : (F1 ++ ⟨sz, x⟩ :: (F2 ++ T)).length = g1.length := by
      conv_rhs => rw [hg, hF]
      simp only [List.length_append, List.length_cons]
      omega
    omega
  · have h2 : F1 ++ ⟨sz, x⟩ :: (F2 ++ T) = (F1 ++ ⟨sz, x⟩ :: F2) ++ T := by simp
    have h3 : p.pool.num_gaps + 1 = (F1 ++ (⟨sz, x⟩ : gap_t) :: F2).length := by
      rw [← hlen2, hF]; simp; omega
    rw [h2, h3, List.take_left]

/-! ## The pool store -/

theorem open_store_null (h : host_t) (s : store_t) (mgr size : Nat) (policy : alloc_policy)
    (hs : s.pool_store = none) :
    mem_pool_open_store h s mgr size policy = some (s, none) := by
  unfold mem_pool_open_store
  rw [hs]

theorem resize_pool_store_full (h : host_t) (s : store_t)
    (hfill : fill_exceeded s.pool_store_size s.pool_store_capacity = true) :
    _mem_resize_pool_store h s =
      ({ pool_store := none
         pool_store_size := s.pool_store_size
         pool_store_capacity := s.pool_store_capacity * 2 }, alloc_status.ALLOC_OK) := by
  unfold _mem_resize_pool_store
  rw [hfill]
  rfl

/-- On any host, once the fill factor of the initialised pool store is exceeded,
`mem_pool_open` writes through the `NULL` that `_mem_resize_pool_store` left in
`pool_store`. -/
theorem open_store_full (h : host_t) (s : store_t) (mgr size : Nat) (policy : alloc_policy)
    (hs : s.pool_store ≠ none)
    (hfill : fill_exceeded s.pool_store_size s.pool_store_capacity = true) :
    mem_pool_open_store h s mgr size policy = none := by
  unfold mem_pool_open_store
  cases hst : s.pool_store with
  | none => exact absurd hst hs
  | some st =>
    simp only [resize_pool_store_full h s hfill]

/-- While the fill factor of the pool store is not exceeded, on any host, `mem_pool_open`
returns a pool that is one free segment `[0, size)` in slot 0, and records it in the next
entry of the store. -/
theorem open_store_returns (h : host_t) (s : store_t) (st : List (Option Nat))
    (mgr size : Nat) (policy : alloc_policy) (hs : s.pool_store = some st)
    (hfill : fill_exceeded s.pool_store_size s.pool_store_capacity = false)
    (hroom : s.pool_store_size < st.length) :
    mem_pool_open_store h s mgr size policy =
      some ({ s with
              pool_store := some (st.set s.pool_store_size (some mgr))
              pool_store_size := s.pool_store_size + 1 },
            some (mgr, mem_pool_open h size policy)) ∧
    seg_list (mem_pool_open h size policy) = some [0] ∧
    nodeAt (mem_pool_open h size policy).node_heap 0 = ⟨⟨0, size⟩, 1, 0, none, none⟩ ∧
    live_gaps (mem_pool_open h size policy) = [⟨size, some 0⟩] ∧
    (mem_pool_open h size policy).pool = ⟨some 0, policy, size, 0, 0, 1⟩ ∧
    (mem_pool_open h size policy).used_nodes = 1 ∧
    (mem_pool_open h size policy).total_nodes = 40 ∧
    (mem_pool_open h size policy).gap_ix_capacity = 40 := by
  refine ⟨?_, rfl, rfl, rfl, rfl, rfl, rfl, rfl⟩
  have hres : _mem_resize_pool_store h s = (s, alloc_status.ALLOC_OK) := by
    unfold _mem_resize_pool_store
    rw [hfill]
    rfl
  unfold mem_pool_open_store
  rw [hs]
  simp only [hres, hs, hroom, if_true]

/-! ## The program on a host that clears memory and never moves a block

On such a host, in a state whose pointers all point into the node heap, every call is
defined and computes what the functions of the section `Ideal` compute, for which the
representation invariant is proved. -/

theorem ptr_ok_none (n : Nat) : ptr_ok n none := fun _ h => by cases h

theorem ptr_ok_some {n a : Nat} (h : a < n) : ptr_ok n (some a) := fun b e => by
  cases e; exact h

theorem closedN_set {n : Nat} {h : List node_t} (hc : closedN n h) (i : Nat) (x : node_t)
    (h1 : ptr_ok n x.next) (h2 : ptr_ok n x.prev) : closedN n (h.set i x) := by
  refine ⟨by rw [List.length_set]; exact hc.1, fun j => ?_⟩
  rw [nodeAt_set_if]
  split
  · exact ⟨h1, h2⟩
  · exact hc.2 j

theorem slot_at_zero {n : Nat} {h : List node_t} (hc : closedN n h) {a : Nat} (ha : a < n) :
    slot_at 0 h a = some a := by
  unfold slot_at
  rw [if_pos ⟨Nat.zero_le _, by rw [hc.1]; omega⟩]
  rfl

theorem realloc_benign {α : Type} (xs : List α) (n : Nat) (junk : Nat → α) (z : α)
    (hz : ∀ i, junk i = z) : realloc xs n junk = Ideal.realloc xs n z := by
  unfold realloc Ideal.realloc
  congr 1
  rw [List.eq_replicate_iff]
  refine ⟨by simp, fun b hb => ?_⟩
  simp only [List.mem_map] at hb
  obtain ⟨i, _, rfl⟩ := hb
  exact hz _

theorem split_link_bridge {n : Nat} {h : List node_t} (hc : closedN n h) (my un r : Nat) :
    split_link 0 h my un r = some (Ideal.split_link h my un r) := by
  unfold split_link Ideal.split_link
  simp only [Nat.zero_add]
  have c1 := closedN_set hc un
    { nodeAt h un with
      used := 1
      allocated := 0
      alloc_record := ⟨(nodeAt h my).alloc_record.mem + (nodeAt h my).alloc_record.size, r⟩ }
    (hc.2 un).1 (hc.2 un).2
  cases hn : (nodeAt (h.set un
    { nodeAt h un with
      used := 1
      allocated := 0
      alloc_record := ⟨(nodeAt h my).alloc_record.mem + (nodeAt h my).alloc_record.size, r⟩ })
      my).next with
  | none => rfl
  | some nxp =>
    have hs := slot_at_zero c1 ((c1.2 my).1 nxp hn)
    simp only [hs]
    rfl
theorem split_link_closed {n : Nat} {h : List node_t} (hc : closedN n h) {my un : Nat}
    (hm : my < n) (hu : un < n) (r : Nat) : closedN n (Ideal.split_link h my un r) := by
  unfold Ideal.split_link
  lift_lets
  extract_lets m0 s0 u0 h1 h2 s2 h3 s3 h4 s4
  have c1 : closedN n h1 := closedN_set hc _ _ (hc.2 un).1 (hc.2 un).2
  have c2 : closedN n h2 := by
    unfold h2
    split
    · exact closedN_set c1 _ _ (c1.2 _).1 (ptr_ok_some hu)
    · exact c1
  have c3 : closedN n h3 := closedN_set c2 _ _ (c2.2 my).1 (c2.2 un).2
  have c4 : closedN n h4 := closedN_set c3 _ _ (ptr_ok_some hu) (c3.2 my).2
  exact closedN_set c4 _ _ (c4.2 un).1 (ptr_ok_some hm)

theorem merge_next_link_closed {n : Nat} {h : List node_t} (hc : closedN n h)
    (node nx : Nat) : closedN n (Ideal.merge_next_link h node nx) := by
  unfold Ideal.merge_next_link
  lift_lets
  extract_lets nd s0 nd1 h1 s1 h2 s2 h3 s3 h4 s4
  have c1 : closedN n h1 := closedN_set hc _ _ (hc.2 node).1 (hc.2 node).2
  have c2 : closedN n h2 := closedN_set c1 _ _ (c1.2 nx).1 (c1.2 nx).2
  have c3 : closedN n h3 := by
    unfold h3
    split
    · rename_i nn _
      have c3a := closedN_set c2 nn { nodeAt h2 nn with prev := (nodeAt h2 nx).prev }
        (c2.2 nn).1 (c2.2 nx).2
      exact closedN_set c3a _ _ (c3a.2 nx).1 (c3a.2 node).2
    · exact closedN_set c2 _ _ (ptr_ok_none n) (c2.2 node).2
  have c4 : closedN n h4 := closedN_set c3 _ _ (ptr_ok_none n) (c3.2 nx).2
  exact closedN_set c4 _ _ (c4.2 nx).1 (ptr_ok_none n)

theorem merge_next_link_bridge {n : Nat} {h : List node_t} (hc : closedN n h)
    (node nx : Nat) :
    merge_next_link 0 h node nx = some (Ideal.merge_next_link h node nx) := by
  unfold merge_next_link Ideal.merge_next_link
  lift_lets
  extract_lets nd s0 nd1 h1 s1 h2
  have c1 : closedN n h1 := closedN_set hc _ _ (hc.2 node).1 (hc.2 node).2
  have c2 : closedN n h2 := closedN_set c1 _ _ (c1.2 nx).1 (c1.2 nx).2
  cases hn : (nodeAt h2 nx).next with
  | none => simp only [hn]; rfl
  | some nn =>
    have hs := slot_at_zero c2 ((c2.2 nx).1 nn hn)
    simp only [hn, hs]
    rfl

theorem merge_prev_link_closed {n : Nat} {h : List node_t} (hc : closedN n h)
    (node pv : Nat) (hp : pv < n) : closedN n (Ideal.merge_prev_link h node pv) := by
  unfold Ideal.merge_prev_link
  lift_lets
  extract_lets p0 s0 pv1 h1 s1 h2 s2 h3 s3 h4 s4
  have c1 : closedN n h1 := closedN_set hc _ _ (hc.2 pv).1 (hc.2 pv).2
  have c2 : closedN n h2 := closedN_set c1 _ _ (c1.2 node).1 (c1.2 node).2
  have c3 : closedN n h3 := by
    unfold h3
    split
    · rename_i nxp hnx
      have hlt : nxp < n := (c2.2 node).1 nxp hnx
      have c3a := closedN_set c2 pv { nodeAt h2 pv with next := some nxp } (ptr_ok_some hlt)
        (c2.2 pv).2
      exact closedN_set c3a _ _ (c3a.2 nxp).1 (ptr_ok_some hp)
    · exact closedN_set c2 _ _ (ptr_ok_none n) (c2.2 pv).2
  have c4 : closedN n h4 := closedN_set c3 _ _ (ptr_ok_none n) (c3.2 node).2
  exact closedN_set c4 _ _ (c4.2 node).1 (ptr_ok_none n)

theorem merge_prev_link_bridge {n : Nat} {h : List node_t} (hc : closedN n h)
    (node pv : Nat) :
    merge_prev_link 0 h node pv = some (Ideal.merge_prev_link h node pv) := by
  unfold merge_prev_link Ideal.merge_prev_link
  lift_lets
  extract_lets p0 s0 pv1 h1 s1 h2
  have c1 : closedN n h1 := closedN_set hc _ _ (hc.2 pv).1 (hc.2 pv).2
  have c2 : closedN n h2 := closedN_set c1 _ _ (c1.2 node).1 (c1.2 node).2
  cases hn : (nodeAt h2 node).next with
  | none => simp only [hn]; rfl
  | some nxp =>
    have hlt : nxp < n := (c2.2 node).1 nxp hn
    have c3a := closedN_set c2 pv { nodeAt h2 pv with next := some nxp } (ptr_ok_some hlt)
      (c2.2 pv).2
    have hs := slot_at_zero c3a hlt
    simp only [hn, hs, Nat.zero_add]
    rfl
theorem remove_ok (p : pool_mgr_t) (sz : Nat) (x : Option Nat) :
    (_mem_remove_from_gap_ix p sz x).2 = alloc_status.ALLOC_OK := by
  unfold _mem_remove_from_gap_ix
  simp only
  split
  · rename_i hpos
    split at hpos
    · omega
    · omega
  · rfl

theorem remove_frame (p : pool_mgr_t) (sz : Nat) (x : Option Nat) :
    (_mem_remove_from_gap_ix p sz x).1.node_heap = p.node_heap ∧
    (_mem_remove_from_gap_ix p sz x).1.heap_at = p.heap_at ∧
    (_mem_remove_from_gap_ix p sz x).1.total_nodes = p.total_nodes := by
  unfold _mem_remove_from_gap_ix
  simp only
  split
  · exact ⟨rfl, rfl, rfl⟩
  · exact ⟨rfl, rfl, rfl⟩

theorem resize_gap_ix_bridge {h : host_t} (hb : benign h) (p : pool_mgr_t) :
    _mem_resize_gap_ix h p = Ideal._mem_resize_gap_ix p := by
  unfold _mem_resize_gap_ix Ideal._mem_resize_gap_ix
  split
  · simp only [realloc_benign _ _ h.gap_junk zero_gap hb.2.2]
  · rfl

theorem add_bridge {h : host_t} (hb : benign h) (p : pool_mgr_t) (sz : Nat) (x : Option Nat) :
    _mem_add_to_gap_ix h p sz x = Ideal._mem_add_to_gap_ix p sz x := by
  unfold _mem_add_to_gap_ix Ideal._mem_add_to_gap_ix
  rw [resize_gap_ix_bridge hb]

theorem add_frame (p : pool_mgr_t) (sz : Nat) (x : Option Nat) :
    (Ideal._mem_add_to_gap_ix p sz x).1.node_heap = p.node_heap ∧
    (Ideal._mem_add_to_gap_ix p sz x).1.heap_at = p.heap_at ∧
    (Ideal._mem_add_to_gap_ix p sz x).1.total_nodes = p.total_nodes ∧
    (Ideal._mem_add_to_gap_ix p sz x).2 = alloc_status.ALLOC_OK := by
  unfold Ideal._mem_add_to_gap_ix _mem_sort_gap_ix Ideal._mem_resize_gap_ix
  refine ⟨?_, ?_, ?_, ?_⟩ <;> split <;> rfl

theorem resize_node_heap_bridge {h : host_t} (hb : benign h) (p : pool_mgr_t) :
    _mem_resize_node_heap h p = Ideal._mem_resize_node_heap p := by
  unfold _mem_resize_node_heap Ideal._mem_resize_node_heap
  split
  · simp only [hb.1, realloc_benign _ _ _ zero_node (fun i => hb.2.1 _)]
  · rfl

theorem open_bridge {h : host_t} (hb : benign h) (size : Nat) (policy : alloc_policy) :
    mem_pool_open h size policy = Ideal.mem_pool_open size policy := by
  rw [mem_pool_open_eq, Ideal.mem_pool_open_eq_ideal]
  have h1 : (List.range 39).map (fun i => h.node_junk (i + 1)) = List.replicate 39 zero_node := by
    rw [List.eq_replicate_iff]
    refine ⟨by simp, fun b hb2 => ?_⟩
    simp only [List.mem_map] at hb2
    obtain ⟨i, _, rfl⟩ := hb2
    exact hb.2.1 _
  have h2 : (List.range 39).map (fun i => h.gap_junk (i + 1)) = List.replicate 39 zero_gap := by
    rw [List.eq_replicate_iff]
    refine ⟨by simp, fun b hb2 => ?_⟩
    simp only [List.mem_map] at hb2
    obtain ⟨i, _, rfl⟩ := hb2
    exact hb.2.2 _
  rw [h1, h2]

theorem select_node_bridge (p : pool_mgr_t) (h0 : p.heap_at = 0) (k : Nat) :
    select_node p k = Ideal.select_node p k := by
  unfold select_node Ideal.select_node
  cases p.pool.policy with
  | FIRST_FIT =>
    simp only [h0, Nat.zero_add]
    exact Option.map_id'
  | BEST_FIT => rfl

theorem closedN_realloc {n : Nat} {h : List node_t} (hc : closedN n h) {t : Nat} (ht : n ≤ t) :
    closedN t (Ideal.realloc h t zero_node) := by
  have hl : h.length ≤ t := by rw [hc.1]; exact ht
  refine ⟨Ideal.length_realloc_ideal hl, fun i => ?_⟩
  rw [Ideal.nodeAt_realloc hl]
  exact ⟨fun a e => lt_of_lt_of_le ((hc.2 i).1 a e) ht,
    fun a e => lt_of_lt_of_le ((hc.2 i).2 a e) ht⟩
theorem new_alloc_split_bridge {h : host_t} (hb : benign h) {p4 : pool_mgr_t}
    (h0 : p4.heap_at = 0) (hc : closedN p4.total_nodes p4.node_heap) (S r : Nat)
    (hS : S < p4.total_nodes) :
    new_alloc_split h p4 S r = some (Ideal.new_alloc_split p4 S r) ∧
    closedN (Ideal.new_alloc_split p4 S r).1.total_nodes
      (Ideal.new_alloc_split p4 S r).1.node_heap ∧
    (Ideal.new_alloc_split p4 S r).1.heap_at = 0 := by
  unfold new_alloc_split Ideal.new_alloc_split
  cases hs : scan (fun i => decide ((nodeAt p4.node_heap i).used = 0)) p4.total_nodes 0 with
  | none => exact ⟨rfl, hc, h0⟩
  | some un =>
    have hu : un < p4.total_nodes := by have := (scan_some hs).2; omega
    have hfr := add_frame
      { p4 with
        node_heap := Ideal.split_link p4.node_heap S un r
        used_nodes := p4.used_nodes + 1 } r (some un)
    have e1 : p4.heap_at + un = un := by omega
    have e2 : p4.heap_at + S = S := by omega
    have e3 : split_link p4.heap_at p4.node_heap S un r
        = some (Ideal.split_link p4.node_heap S un r) := by
      rw [h0]; exact split_link_bridge hc S un r
    simp only [e1, e2, e3, add_bridge hb, hfr.2.2.2, ne_eq, not_true_eq_false, if_false]
    refine ⟨trivial, ?_, ?_⟩
    · rw [hfr.1, hfr.2.2.1]
      exact split_link_closed hc hS hu r
    · rw [hfr.2.1]
      exact h0

theorem place_tail {h : host_t} (hb : benign h) {p4 : pool_mgr_t}
    (h0 : p4.heap_at = 0) (hc : closedN p4.total_nodes p4.node_heap) (S r : Nat)
    (hS : S < p4.total_nodes) :
    (if 0 < r then new_alloc_split h p4 S r else some (p4, some S))
      = some (if 0 < r then Ideal.new_alloc_split p4 S r else (p4, some S)) ∧
    closedN (if 0 < r then Ideal.new_alloc_split p4 S r else (p4, some S)).1.total_nodes
      (if 0 < r then Ideal.new_alloc_split p4 S r else (p4, some S)).1.node_heap ∧
    (if 0 < r then Ideal.new_alloc_split p4 S r else (p4, some S)).1.heap_at = 0 := by
  by_cases hr : 0 < r
  · simp only [hr, if_true]
    exact new_alloc_split_bridge hb h0 hc S r hS
  · simp only [hr, if_false]
    exact ⟨trivial, hc, h0⟩

theorem new_alloc_place_bridge {h : host_t} (hb : benign h) {p1 : pool_mgr_t}
    (h0 : p1.heap_at = 0) (hc : closedN p1.total_nodes p1.node_heap) (k : Nat)
    (hsel : ∀ S, Ideal.select_node p1 k = some S → S < p1.total_nodes) :
    new_alloc_place h p1 k = some (Ideal.new_alloc_place p1 k) ∧
    closedN (Ideal.new_alloc_place p1 k).1.total_nodes
      (Ideal.new_alloc_place p1 k).1.node_heap ∧
    (Ideal.new_alloc_place p1 k).1.heap_at = 0 := by
  unfold new_alloc_place Ideal.new_alloc_place
  rw [select_node_bridge p1 h0]
  cases hs : Ideal.select_node p1 k with
  | none => exact ⟨rfl, hc, h0⟩
  | some S =>
    have hS := hsel S hs
    have hsl : slot_at p1.heap_at p1.node_heap S = some S := by
      rw [h0]; exact slot_at_zero hc hS
    simp only [hsl]
    refine place_tail hb ?_ ?_ S _ ?_
    · exact (remove_frame _ _ _).2.1.trans h0
    · show closedN (_mem_remove_from_gap_ix _ _ _).1.total_nodes
        ((_mem_remove_from_gap_ix _ _ _).1.node_heap.set S _)
      rw [(remove_frame _ _ _).2.2, (remove_frame _ _ _).1]
      exact closedN_set hc _ _ (hc.2 S).1 (hc.2 S).2
    · show S < (_mem_remove_from_gap_ix _ _ _).1.total_nodes
      rw [(remove_frame _ _ _).2.2]
      exact hS

theorem new_alloc_bridge {h : host_t} (hb : benign h) {p : pool_mgr_t} {L : List Nat}
    (w : WFh p L none) (h0 : p.heap_at = 0) (hc : closedN p.total_nodes p.node_heap)
    (k : Nat) :
    mem_new_alloc h p k = some (Ideal.mem_new_alloc p k) ∧
    closedN (Ideal.mem_new_alloc p k).1.total_nodes (Ideal.mem_new_alloc p k).1.node_heap ∧
    (Ideal.mem_new_alloc p k).1.heap_at = 0 := by
  obtain ⟨p1, hres, w1, _, _, _, _, _, ht, _⟩ := Ideal.resize_node_heap_state w
  have h01 : p1.heap_at = 0 := by
    have : p1 = (Ideal._mem_resize_node_heap p).1 := by rw [hres]
    rw [this]
    unfold Ideal._mem_resize_node_heap
    split <;> exact h0
  have hc1 : closedN p1.total_nodes p1.node_heap := by
    have : p1 = (Ideal._mem_resize_node_heap p).1 := by rw [hres]
    rw [this]
    unfold Ideal._mem_resize_node_heap
    split
    · exact closedN_realloc hc (by simp only [MEM_NODE_HEAP_EXPAND_FACTOR]; omega)
    · exact hc
  have hsel : ∀ S, Ideal.select_node p1 k = some S → S < p1.total_nodes :=
    fun S hs => w1.bound S (Ideal.select_node_some w1 hs).1
  unfold mem_new_alloc Ideal.mem_new_alloc
  split
  · exact ⟨rfl, hc, h0⟩
  · rw [resize_node_heap_bridge hb, hres]
    simp only [ne_eq, not_true_eq_false, if_false]
    split
    · exact ⟨rfl, hc1, h01⟩
    · exact new_alloc_place_bridge hb h01 hc1 k hsel
theorem del_merge_next_bridge {p1 : pool_mgr_t} (h0 : p1.heap_at = 0)
    (hc : closedN p1.total_nodes p1.node_heap) (node : Nat) :
    ∃ p2, Ideal.del_merge_next p1 node = some p2 ∧
      del_merge_next p1 node = some (p2, alloc_status.ALLOC_OK) ∧
      closedN p2.total_nodes p2.node_heap ∧ p2.heap_at = 0 ∧
      p2.total_nodes = p1.total_nodes := by
  unfold del_merge_next Ideal.del_merge_next
  cases hn : (nodeAt p1.node_heap node).next with
  | none => exact ⟨p1, rfl, rfl, hc, h0, rfl⟩
  | some nxp =>
    have hlt := (hc.2 node).1 nxp hn
    have hsl : slot_at p1.heap_at p1.node_heap nxp = some nxp := by
      rw [h0]; exact slot_at_zero hc hlt
    simp only [hsl]
    by_cases hf : (nodeAt p1.node_heap nxp).allocated = 0
    · have hfr := remove_frame p1 (nodeAt p1.node_heap nxp).alloc_record.size (some nxp)
      have hml : merge_next_link
          (_mem_remove_from_gap_ix p1 (nodeAt p1.node_heap nxp).alloc_record.size
            (some nxp)).1.heap_at
          (_mem_remove_from_gap_ix p1 (nodeAt p1.node_heap nxp).alloc_record.size
            (some nxp)).1.node_heap node nxp
          = some (Ideal.merge_next_link
            (_mem_remove_from_gap_ix p1 (nodeAt p1.node_heap nxp).alloc_record.size
              (some nxp)).1.node_heap node nxp) := by
        rw [hfr.2.1, hfr.1, h0]
        exact merge_next_link_bridge hc node nxp
      simp only [hf, if_true, remove_ok, ne_eq, not_true_eq_false, if_false, hml]
      refine ⟨_, rfl, rfl, ?_, hfr.2.1.trans h0, hfr.2.2⟩
      show closedN (_mem_remove_from_gap_ix _ _ _).1.total_nodes
        (Ideal.merge_next_link (_mem_remove_from_gap_ix _ _ _).1.node_heap node nxp)
      rw [hfr.2.2, hfr.1]
      exact merge_next_link_closed hc node nxp
    · simp only [hf, if_false]
      exact ⟨p1, rfl, rfl, hc, h0, rfl⟩

theorem del_merge_prev_bridge {p2 : pool_mgr_t} (h0 : p2.heap_at = 0)
    (hc : closedN p2.total_nodes p2.node_heap) (node : Nat) :
    ∃ p3 node1, Ideal.del_merge_prev p2 node = some (p3, node1) ∧
      del_merge_prev p2 node = some (p3, node1, alloc_status.ALLOC_OK) ∧
      closedN p3.total_nodes p3.node_heap ∧ p3.heap_at = 0 ∧
      p3.total_nodes = p2.total_nodes := by
  unfold del_merge_prev Ideal.del_merge_prev
  cases hn : (nodeAt p2.node_heap node).prev with
  | none => exact ⟨p2, node, rfl, rfl, hc, h0, rfl⟩
  | some pvp =>
    have hlt := (hc.2 node).2 pvp hn
    have hsl : slot_at p2.heap_at p2.node_heap pvp = some pvp := by
      rw [h0]; exact slot_at_zero hc hlt
    simp only [hsl]
    by_cases hf : (nodeAt p2.node_heap pvp).allocated = 0
    · have hfr := remove_frame p2 (nodeAt p2.node_heap pvp).alloc_record.size (some pvp)
      have hml : merge_prev_link
          (_mem_remove_from_gap_ix p2 (nodeAt p2.node_heap pvp).alloc_record.size
            (some pvp)).1.heap_at
          (_mem_remove_from_gap_ix p2 (nodeAt p2.node_heap pvp).alloc_record.size
            (some pvp)).1.node_heap node pvp
          = some (Ideal.merge_prev_link
            (_mem_remove_from_gap_ix p2 (nodeAt p2.node_heap pvp).alloc_record.size
              (some pvp)).1.node_heap node pvp) := by
        rw [hfr.2.1, hfr.1, h0]
        exact merge_prev_link_bridge hc node pvp
      simp only [hf, if_true, remove_ok, ne_eq, not_true_eq_false, if_false, hml]
      refine ⟨_, _, rfl, rfl, ?_, hfr.2.1.trans h0, hfr.2.2⟩
      show closedN (_mem_remove_from_gap_ix _ _ _).1.total_nodes
        (Ideal.merge_prev_link (_mem_remove_from_gap_ix _ _ _).1.node_heap node pvp)
      rw [hfr.2.2, hfr.1]
      exact merge_prev_link_closed hc node pvp hlt
    · simp only [hf, if_false]
      exact ⟨p2, node, rfl, rfl, hc, h0, rfl⟩

theorem del_alloc_bridge {h : host_t} (hb : benign h) {p : pool_mgr_t} (h0 : p.heap_at = 0)
    (hc : closedN p.total_nodes p.node_heap) (a : Nat) :
    mem_del_alloc h p a = some (Ideal.mem_del_alloc p a) ∧
    closedN (Ideal.mem_del_alloc p a).1.total_nodes (Ideal.mem_del_alloc p a).1.node_heap ∧
    (Ideal.mem_del_alloc p a).1.heap_at = 0 := by
  unfold mem_del_alloc Ideal.mem_del_alloc
  simp only [h0, Nat.zero_add]
  cases hs : scan (fun i => decide ((nodeAt p.node_heap i).used = 1) && decide (i = a))
      p.total_nodes 0 with
  | none => exact ⟨rfl, hc, h0⟩
  | some node =>
    have hc1 : closedN (del_mark_free p node).total_nodes (del_mark_free p node).node_heap :=
      closedN_set hc _ _ (hc.2 node).1 (hc.2 node).2
    have h01 : (del_mark_free p node).heap_at = 0 := h0
    obtain ⟨p2, e2, f2, hc2, h02, _⟩ := del_merge_next_bridge h01 hc1 node
    obtain ⟨p3, node1, e3, f3, hc3, h03, _⟩ := del_merge_prev_bridge h02 hc2 node
    have hfr := add_frame p3 (nodeAt p3.node_heap node1).alloc_record.size (some node1)
    simp only [e2, f2, e3, f3, ne_eq, not_true_eq_false, if_false, h03, Nat.zero_add,
      add_bridge hb]
    refine ⟨trivial, ?_, hfr.2.1.trans h03⟩
    rw [hfr.2.2.1, hfr.1]
    exact hc3
theorem walk_bridge {n : Nat} {h : List node_t} (hc : closedN n h) :
    ∀ (fuel : Nat) (cur : Option Nat), ptr_ok n cur →
      walk 0 h fuel cur = some (Ideal.walk h fuel cur)
  | 0, _, _ => rfl
  | _ + 1, none, _ => rfl
  | fuel + 1, some a, hcur => by
    unfold walk Ideal.walk
    rw [slot_at_zero hc (hcur a rfl)]
    simp only
    rw [walk_bridge hc fuel _ (hc.2 a).1]
    rfl

theorem inspect_loop_bridge {n : Nat} {h : List node_t} (hc : closedN n h) :
    ∀ (fuel : Nat) (cur : Option Nat), ptr_ok n cur →
      inspect_loop 0 h fuel cur = Ideal.inspect_loop h fuel cur
  | 0, _, _ => rfl
  | _ + 1, none, _ => rfl
  | fuel + 1, some a, hcur => by
    unfold inspect_loop Ideal.inspect_loop
    rw [slot_at_zero hc (hcur a rfl)]
    simp only
    rw [inspect_loop_bridge hc fuel _ (hc.2 a).1]
    rfl

theorem live_bridge {p : pool_mgr_t} (h0 : p.heap_at = 0) (a : Nat) :
    live p a ↔ Ideal.live p a := by
  unfold live Ideal.live
  constructor
  · rintro ⟨i, h1, h2, h3, h4⟩
    have : i = a := by omega
    subst this
    exact ⟨h1, h3, h4⟩
  · rintro ⟨h1, h2, h3⟩
    exact ⟨a, h1, by omega, h2, h3⟩

/-- On hosts that clear memory and never move a block, the states reached by calls with
live handles are those of the section `Ideal`; the node heap stays at address 0 and every
pointer kept in it points into it. -/
theorem ideal_of_on {K : Nat → Prop} {size : Nat} {policy : alloc_policy} {p : pool_mgr_t}
    (hr : ReachableOn benign K size policy p) :
    Ideal.ReachableBy K p ∧ p.heap_at = 0 ∧ closedN p.total_nodes p.node_heap := by
  induction hr with
  | opened h hb =>
    rw [open_bridge hb]
    refine ⟨Ideal.ReachableBy.opened size policy, rfl, ?_⟩
    rw [Ideal.mem_pool_open_eq_ideal]
    refine ⟨by simp, fun i => ?_⟩
    cases i with
    | zero => exact ⟨ptr_ok_none _, ptr_ok_none _⟩
    | succ j =>
      rw [nodeAt_cons_succ, nodeAt_replicate]
      exact ⟨ptr_ok_none _, ptr_ok_none _⟩
  | new_alloc h p k q r hb _ hk e ih =>
    obtain ⟨hr1, h0, hc⟩ := ih
    obtain ⟨L, w⟩ := Ideal.reachable_WFh hr1
    obtain ⟨hbr, hc2, h02⟩ := new_alloc_bridge hb w h0 hc k
    rw [hbr] at e
    have hq : q = (Ideal.mem_new_alloc p k).1 := by
      have := congrArg Prod.fst (Option.some.inj e)
      exact this.symm
    rw [hq]
    exact ⟨Ideal.ReachableBy.new_alloc p k hr1 hk, h02, hc2⟩
  | del_alloc h p a q st hb _ hl e ih =>
    obtain ⟨hr1, h0, hc⟩ := ih
    obtain ⟨hbr, hc2, h02⟩ := del_alloc_bridge hb h0 hc a
    rw [hbr] at e
    have hq : q = (Ideal.mem_del_alloc p a).1 := by
      have := congrArg Prod.fst (Option.some.inj e)
      exact this.symm
    rw [hq]
    exact ⟨Ideal.ReachableBy.del_alloc p a hr1 ((live_bridge h0 a).1 hl), h02, hc2⟩

theorem seg_list_bridge {K : Nat → Prop} {size : Nat} {policy : alloc_policy}
    {p : pool_mgr_t} (hr : ReachableOn benign K size policy p) :
    seg_list p = some (Ideal.seg_list p) ∧ WFh p (Ideal.seg_list p) none := by
  obtain ⟨hr1, h0, hc⟩ := ideal_of_on hr
  have w := Ideal.reachable_seg_list hr1
  refine ⟨?_, w⟩
  unfold seg_list Ideal.seg_list
  rw [h0]
  exact walk_bridge hc _ _ (ptr_ok_some (by have := w.min_nodes; omega))

theorem inspect_bridge {K : Nat → Prop} {size : Nat} {policy : alloc_policy}
    {p : pool_mgr_t} (hr : ReachableOn benign K size policy p) :
    mem_inspect_pool p = Ideal.mem_inspect_pool p := by
  obtain ⟨hr1, h0, hc⟩ := ideal_of_on hr
  have w := Ideal.reachable_seg_list hr1
  unfold mem_inspect_pool Ideal.mem_inspect_pool
  rw [h0]
  exact inspect_loop_bridge hc _ _ (ptr_ok_some (by have := w.min_nodes; omega))
theorem split_handle {h : host_t} {p4 q : pool_mgr_t} {S r a : Nat}
    (e : new_alloc_split h p4 S r = some (q, some a)) : a = p4.heap_at + S := by
  unfold new_alloc_split at e
  split at e
  · cases e
  · split at e
    · cases e
    · simp only at e
      split at e
      · cases e
      · cases e; rfl

theorem place_handle {h : host_t} {p1 q : pool_mgr_t} {k a : Nat}
    (e : new_alloc_place h p1 k = some (q, some a)) : select_node p1 k = some a := by
  unfold new_alloc_place at e
  split at e
  · cases e
  · rename_i myPtr hsel
    split at e
    · cases e
    · rename_i myNode hslot
      have hs := (slot_at_some hslot).2
      simp only at e
      split at e
      · have h1 := split_handle e
        have h2 : (_mem_remove_from_gap_ix
            { p1 with pool := { p1.pool with num_allocs := p1.pool.num_allocs + 1
                                             alloc_size := p1.pool.alloc_size + k } }
            k (some myPtr)).1.heap_at = p1.heap_at := (remove_frame _ _ _).2.1
        have h3 : a = p1.heap_at + myNode :=
          h1.trans (congrArg (fun x => x + myNode) h2)
        rw [hsel, h3, hs]
      · cases e
        exact hsel

/-- Under `FIRST_FIT`, on any host and in any state, a handle that `mem_new_alloc` returns is
the address of the first slot of the node heap, as it is after `_mem_resize_node_heap`, that
reads used, not allocated and large enough. -/
theorem first_fit_handle {h : host_t} {p q : pool_mgr_t} {k a : Nat}
    (hp : p.pool.policy = alloc_policy.FIRST_FIT)
    (e : mem_new_alloc h p k = some (q, some a)) :
    ∃ i, a = q.heap_at + i ∧ i < q.total_nodes ∧
      q.heap_at = (_mem_resize_node_heap h p).1.heap_at ∧
      q.total_nodes = (_mem_resize_node_heap h p).1.total_nodes ∧
      (nodeAt (_mem_resize_node_heap h p).1.node_heap i).used = 1 ∧
      (nodeAt (_mem_resize_node_heap h p).1.node_heap i).allocated = 0 ∧
      k ≤ (nodeAt (_mem_resize_node_heap h p).1.node_heap i).alloc_record.size ∧
      ∀ j, j < i →
        ¬ ((nodeAt (_mem_resize_node_heap h p).1.node_heap j).used = 1 ∧
          (nodeAt (_mem_resize_node_heap h p).1.node_heap j).allocated = 0 ∧
          k ≤ (nodeAt (_mem_resize_node_heap h p).1.node_heap j).alloc_record.size) := by
  obtain ⟨hpool, _, _, _, hs, _, _⟩ := resize_node_heap_facts h p
  unfold mem_new_alloc at e
  split at e
  · cases e
  · simp only [hs, ne_eq, not_true_eq_false, if_false] at e
    split at e
    · cases e
    · have hg := new_alloc_place_grown e
      have hsel := place_handle e
      unfold select_node at hsel
      rw [hpool, hp] at hsel
      simp only [Option.map_eq_some'] at hsel
      obtain ⟨i, hsc, hi⟩ := hsel
      obtain ⟨h1, _, h3, h4⟩ := scan_some hsc
      simp only [Bool.and_eq_true, decide_eq_true_eq] at h1
      refine ⟨i, by rw [hg.base]; exact hi.symm, by rw [hg.nodes]; omega, hg.base, hg.nodes,
        h1.1.1, h1.1.2, h1.2, fun j hj hc => ?_⟩
      have := h4 j (Nat.zero_le _) hj
      simp [hc.1, hc.2.1, hc.2.2] at this

/-- On a host that clears memory and never moves a block, in every pool state reached by calls
with live handles, every call is defined and the functions compute what the functions of the
section `Ideal` compute. -/
theorem benign_agrees {K : Nat → Prop} {size : Nat} {policy : alloc_policy} {p : pool_mgr_t}
    (hr : ReachableOn benign K size policy p) (h : host_t) (hb : benign h) :
    Ideal.ReachableBy K p ∧
    (∀ k, mem_new_alloc h p k = some (Ideal.mem_new_alloc p k)) ∧
    (∀ a, mem_del_alloc h p a = some (Ideal.mem_del_alloc p a)) ∧
    seg_list p = some (Ideal.seg_list p) ∧
    mem_inspect_pool p = Ideal.mem_inspect_pool p := by
  obtain ⟨hr1, h0, hc⟩ := ideal_of_on hr
  obtain ⟨hsl, w⟩ := seg_list_bridge hr
  exact ⟨hr1, fun k => (new_alloc_bridge hb w h0 hc k).1,
    fun a => (del_alloc_bridge hb h0 hc a).1, hsl, inspect_bridge hr⟩

/-! ## The claims -/

/-- C8, the failing input: in `scenario_split`, reached on a host that clears memory and never
moves a block, the gap index holds two entries of size 5, the one for slot 3 (offset 95)
before the one for slot 4 (offset 15): entries of equal size are ordered by node pointer, not
by pool offset. -/
theorem C8_equal_sizes_ordered_by_slot :
    live_gaps scenario_split = [⟨5, some 3⟩, ⟨5, some 4⟩] ∧
    seg_offset scenario_split 3 = 95 ∧ seg_offset scenario_split 4 = 15 ∧
    scenario_split.heap_at = 0 ∧
    ReachableOn benign (fun k => 0 < k) 100 alloc_policy.FIRST_FIT scenario_split :=
  ⟨by decide, by decide, by decide, by decide, scenario_split_reachable⟩

/-- C13, counterexample: in the pool `scenario_freed` (open 100, `alloc 10`, free of that
handle) slot 0 is a used slot whose segment is free; a second `mem_del_alloc` on the handle
returns `ALLOC_OK`, enters the segment in the gap index once more (`num_gaps` goes from 1 to 2)
and lets `num_allocs` wrap below zero. -/
theorem C13_counterexample :
    ReachableOn benign (fun k => 0 < k) 100 alloc_policy.FIRST_FIT scenario_freed ∧
    scenario_freed.heap_at = 0 ∧
    (nodeAt scenario_freed.node_heap 0).used = 1 ∧ seg_free scenario_freed 0 = true ∧
    (mem_del_alloc host_zero scenario_freed 0).map (fun r => r.2)
      = some alloc_status.ALLOC_OK ∧
    scenario_freed.pool.num_gaps = 1 ∧
    (after_free host_zero scenario_freed 0).pool.num_gaps = 2 ∧
    scenario_freed.pool.num_allocs = 0 ∧
    (after_free host_zero scenario_freed 0).pool.num_allocs = 2 ^ 32 - 1 ∧
    live_gaps (after_free host_zero scenario_freed 0) = [⟨100, some 0⟩, ⟨100, some 0⟩] :=
  ⟨scenario_freed_reachable, by decide, by decide, by decide, by decide, by decide, by decide,
    by decide, by decide, by decide⟩

/-- C13, amended: in every reachable pool state, on every host, for every handle `A` that is
not the address of a used slot of the node heap (the address of an unused slot, or of no slot
of the heap at all), `mem_del_alloc(pool, A)` returns `ALLOC_FAIL` and leaves the pool as it
was: `num_allocs`, `alloc_size`, `num_gaps`, `used_nodes`, the segment list and the gap index
are unchanged. -/
theorem C13_unused_handle_fails (h : host_t) (p : pool_mgr_t) (hr : Reachable p) (A : Nat)
    (hA : ∀ i, i < p.total_nodes → p.heap_at + i = A → (nodeAt p.node_heap i).used ≠ 1) :
    mem_del_alloc h p A = some (p, alloc_status.ALLOC_FAIL) := by
  have _ := hr
  unfold mem_del_alloc
  cases hs : scan (fun i => decide ((nodeAt p.node_heap i).used = 1) &&
      decide (p.heap_at + i = A)) p.total_nodes 0 with
  | none => rfl
  | some node =>
    exfalso
    have h1 := (scan_some hs).1
    have h2 := (scan_some hs).2
    simp only [Bool.and_eq_true, decide_eq_true_eq] at h1
    exact hA node (by omega) h1.2 h1.1

theorem C13_witness :
    (nodeAt scenario_holes.node_heap 7).used ≠ 1 ∧
    mem_del_alloc host_zero scenario_holes 7 = some (scenario_holes, alloc_status.ALLOC_FAIL) ∧
    mem_del_alloc host_zero scenario_holes 4000
      = some (scenario_holes, alloc_status.ALLOC_FAIL) :=
  ⟨by decide,
    C13_unused_handle_fails host_zero scenario_holes
      (reachable_of_on scenario_holes_reachable) 7 (by decide),
    C13_unused_handle_fails host_zero scenario_holes
      (reachable_of_on scenario_holes_reachable) 4000 (by decide)⟩

/-- C14: for every open pool in a reachable state, the store being initialised,
`mem_pool_close` returns `ALLOC_OK` if and only if `num_allocs == 0` and `num_gaps == 1`,
and `ALLOC_NOT_FREED` otherwise. -/
theorem C14_close_ok_iff_all_freed (s : store_t) (mgr : Nat) (p : pool_mgr_t)
    (hr : Reachable p) (hs : s.pool_store ≠ none) :
    ∃ s1 st, mem_pool_close s mgr p = some (s1, st) ∧
      (st = alloc_status.ALLOC_OK ↔ (p.pool.num_allocs = 0 ∧ p.pool.num_gaps = 1)) ∧
      (st ≠ alloc_status.ALLOC_OK → st = alloc_status.ALLOC_NOT_FREED) :=
  close_status s mgr p (by rw [(reachable_facts hr).1]; simp) hs

theorem C14_witness :
    store_init.pool_store ≠ none ∧
    mem_pool_close store_init 7 scenario_whole
      = some (store_init, alloc_status.ALLOC_NOT_FREED) ∧
    (mem_pool_close store_init 7 (after_free host_zero scenario_whole 0)).map Prod.snd
      = some alloc_status.ALLOC_OK ∧
    ∃ s1 st, mem_pool_close store_init 7 scenario_whole = some (s1, st) ∧
      (st = alloc_status.ALLOC_OK ↔
        (scenario_whole.pool.num_allocs = 0 ∧ scenario_whole.pool.num_gaps = 1)) ∧
      (st ≠ alloc_status.ALLOC_OK → st = alloc_status.ALLOC_NOT_FREED) :=
  ⟨by decide, by decide, by decide,
    C14_close_ok_iff_all_freed store_init 7 scenario_whole
      (reachable_of_on scenario_whole_reachable) (by decide)⟩

/-- C17, at the failing input: after `mem_init` and sixteen calls of `mem_pool_open` the
store is initialised, with 16 of its 20 entries taken, and the next `mem_pool_open(100,
FIRST_FIT)` does not return a pool: `_mem_resize_pool_store` leaves `pool_store` at `NULL`
and line 203 writes through it.  The sixteen calls before it each return a pool. -/
theorem C17_open_on_full_store :
    open_many host_zero 100 alloc_policy.FIRST_FIT 16 0 store_init = some store_sixteen ∧
    store_sixteen.pool_store ≠ none ∧
    mem_pool_open_store host_zero store_sixteen 16 100 alloc_policy.FIRST_FIT = none ∧
    mem_pool_open_store host_zero store_start 0 100 alloc_policy.FIRST_FIT
      = some (store_start, none) ∧
    (mem_pool_open_store host_zero store_init 0 100 alloc_policy.FIRST_FIT).map (fun r => r.2)
      = some (some (0, mem_pool_open host_zero 100 alloc_policy.FIRST_FIT)) := by
  refine ⟨by decide, by decide, by decide, by decide, by decide⟩

/-- C20, at the failing input: with 16 of the 20 entries of the pool store taken the fill
factor is exceeded; `_mem_resize_pool_store` doubles the capacity and returns `ALLOC_OK`, but
leaves `pool_store` at `NULL`, so the registered managers are lost and the seventeenth
`mem_pool_open` is not recorded at index 16: it writes through `NULL`. -/
theorem C20_resize_drops_store :
    fill_exceeded store_sixteen.pool_store_size store_sixteen.pool_store_capacity = true ∧
    _mem_resize_pool_store host_zero store_sixteen =
      ({ pool_store := none, pool_store_size := 16, pool_store_capacity := 40 },
        alloc_status.ALLOC_OK) ∧
    open_many host_zero 100 alloc_policy.FIRST_FIT 17 0 store_init = none := by
  refine ⟨by decide, by decide, by decide⟩

/-- C21, at the failing input: in the pool `scenario_holes` the gap index holds
`(5, slot 3)` and `(10, slot 1)`; slot 0 is referenced by neither entry, yet
`_mem_remove_from_gap_ix(mgr, 10, slot 0)` returns `ALLOC_OK`, decrements `num_gaps` to 1 and
clears the last entry, so that the gap in slot 1 is lost from the index.  For the referenced
slot 1 the function does what the claim says. -/
theorem C21_remove_missing_node :
    live_gaps scenario_holes = [⟨5, some 3⟩, ⟨10, some 1⟩] ∧
    (∀ e ∈ live_gaps scenario_holes, e.node ≠ some 0) ∧
    (_mem_remove_from_gap_ix scenario_holes 10 (some 0)).2 = alloc_status.ALLOC_OK ∧
    (_mem_remove_from_gap_ix scenario_holes 10 (some 0)).1.pool.num_gaps = 1 ∧
    live_gaps (_mem_remove_from_gap_ix scenario_holes 10 (some 0)).1 = [⟨5, some 3⟩] ∧
    gapAt (_mem_remove_from_gap_ix scenario_holes 10 (some 0)).1.gap_ix 1 = zero_gap ∧
    (_mem_remove_from_gap_ix scenario_holes 10 (some 1)).2 = alloc_status.ALLOC_OK ∧
    live_gaps (_mem_remove_from_gap_ix scenario_holes 10 (some 1)).1 = [⟨5, some 3⟩] := by
  refine ⟨by decide, by decide, by decide, by decide, by decide, by decide, by decide,
    by decide⟩

/-- C22: on every host, for every gap index of capacity `gap_ix_capacity > 0` that holds
`num_gaps <= gap_ix_capacity` entries sorted by size in non-decreasing order,
`_mem_add_to_gap_ix(pool_mgr, size, node)` returns `ALLOC_OK` and increases `num_gaps` by 1;
the first `num_gaps` entries are then the old entries in their old order with `(size, node)`
inserted among them, a permutation of the old entries plus `(size, node)` that is sorted by
size in non-decreasing order. -/
theorem C22_add_keeps_sorted (h : host_t) (p : pool_mgr_t) (sz : Nat) (x : Option Nat)
    (hlen : p.gap_ix.length = p.gap_ix_capacity) (hn : p.pool.num_gaps ≤ p.gap_ix_capacity)
    (hc : 0 < p.gap_ix_capacity)
    (hs : (live_gaps p).Pairwise (fun a b => a.size ≤ b.size)) :
    (_mem_add_to_gap_ix h p sz x).2 = alloc_status.ALLOC_OK ∧
    (_mem_add_to_gap_ix h p sz x).1.pool.num_gaps = p.pool.num_gaps + 1 ∧
    (live_gaps (_mem_add_to_gap_ix h p sz x).1).Perm (⟨sz, x⟩ :: live_gaps p) ∧
    (live_gaps (_mem_add_to_gap_ix h p sz x).1).Pairwise (fun a b => a.size ≤ b.size) ∧
    ∃ F1 F2, live_gaps p = F1 ++ F2 ∧
      live_gaps (_mem_add_to_gap_ix h p sz x).1 = F1 ++ ⟨sz, x⟩ :: F2 := by
  obtain ⟨g, c, hrun, _, _, F1, F2, hF, htake, h2, h1⟩ := add_insert h p sz x hlen hn hc
  have hlive : live_gaps (_mem_add_to_gap_ix h p sz x).1 = F1 ++ ⟨sz, x⟩ :: F2 := by
    rw [hrun]; exact htake
  rw [hlive, hF]
  refine ⟨by rw [hrun], by rw [hrun], List.perm_middle, ?_, F1, F2, rfl, rfl⟩
  rw [hF] at hs
  exact size_sorted_insert hs h2 h1

theorem C22_witness :
    live_gaps (_mem_add_to_gap_ix host_filled scenario_holes 7 (some 9)).1
      = [⟨5, some 3⟩, ⟨7, some 9⟩, ⟨10, some 1⟩] ∧
    (_mem_add_to_gap_ix host_filled scenario_holes 7 (some 9)).2 = alloc_status.ALLOC_OK ∧
    (_mem_add_to_gap_ix host_filled scenario_holes 7 (some 9)).1.pool.num_gaps
      = scenario_holes.pool.num_gaps + 1 ∧
    (live_gaps (_mem_add_to_gap_ix host_filled scenario_holes 7 (some 9)).1).Perm
      (⟨7, some 9⟩ :: live_gaps scenario_holes) ∧
    (live_gaps (_mem_add_to_gap_ix host_filled scenario_holes 7 (some 9)).1).Pairwise
      (fun a b => a.size ≤ b.size) ∧
    ∃ F1 F2, live_gaps scenario_holes = F1 ++ F2 ∧
      live_gaps (_mem_add_to_gap_ix host_filled scenario_holes 7 (some 9)).1
        = F1 ++ ⟨7, some 9⟩ :: F2 :=
  ⟨by decide,
    C22_add_keeps_sorted host_filled scenario_holes 7 (some 9) (by decide) (by decide)
      (by decide) (by decide)⟩

/-! ## The claims that fail on a host that does not clear memory -/

/-- C1, at the failing input: on the host `host_filled`, whose memory reads as `0xCD` bytes,
`mem_pool_open(100, FIRST_FIT)` and `mem_new_alloc(pool, 10)`.  The call turns slot 0 into an
allocation of 10 bytes and takes its entry out of the gap index; for the remaining 90 bytes
it looks for a slot with `used == 0` (line 322), finds none among the slots the program never
wrote, and returns `NULL` (line 330).  Afterwards the segment list is the one allocation of
10 bytes and there is no gap: `alloc_size` plus the sizes of the free segments is 10, not
`total_size = 100`. -/
theorem C1_filled_host_loses_bytes :
    mem_new_alloc host_filled (mem_pool_open host_filled 100 alloc_policy.FIRST_FIT) 10
      = some (scenario_filled, none) ∧
    ReachableOn (fun _ => True) (fun k => 0 < k) 100 alloc_policy.FIRST_FIT scenario_filled ∧
    (∀ i, i < 40 →
      (nodeAt (mem_pool_open host_filled 100 alloc_policy.FIRST_FIT).node_heap i).used ≠ 0) ∧
    seg_list scenario_filled = some [0] ∧ seg_free scenario_filled 0 = false ∧
    scenario_filled.pool.num_gaps = 0 ∧
    scenario_filled.pool.alloc_size = 10 ∧ scenario_filled.pool.total_size = 100 :=
  ⟨by decide, scenario_filled_reachable, by decide, by decide, by decide, by decide, by decide,
    by decide⟩

/-- C4, at the failing input: in the pool `scenario_filled` (host `host_filled`, open 100,
`alloc 10`, which returned `NULL` after it had made slot 0 an allocation) the segment list is
the single segment `[0, 10)` without a successor: the segments do not tile `[0, 100)`, the
bytes `[10, 100)` belong to no segment. -/
theorem C4_filled_host_tiling_short :
    ReachableOn (fun _ => True) (fun k => 0 < k) 100 alloc_policy.FIRST_FIT scenario_filled ∧
    seg_list scenario_filled = some [0] ∧
    seg_offset scenario_filled 0 = 0 ∧ seg_size scenario_filled 0 = 10 ∧
    (nodeAt scenario_filled.node_heap 0).next = none ∧
    scenario_filled.pool.total_size = 100 ∧
    mem_inspect_pool scenario_filled = some [⟨10, 1⟩] :=
  ⟨scenario_filled_reachable, by decide, by decide, by decide, by decide, by decide,
    by decide⟩

/-- C9, at the failing input: on the host `host_filled`, in a fresh pool of 100 bytes,
`mem_new_alloc(pool, 10)` selects the free segment in slot 0, of size 100 at offset 0.  The
segment becomes an allocation of 10 bytes and the statistics are updated, but no free segment
of 90 bytes is created: no slot reads `used == 0`, the call returns `NULL`, `used_nodes` stays
1 and `num_gaps` drops from 1 to 0. -/
theorem C9_filled_host_no_residue :
    select_node (mem_pool_open host_filled 100 alloc_policy.FIRST_FIT) 10 = some 0 ∧
    seg_size (mem_pool_open host_filled 100 alloc_policy.FIRST_FIT) 0 = 100 ∧
    (mem_pool_open host_filled 100 alloc_policy.FIRST_FIT).used_nodes = 1 ∧
    (mem_pool_open host_filled 100 alloc_policy.FIRST_FIT).pool.num_gaps = 1 ∧
    (mem_new_alloc host_filled (mem_pool_open host_filled 100 alloc_policy.FIRST_FIT) 10).map
      (fun r => r.2) = some none ∧
    seg_size scenario_filled 0 = 10 ∧ seg_free scenario_filled 0 = false ∧
    scenario_filled.pool.num_allocs = 1 ∧ scenario_filled.pool.alloc_size = 10 ∧
    scenario_filled.used_nodes = 1 ∧ scenario_filled.pool.num_gaps = 0 ∧
    live_gaps scenario_filled = [] :=
  ⟨by decide, by decide, by decide, by decide, by decide, by decide, by decide, by decide,
    by decide, by decide, by decide, by decide⟩

/-! ## The claims that fail on a host that moves the node heap -/

set_option maxRecDepth 100000 in
/-- C2, at the failing input: on the host `host_moving`, a first-fit pool of 100 bytes after
31 allocations of one byte (`scenario_moved`).  The last call grew the node heap, which moved
from address 0 to address 1000.  `num_allocs + num_gaps` is 32, `used_nodes` is 32 and 32
slots are flagged used, but the `next` pointer of the head still holds the address 1, which
is no slot of the node heap: the walk from the head via `next` leaves the heap after one
node. -/
theorem C2_moved_heap_breaks_the_walk :
    ReachableOn (fun _ => True) (fun k => 0 < k) 100 alloc_policy.FIRST_FIT scenario_moved ∧
    scenario_thirty.heap_at = 0 ∧ scenario_moved.heap_at = 1000 ∧
    scenario_moved.pool.num_allocs = 31 ∧ scenario_moved.pool.num_gaps = 1 ∧
    scenario_moved.used_nodes = 32 ∧
    ((List.range scenario_moved.total_nodes).filter
      (fun i => decide ((nodeAt scenario_moved.node_heap i).used = 1))).length = 32 ∧
    (nodeAt scenario_moved.node_heap 0).next = some 1 ∧
    slot_at scenario_moved.heap_at scenario_moved.node_heap 1 = none ∧
    seg_list scenario_moved = none :=
  ⟨scenario_moved_reachable, by decide, by decide, by decide, by decide, by decide, by decide,
    by decide, by decide, by decide⟩

set_option maxRecDepth 100000 in
/-- C5, at the failing input: on the host `host_moving`, a first-fit pool of 100 bytes after
30 allocations of one byte, the release of the sixth and one more allocation of one byte
(`scenario_refill`).  The last call moved the node heap to address 1000 and placed the
allocation in slot 5, which it returned as address 1005; the gap index still held the old
addresses, so `_mem_remove_from_gap_ix` did not find the node and dropped the last entry
instead.  Afterwards the only entry of the gap index names address 5, which is no slot of the
node heap and whose segment is allocated, and the free segment of 70 bytes in slot 30 is in
no entry. -/
theorem C5_moved_heap_stale_gap_index :
    ReachableOn (fun _ => True) (fun k => 0 < k) 100 alloc_policy.FIRST_FIT scenario_refill ∧
    live_gaps (after_free host_moving scenario_thirty 5) = [⟨1, some 5⟩, ⟨70, some 30⟩] ∧
    mem_new_alloc host_moving (after_free host_moving scenario_thirty 5) 1
      = some (scenario_refill, some 1005) ∧
    scenario_refill.heap_at = 1000 ∧ scenario_refill.pool.num_gaps = 1 ∧
    live_gaps scenario_refill = [⟨1, some 5⟩] ∧
    slot_at scenario_refill.heap_at scenario_refill.node_heap 5 = none ∧
    seg_free scenario_refill 5 = false ∧
    (nodeAt scenario_refill.node_heap 30).used = 1 ∧ seg_free scenario_refill 30 = true ∧
    seg_size scenario_refill 30 = 70 :=
  ⟨scenario_refill_reachable, by decide, by decide, by decide, by decide, by decide, by decide,
    by decide, by decide, by decide, by decide⟩

set_option maxRecDepth 100000 in
/-- C7, at the failing input: on the host `host_moving`, a best-fit pool of 100 bytes after 30
allocations of one byte (`scenario_best_thirty`) has one gap, of 70 bytes, entered in the gap
index with the address 30.  `mem_new_alloc(pool, 1)` grows the node heap, which moves to
address 1000, takes `myNode` from the gap index (line 290) and reads `myNode->alloc_record`
(line 309) at address 30, in the block that `realloc` freed: the call is undefined and places
no allocation.  On the host `host_filled` the first `mem_new_alloc(pool, 10)` of a best-fit
pool returns `NULL` although the gap of 100 bytes fits. -/
theorem C7_moved_heap_stale_best_fit :
    ReachableOn (fun _ => True) (fun k => 0 < k) 100 alloc_policy.BEST_FIT
      scenario_best_thirty ∧
    live_gaps scenario_best_thirty = [⟨70, some 30⟩] ∧
    seg_free scenario_best_thirty 30 = true ∧ seg_size scenario_best_thirty 30 = 70 ∧
    (_mem_resize_node_heap host_moving scenario_best_thirty).1.heap_at = 1000 ∧
    select_node (_mem_resize_node_heap host_moving scenario_best_thirty).1 1 = some 30 ∧
    mem_new_alloc host_moving scenario_best_thirty 1 = none ∧
    live_gaps (mem_pool_open host_filled 100 alloc_policy.BEST_FIT) = [⟨100, some 0⟩] ∧
    (mem_new_alloc host_filled (mem_pool_open host_filled 100 alloc_policy.BEST_FIT) 10).map
      (fun r => r.2) = some none :=
  ⟨scenario_best_thirty_reachable, by decide, by decide, by decide, by decide, by decide,
    by decide, by decide, by decide⟩

set_option maxRecDepth 100000 in
/-- C10, at the failing input: on the host `host_moving` the first `mem_new_alloc(pool, 1)` of
a first-fit pool of 100 bytes returns the handle 0.  After 30 more allocations of one byte
(`scenario_moved`) the node heap lies at address 1000; the allocation is still there, in slot
0, but `mem_del_alloc(pool, 0)` compares the handle with the addresses of the slots (line
370), finds no slot, returns `ALLOC_FAIL` and frees nothing. -/
theorem C10_moved_heap_handle_not_found :
    (mem_new_alloc host_moving (mem_pool_open host_moving 100 alloc_policy.FIRST_FIT) 1).map
      (fun r => r.2) = some (some 0) ∧
    ReachableOn (fun _ => True) (fun k => 0 < k) 100 alloc_policy.FIRST_FIT scenario_moved ∧
    scenario_moved.heap_at = 1000 ∧
    (nodeAt scenario_moved.node_heap 0).used = 1 ∧ seg_free scenario_moved 0 = false ∧
    seg_size scenario_moved 0 = 1 ∧ seg_offset scenario_moved 0 = 0 ∧
    mem_del_alloc host_moving scenario_moved 0
      = some (scenario_moved, alloc_status.ALLOC_FAIL) :=
  ⟨by decide, scenario_moved_reachable, by decide, by decide, by decide, by decide, by decide,
    by decide⟩

set_option maxRecDepth 100000 in
/-- C11, at the failing input: in the pool `scenario_thirty` on the host `host_moving`,
`mem_new_alloc(pool, 1)` returns the handle 1030, a slot of the node heap that the call moved
to address 1000.  `mem_del_alloc(pool, 1030)` called immediately afterwards merges the free
successor and then reads `node->prev` (line 430), the address 29, which is in the block that
`realloc` freed: the call is undefined and does not restore the state.  The snapshot of
`mem_inspect_pool`, which lists 31 segments before the allocation, is undefined after it. -/
theorem C11_moved_heap_free_undefined :
    ReachableOn (fun _ => True) (fun k => 0 < k) 100 alloc_policy.FIRST_FIT scenario_thirty ∧
    mem_new_alloc host_moving scenario_thirty 1 = some (scenario_moved, some 1030) ∧
    live scenario_moved 1030 ∧
    (nodeAt scenario_moved.node_heap 30).prev = some 29 ∧
    slot_at scenario_moved.heap_at scenario_moved.node_heap 29 = none ∧
    mem_del_alloc host_moving scenario_moved 1030 = none ∧
    (mem_inspect_pool scenario_thirty).map (fun s => s.length) = some 31 ∧
    mem_inspect_pool scenario_moved = none :=
  ⟨scenario_thirty_reachable, by decide, ⟨30, by decide, by decide, by decide, by decide⟩,
    by decide, by decide, by decide, by decide, by decide⟩

set_option maxRecDepth 100000 in
/-- C12, at the failing input: in the pool `scenario_thirty` on the host `host_moving` no
free segment has 200 bytes, and `mem_new_alloc(pool, 200)` returns `NULL`.  It has grown the
node heap before it looked for a segment (lines 262-265), and the heap has moved to address
1000: the statistics and the gap index are as before, but the segment list, slots 0 to 30
before the call, can no longer be walked, and the handle 0, which `mem_del_alloc` accepted
before the call, is refused after it. -/
theorem C12_failed_alloc_moves_heap :
    ReachableOn (fun _ => True) (fun k => 0 < k) 100 alloc_policy.FIRST_FIT scenario_thirty ∧
    scenario_thirty.pool.total_size = 100 ∧
    (mem_new_alloc host_moving scenario_thirty 200).map (fun r => r.2) = some none ∧
    scenario_thirty.heap_at = 0 ∧
    (after_alloc host_moving scenario_thirty 200).heap_at = 1000 ∧
    (after_alloc host_moving scenario_thirty 200).pool = scenario_thirty.pool ∧
    live_gaps (after_alloc host_moving scenario_thirty 200) = live_gaps scenario_thirty ∧
    seg_list scenario_thirty = some (List.range 31) ∧
    seg_list (after_alloc host_moving scenario_thirty 200) = none ∧
    mem_inspect_pool (after_alloc host_moving scenario_thirty 200) = none ∧
    (mem_del_alloc host_moving scenario_thirty 0).map (fun r => r.2)
      = some alloc_status.ALLOC_OK ∧
    (mem_del_alloc host_moving (after_alloc host_moving scenario_thirty 200) 0).map
      (fun r => r.2) = some alloc_status.ALLOC_FAIL :=
  ⟨scenario_thirty_reachable, by decide, by decide, by decide, by decide, by decide, by decide,
    by decide, by decide, by decide, by decide, by decide⟩

set_option maxRecDepth 100000 in
/-- C15, at the failing input: on the host `host_moving`, 31 calls of `mem_new_alloc(pool, 1)`
on a fresh first-fit pool of 100 bytes return the handles 0 to 29 and 1030, the last call
having moved the node heap to address 1000 (`scenario_moved`).  None of the 31 allocations
can be freed: `mem_del_alloc` returns `ALLOC_FAIL` for each of the handles 0 to 29 and leaves
the pool as it is, and is undefined for the handle 1030.  The pool does not come back to one
free segment, and `mem_pool_close` returns `ALLOC_NOT_FREED`. -/
theorem C15_moved_heap_cannot_free :
    alloc_handles host_moving 31 (mem_pool_open host_moving 100 alloc_policy.FIRST_FIT)
      = (List.range 30).map (fun i => some (some i)) ++ [some (some 1030)] ∧
    ReachableOn (fun _ => True) (fun k => 0 < k) 100 alloc_policy.FIRST_FIT scenario_moved ∧
    (∀ a, a < 30 → mem_del_alloc host_moving scenario_moved a
      = some (scenario_moved, alloc_status.ALLOC_FAIL)) ∧
    mem_del_alloc host_moving scenario_moved 1030 = none ∧
    scenario_moved.pool.num_allocs = 31 ∧
    mem_pool_close store_init 7 scenario_moved
      = some (store_init, alloc_status.ALLOC_NOT_FREED) :=
  ⟨by decide, scenario_moved_reachable, by decide, by decide, by decide, by decide⟩

set_option maxRecDepth 100000 in
/-- C18, at the failing input: in the pool `scenario_moved` (host `host_moving`, 31
allocations of one byte, the node heap moved to address 1000) `used_nodes` is 32, and
`mem_inspect_pool` reads the head in slot 0 and steps to its `next` (line 503), the address
1, which is in the block that `realloc` freed: the second round of the loop reads through a
dangling pointer and the function yields no snapshot. -/
theorem C18_moved_heap_inspect_undefined :
    ReachableOn (fun _ => True) (fun k => 0 < k) 100 alloc_policy.FIRST_FIT scenario_moved ∧
    scenario_moved.used_nodes = 32 ∧ scenario_moved.heap_at = 1000 ∧
    (nodeAt scenario_moved.node_heap 0).next = some 1 ∧
    inspect_loop scenario_moved.heap_at scenario_moved.node_heap 1 (some 1000)
      = some [⟨1, 1⟩] ∧
    inspect_loop scenario_moved.heap_at scenario_moved.node_heap 1 (some 1) = none ∧
    mem_inspect_pool scenario_moved = none :=
  ⟨scenario_moved_reachable, by decide, by decide, by decide, by decide, by decide, by decide⟩

/-! ## The claims that are amended -/

/-- C6, counterexample: in the first-fit pool `scenario_split`, reached on a host that clears
memory and never moves a block, the gaps are slot 3 at offset 95 and slot 4 at offset 15, both
of size 5; `mem_new_alloc(pool, 3)` returns slot 3 and places the allocation at offset 95
although the gap at offset 15 is large enough. -/
theorem C6_counterexample :
    ReachableOn benign (fun k => 0 < k) 100 alloc_policy.FIRST_FIT scenario_split ∧
    scenario_split.pool.policy = alloc_policy.FIRST_FIT ∧ scenario_split.heap_at = 0 ∧
    (mem_new_alloc host_zero scenario_split 3).map (fun r => r.2) = some (some 3) ∧
    seg_offset (after_alloc host_zero scenario_split 3) 3 = 95 ∧
    seg_list scenario_split = some [0, 1, 4, 2, 3] ∧ seg_free scenario_split 4 = true ∧
    3 ≤ seg_size scenario_split 4 ∧ seg_offset scenario_split 4 = 15 ∧
    seg_offset scenario_split 4 < seg_offset scenario_split 3 :=
  ⟨scenario_split_reachable, by decide, by decide, by decide, by decide, by decide, by decide,
    by decide, by decide, by decide⟩

/-- C6, amended: under `FIRST_FIT`, on every host and in every state, a handle that
`mem_new_alloc(pool, k)` returns is the address of the first slot of the node heap, in slot
order, that reads used, not allocated and of size at least `k` once the heap has been grown.
On a host that clears memory and never moves a block, in every pool state reached by calls
with live handles, the segment list is defined and, when one of its free segments has size at
least `k`, the call returns the free segment of size at least `k` with the lowest slot index,
which becomes an allocation of size `k` at the same offset; this is the segment with the
lowest pool offset whenever slot order agrees with offset order on those segments. -/
theorem C6_first_fit_lowest_slot (h : host_t) (p : pool_mgr_t) (k : Nat)
    (hp : p.pool.policy = alloc_policy.FIRST_FIT) (hk : 0 < k) :
    (∀ q a, mem_new_alloc h p k = some (q, some a) →
      ∃ i, a = q.heap_at + i ∧ i < q.total_nodes ∧
        (nodeAt (_mem_resize_node_heap h p).1.node_heap i).used = 1 ∧
        (nodeAt (_mem_resize_node_heap h p).1.node_heap i).allocated = 0 ∧
        k ≤ (nodeAt (_mem_resize_node_heap h p).1.node_heap i).alloc_record.size ∧
        ∀ j, j < i →
          ¬ ((nodeAt (_mem_resize_node_heap h p).1.node_heap j).used = 1 ∧
            (nodeAt (_mem_resize_node_heap h p).1.node_heap j).allocated = 0 ∧
            k ≤ (nodeAt (_mem_resize_node_heap h p).1.node_heap j).alloc_record.size)) ∧
    (benign h →
      (∃ size, ReachableOn benign (fun _ => True) size alloc_policy.FIRST_FIT p) →
      ∃ L, seg_list p = some L ∧
        ((∃ i, i ∈ L ∧ seg_free p i = true ∧ k ≤ seg_size p i) →
          ∃ q S, mem_new_alloc h p k = some (q, some S) ∧ q.heap_at = 0 ∧
            S ∈ L ∧ seg_free p S = true ∧ k ≤ seg_size p S ∧
            (∀ i ∈ L, seg_free p i = true → k ≤ seg_size p i → S ≤ i) ∧
            seg_free q S = false ∧ seg_size q S = k ∧ seg_offset q S = seg_offset p S ∧
            ((∀ i ∈ L, ∀ j ∈ L, seg_free p i = true → seg_free p j = true →
                k ≤ seg_size p i → k ≤ seg_size p j → i ≤ j →
                seg_offset p i ≤ seg_offset p j) →
              ∀ i ∈ L, seg_free p i = true → k ≤ seg_size p i →
                seg_offset p S ≤ seg_offset p i))) := by
  refine ⟨fun q a e => ?_, fun hb hr => ?_⟩
  · obtain ⟨i, h1, h2, _, _, h5, h6, h7, h8⟩ := first_fit_handle hp e
    exact ⟨i, h1, h2, h5, h6, h7, h8⟩
  · obtain ⟨size, hr⟩ := hr
    obtain ⟨hr1, h0, hc⟩ := ideal_of_on hr
    obtain ⟨hsl, w⟩ := seg_list_bridge hr
    refine ⟨_, hsl, fun hex => ?_⟩
    obtain ⟨hbr, _, h02⟩ := new_alloc_bridge hb w h0 hc k
    obtain ⟨S, e1, e2, e3, e4, e5, e6, e7, e8, e9⟩ :=
      Ideal.ideal_first_fit_lowest_slot p hr1 hp k hk hex
    refine ⟨(Ideal.mem_new_alloc p k).1, S, ?_, h02, e2, e3, e4, e5, e6, e7, e8, e9⟩
    rw [hbr, ← e1]

theorem C6_witness :
    (∀ q a, mem_new_alloc host_filled scenario_split 3 = some (q, some a) →
      ∃ i, a = q.heap_at + i ∧ i < q.total_nodes ∧
        (nodeAt (_mem_resize_node_heap host_filled scenario_split).1.node_heap i).used = 1 ∧
        (nodeAt (_mem_resize_node_heap host_filled scenario_split).1.node_heap i).allocated
          = 0 ∧
        3 ≤ (nodeAt (_mem_resize_node_heap host_filled scenario_split).1.node_heap
          i).alloc_record.size ∧
        ∀ j, j < i →
          ¬ ((nodeAt (_mem_resize_node_heap host_filled scenario_split).1.node_heap j).used
              = 1 ∧
            (nodeAt (_mem_resize_node_heap host_filled scenario_split).1.node_heap
              j).allocated = 0 ∧
            3 ≤ (nodeAt (_mem_resize_node_heap host_filled scenario_split).1.node_heap
              j).alloc_record.size)) ∧
    ∃ L, seg_list scenario_split = some L ∧
      ((∃ i, i ∈ L ∧ seg_free scenario_split i = true ∧ 3 ≤ seg_size scenario_split i) →
        ∃ q S, mem_new_alloc host_zero scenario_split 3 = some (q, some S) ∧ q.heap_at = 0 ∧
          S ∈ L ∧ seg_free scenario_split S = true ∧ 3 ≤ seg_size scenario_split S ∧
          (∀ i ∈ L, seg_free scenario_split i = true → 3 ≤ seg_size scenario_split i →
            S ≤ i) ∧
          seg_free q S = false ∧ seg_size q S = 3 ∧
          seg_offset q S = seg_offset scenario_split S ∧
          ((∀ i ∈ L, ∀ j ∈ L, seg_free scenario_split i = true →
              seg_free scenario_split j = true → 3 ≤ seg_size scenario_split i →
              3 ≤ seg_size scenario_split j → i ≤ j →
              seg_offset scenario_split i ≤ seg_offset scenario_split j) →
            ∀ i ∈ L, seg_free scenario_split i = true → 3 ≤ seg_size scenario_split i →
              seg_offset scenario_split S ≤ seg_offset scenario_split i)) :=
  ⟨(C6_first_fit_lowest_slot host_filled scenario_split 3 (by decide) (by decide)).1,
    (C6_first_fit_lowest_slot host_zero scenario_split 3 (by decide) (by decide)).2
      benign_zero
      ⟨100, reach_mono (fun _ => True) (fun _ _ => trivial) scenario_split_reachable⟩⟩

/-- C16, counterexample: on a freshly opened pool of 100 bytes, on a host that clears memory
and never moves a block, under either policy, `mem_new_alloc(pool, 0)` returns the handle of
slot 0, an allocation of size 0, and not `NULL`. -/
theorem C16_counterexample :
    ReachableOn benign (fun k => 0 < k) 100 alloc_policy.FIRST_FIT
      (mem_pool_open host_zero 100 alloc_policy.FIRST_FIT) ∧
    (mem_new_alloc host_zero (mem_pool_open host_zero 100 alloc_policy.FIRST_FIT) 0).map
      (fun r => r.2) = some (some 0) ∧
    ReachableOn benign (fun k => 0 < k) 100 alloc_policy.BEST_FIT
      (mem_pool_open host_zero 100 alloc_policy.BEST_FIT) ∧
    (mem_new_alloc host_zero (mem_pool_open host_zero 100 alloc_policy.BEST_FIT) 0).map
      (fun r => r.2) = some (some 0) ∧
    (after_alloc host_zero (mem_pool_open host_zero 100 alloc_policy.FIRST_FIT)
      0).pool.num_allocs = 1 ∧
    mem_inspect_pool (after_alloc host_zero (mem_pool_open host_zero 100 alloc_policy.FIRST_FIT)
      0) = some [⟨0, 1⟩, ⟨100, 0⟩] :=
  ⟨ReachableOn.opened host_zero benign_zero, by decide,
    ReachableOn.opened host_zero benign_zero, by decide, by decide, by decide⟩

/-- C16, amended: on every host and in every reachable pool state, `mem_new_alloc(pool, 0)`
returns `NULL` and leaves the pool as it is when the pool has no gap (`num_gaps == 0`).  On a
host that clears memory and never moves a block, in every pool state reached by calls with
live handles, under either policy, it returns `NULL` if and only if the pool has no gap; when
there is a gap it returns the handle of a free segment, which becomes an allocation of size 0
at the same offset. -/
theorem C16_zero_request (h : host_t) (p : pool_mgr_t) (hr : Reachable p) :
    (p.pool.num_gaps = 0 → mem_new_alloc h p 0 = some (p, none)) ∧
    (benign h → (∃ size policy, ReachableOn benign (fun _ => True) size policy p) →
      ∃ q r L, mem_new_alloc h p 0 = some (q, r) ∧ seg_list p = some L ∧
        (r = none ↔ p.pool.num_gaps = 0) ∧
        (p.pool.num_gaps ≠ 0 → ∃ S, r = some S ∧ S ∈ L ∧ seg_free p S = true ∧
          live q S ∧ seg_size q S = 0 ∧ seg_offset q S = seg_offset p S)) := by
  have _ := hr
  refine ⟨fun h0 => ?_, fun hb hro => ?_⟩
  · unfold mem_new_alloc
    rw [if_pos h0]
  · obtain ⟨size, policy, hro⟩ := hro
    obtain ⟨hr1, h0, hc⟩ := ideal_of_on hro
    obtain ⟨hsl, w⟩ := seg_list_bridge hro
    obtain ⟨hbr, _, h02⟩ := new_alloc_bridge hb w h0 hc 0
    obtain ⟨e1, e2⟩ := Ideal.ideal_zero_request p hr1
    refine ⟨(Ideal.mem_new_alloc p 0).1, (Ideal.mem_new_alloc p 0).2, _, hbr, hsl, e1,
      fun hg => ?_⟩
    obtain ⟨S, s1, s2, s3, s4, s5, s6⟩ := e2 hg
    exact ⟨S, s1, s2, s3, (live_bridge h02 S).2 s4, s5, s6⟩

theorem C16_witness :
    scenario_whole.pool.num_gaps = 0 ∧
    mem_new_alloc host_moving scenario_whole 0 = some (scenario_whole, none) ∧
    ∃ q r L, mem_new_alloc host_zero scenario_holes 0 = some (q, r) ∧
      seg_list scenario_holes = some L ∧
      (r = none ↔ scenario_holes.pool.num_gaps = 0) ∧
      (scenario_holes.pool.num_gaps ≠ 0 → ∃ S, r = some S ∧ S ∈ L ∧
        seg_free scenario_holes S = true ∧ live q S ∧ seg_size q S = 0 ∧
        seg_offset q S = seg_offset scenario_holes S) :=
  ⟨by decide,
    (C16_zero_request host_moving scenario_whole
      (reachable_of_on scenario_whole_reachable)).1 (by decide),
    (C16_zero_request host_zero scenario_holes
      (reachable_of_on scenario_holes_reachable)).2 benign_zero
      ⟨100, alloc_policy.FIRST_FIT,
        reach_mono (fun _ => True) (fun _ _ => trivial) scenario_holes_reachable⟩⟩

end MemPool
